import Mathlib

/-!
Verification of the SuperBased v3 sync client (todo app).

This file gives a shallow embedding, in Lean 4, of the parts of the
repository that the specification's claims are about:

* the JSON codec used by the local record store (`JSON.parse` /
  `JSON.stringify` as exercised by `db.js`), including the
  control-character `sanitizeJsonString` recovery pass;
* the Dexie-backed versioned record store operations
  (`serializeTodo`, `deserializeTodo`, `updateTodo`,
  `transitionTodoState`, `getAiReviewsByOwner`);
* the v3 record sealing/unsealing helpers (`formatForV3Sync`,
  `parseV3Record`) with decryption modelled by oracle functions;
* the sync pass `performSync` (pull, remote-delete detection, push,
  terminal deletes, ai_reviews pull);
* the relay notification filter (`SyncNotifier.handleEvent`).

JavaScript dynamic values that flow through `JSON.parse` are modelled by
the inductive type `JVal`; JavaScript objects are association lists in
which a later binding for a key shadows an earlier one (this matches
both object spread and `JSON.parse` duplicate-key handling).
-/

/-- A JSON value as produced by `JSON.parse`.  Numbers are modelled as
rationals: every literal the JSON grammar can denote is of shape
`m * 10^e` and hence an exact rational. -/
inductive JVal where
  | jnull : JVal
  | jbool (b : Bool) : JVal
  | jnum (q : ℚ) : JVal
  | jstr (s : String) : JVal
  | jarr (elems : List JVal) : JVal
  | jobj (mems : List (String × JVal)) : JVal

/-- A JavaScript object, as an association list of fields. -/
abbrev JObjFields := List (String × JVal)

/-- JavaScript member access `o.k`: the value of the last binding of
`k`, mirroring the way later bindings shadow earlier ones. -/
def oget (o : JObjFields) (k : String) : Option JVal :=
  (o.reverse.find? (fun p => p.1 == k)).map (·.2)

/-- JavaScript truthiness of a value. -/
def truthy : JVal → Bool
  | JVal.jnull => false
  | JVal.jbool b => b
  | JVal.jnum q => !(q == 0)
  | JVal.jstr s => !(s == "")
  | JVal.jarr _ => true
  | JVal.jobj _ => true

/-- The effect of spreading a parsed JSON value into an object literal,
`\x7b...data\x7d`: objects contribute their fields, strings contribute
indexed characters, arrays indexed elements, primitives nothing. -/
def spreadJ : JVal → JObjFields
  | JVal.jobj mems => mems
  | JVal.jstr s => (s.toList.enum.map fun p => (toString p.1, JVal.jstr (String.singleton p.2)))
  | JVal.jarr xs => (xs.enum.map fun p => (toString p.1, p.2))
  | _ => []

/-! ### JSON text: characters -/

/-- The opening brace character. -/
def lbrace : Char := Char.ofNat 123

/-- The closing brace character. -/
def rbrace : Char := Char.ofNat 125

/-- JSON whitespace: space, tab, line feed, carriage return. -/
def isJsonWs (c : Char) : Bool :=
  c == ' ' || c == Char.ofNat 9 || c == Char.ofNat 10 || c == Char.ofNat 13

/-- Skip leading JSON whitespace. -/
def skipWs : List Char → List Char
  | [] => []
  | c :: cs => if isJsonWs c then skipWs cs else c :: cs

/-- Decimal digit test. -/
def isDigitC (c : Char) : Bool := '0' ≤ c && c ≤ '9'

/-- Hexadecimal digit value. -/
def hexVal (c : Char) : Option Nat :=
  let n := c.toNat
  if 48 ≤ n && n ≤ 57 then some (n - 48)
  else if 97 ≤ n && n ≤ 102 then some (n - 87)
  else if 65 ≤ n && n ≤ 70 then some (n - 55)
  else none

/-! ### JSON string literals -/

/-- Parse the body of a JSON string literal (the opening quote already
consumed), returning the decoded characters and the input remaining
after the closing quote.  Unescaped control characters (code points
below `0x20`) are a parse error, exactly as in `JSON.parse` — this is
what makes raw newlines inside agent-written payloads fail the primary
parse. -/
def parseStringBody : Nat → List Char → Option (List Char × List Char)
  | 0, _ => none
  | _ + 1, [] => none
  | fuel + 1, c :: cs =>
    if c == '"' then
      some ([], cs)
    else if c == '\\' then
      match cs with
      | [] => none
      | e :: cs2 =>
        let dec : Option (Char × List Char) :=
          if e == '"' then some ('"', cs2)
          else if e == '\\' then some ('\\', cs2)
          else if e == '/' then some ('/', cs2)
          else if e == 'b' then some (Char.ofNat 8, cs2)
          else if e == 'f' then some (Char.ofNat 12, cs2)
          else if e == 'n' then some (Char.ofNat 10, cs2)
          else if e == 'r' then some (Char.ofNat 13, cs2)
          else if e == 't' then some (Char.ofNat 9, cs2)
          else if e == 'u' then
            match cs2 with
            | h1 :: h2 :: h3 :: h4 :: cs3 =>
              match hexVal h1, hexVal h2, hexVal h3, hexVal h4 with
              | some a, some b, some c3, some d =>
                some (Char.ofNat (((a * 16 + b) * 16 + c3) * 16 + d), cs3)
              | _, _, _, _ => none
            | _ => none
          else none
        match dec with
        | none => none
        | some (ch, rest) =>
          match parseStringBody fuel rest with
          | none => none
          | some (tl, rest2) => some (ch :: tl, rest2)
    else if c.toNat < 32 then
      none
    else
      match parseStringBody fuel cs with
      | none => none
      | some (tl, rest) => some (c :: tl, rest)

/-! ### JSON numbers -/

/-- Consume a run of decimal digits, returning them and the rest. -/
def takeDigits : List Char → List Char × List Char
  | [] => ([], [])
  | c :: cs =>
    if isDigitC c then
      let p := takeDigits cs
      (c :: p.1, p.2)
    else ([], c :: cs)

/-- Numeric value of a digit string. -/
def digitsToNat (ds : List Char) : Nat :=
  ds.foldl (fun acc c => acc * 10 + (c.toNat - '0'.toNat)) 0

/-- Parse a JSON number literal (grammar: `-? int frac? exp?`). -/
def parseNumber (cs : List Char) : Option (ℚ × List Char) :=
  let (neg, cs1) :=
    match cs with
    | c :: rest => if c == '-' then (true, rest) else (false, cs)
    | [] => (false, [])
  let (ip, cs2) := takeDigits cs1
  if ip.isEmpty then none
  else if 1 < ip.length && ip.headD ' ' == '0' then none
  else
    let (fp, cs3) :=
      match cs2 with
      | c :: rest =>
        if c == '.' then
          let p := takeDigits rest
          if p.1.isEmpty then ([], cs2) else (p.1, p.2)
        else ([], cs2)
      | [] => ([], cs2)
    let okFrac : Bool :=
      match cs2 with
      | c :: _ => !(c == '.' && fp.isEmpty)
      | [] => true
    if !okFrac then none
    else
      let (eo, cs4) :=
        match cs3 with
        | c :: rest =>
          if c == 'e' || c == 'E' then
            let (esign, rest2) :=
              match rest with
              | d :: r2 =>
                if d == '-' then ((-1 : Int), r2)
                else if d == '+' then ((1 : Int), r2)
                else ((1 : Int), rest)
              | [] => ((1 : Int), rest)
            let p := takeDigits rest2
            if p.1.isEmpty then (none, cs3)
            else (some (esign * (digitsToNat p.1 : Int)), p.2)
          else (none, cs3)
        | [] => (none, cs3)
      let mantissa : Int := (digitsToNat ip * 10 ^ fp.length + digitsToNat fp : Nat)
      let mantissa : Int := if neg then -mantissa else mantissa
      match eo with
      | none =>
        if (match cs3 with | c :: _ => c == 'e' || c == 'E' | [] => false) then none
        else some (mkRat mantissa (10 ^ fp.length), cs3)
      | some e =>
        let shift : Int := e - (fp.length : Int)
        let q : ℚ :=
          if 0 ≤ shift then mkRat (mantissa * 10 ^ shift.toNat) 1
          else mkRat mantissa (10 ^ (-shift).toNat)
        some (q, cs4)

/-! ### JSON values -/

/-- Parser mode: a value, the members of an object (accumulated so
far), or the elements of an array.  A single fuel-indexed function
over the three modes keeps the recursion structural, so that concrete
parses reduce definitionally. -/
inductive PMode where
  | value : PMode
  | members (acc : JObjFields) : PMode
  | elems (acc : List JVal) : PMode

/-- The JSON grammar: parse one value / the members of an object / the
elements of an array at the head of the input (no leading whitespace),
returning the value and the remaining input. -/
def parseCore : Nat → PMode → List Char → Option (JVal × List Char)
  | 0, _, _ => none
  | _ + 1, PMode.value, [] => none
  | fuel + 1, PMode.value, c :: cs =>
    if c == 'n' then
      match cs with
      | 'u' :: 'l' :: 'l' :: rest => some (JVal.jnull, rest)
      | _ => none
    else if c == 't' then
      match cs with
      | 'r' :: 'u' :: 'e' :: rest => some (JVal.jbool true, rest)
      | _ => none
    else if c == 'f' then
      match cs with
      | 'a' :: 'l' :: 's' :: 'e' :: rest => some (JVal.jbool false, rest)
      | _ => none
    else if c == '"' then
      match parseStringBody (fuel + 1) cs with
      | none => none
      | some (body, rest) => some (JVal.jstr (String.mk body), rest)
    else if c == lbrace then
      match skipWs cs with
      | d :: rest =>
        if d == rbrace then some (JVal.jobj [], rest)
        else parseCore fuel (PMode.members []) (d :: rest)
      | [] => none
    else if c == '[' then
      match skipWs cs with
      | d :: rest =>
        if d == ']' then some (JVal.jarr [], rest)
        else parseCore fuel (PMode.elems []) (d :: rest)
      | [] => none
    else if c == '-' || isDigitC c then
      match parseNumber (c :: cs) with
      | none => none
      | some (q, rest) => some (JVal.jnum q, rest)
    else none
  | fuel + 1, PMode.members acc, cs =>
    match cs with
    | '"' :: cs1 =>
      match parseStringBody (fuel + 1) cs1 with
      | none => none
      | some (key, cs2) =>
        match skipWs cs2 with
        | ':' :: cs3 =>
          match parseCore fuel PMode.value (skipWs cs3) with
          | none => none
          | some (v, cs4) =>
            match skipWs cs4 with
            | ',' :: cs5 => parseCore fuel (PMode.members (acc ++ [(String.mk key, v)])) (skipWs cs5)
            | d :: cs5 =>
              if d == rbrace then some (JVal.jobj (acc ++ [(String.mk key, v)]), cs5)
              else none
            | [] => none
        | _ => none
    | _ => none
  | fuel + 1, PMode.elems acc, cs =>
    match parseCore fuel PMode.value cs with
    | none => none
    | some (v, cs1) =>
      match skipWs cs1 with
      | ',' :: cs2 => parseCore fuel (PMode.elems (acc ++ [v])) (skipWs cs2)
      | d :: cs2 =>
        if d == ']' then some (JVal.jarr (acc ++ [v]), cs2)
        else none
      | [] => none

/-- Parse one JSON value at the head of the input. -/
def parseVal (fuel : Nat) (cs : List Char) : Option (JVal × List Char) :=
  parseCore fuel PMode.value cs

/-- `JSON.parse`: whitespace, one value, whitespace, end of input.
Any failure throws in JavaScript; here it is `none`. -/
def jsonParse (s : String) : Option JVal :=
  let cs := skipWs s.toList
  match parseVal (s.length + 2) cs with
  | none => none
  | some (v, rest) => if (skipWs rest).isEmpty then some v else none

/-! ### `JSON.stringify` -/

/-- Escape one character for a JSON string literal, as
`JSON.stringify` does: quote, backslash and the named control escapes,
`\u00xx` for the remaining control characters. -/
def escapeChar (c : Char) : List Char :=
  if c == '"' then ['\\', '"']
  else if c == '\\' then ['\\', '\\']
  else if c == Char.ofNat 8 then ['\\', 'b']
  else if c == Char.ofNat 9 then ['\\', 't']
  else if c == Char.ofNat 10 then ['\\', 'n']
  else if c == Char.ofNat 12 then ['\\', 'f']
  else if c == Char.ofNat 13 then ['\\', 'r']
  else if c.toNat < 32 then
    let hex := fun (n : Nat) => if n < 10 then Char.ofNat ('0'.toNat + n) else Char.ofNat ('a'.toNat + n - 10)
    ['\\', 'u', '0', '0', hex (c.toNat / 16), hex (c.toNat % 16)]
  else [c]

/-- Serialize a string as a JSON string literal. -/
def jsonQuote (s : String) : String :=
  String.mk ('"' :: (s.toList.flatMap escapeChar) ++ ['"'])

/-- Print a rational as a JSON number.  Every number a JavaScript
program can hold is a binary float, hence has an exact finite decimal
expansion, which is what is printed; the fallback branch is
unreachable for such values. -/
def stringifyNum (q : ℚ) : String :=
  if q.den == 1 then toString q.num
  else
    match (List.range 64).find? (fun k => (q * (10 : ℚ) ^ k).den == 1) with
    | some k =>
      let m := (q * (10 : ℚ) ^ k).num
      let ds := toString m.natAbs
      let ds := String.mk (List.replicate (k + 1 - ds.length) '0') ++ ds
      let ip := ds.toList.take (ds.length - k)
      let fp := ds.toList.drop (ds.length - k)
      (if q.num < 0 then "-" else "") ++ String.mk ip ++ "." ++ String.mk fp
    | none => toString q.num

mutual

/-- `JSON.stringify` on a parsed value. -/
def stringifyV : JVal → String
  | JVal.jnull => "null"
  | JVal.jbool true => "true"
  | JVal.jbool false => "false"
  | JVal.jnum q => stringifyNum q
  | JVal.jstr s => jsonQuote s
  | JVal.jarr xs => "[" ++ String.intercalate "," (stringifyL xs) ++ "]"
  | JVal.jobj ms => String.singleton lbrace ++ String.intercalate "," (stringifyM ms) ++ String.singleton rbrace

/-- Stringify the elements of an array. -/
def stringifyL : List JVal → List String
  | [] => []
  | v :: vs => stringifyV v :: stringifyL vs

/-- Stringify the members of an object. -/
def stringifyM : JObjFields → List String
  | [] => []
  | (k, v) :: ms => (jsonQuote k ++ ":" ++ stringifyV v) :: stringifyM ms

end

/-! ### `sanitizeJsonString` (db.js lines 19-27)

The source applies, in order: `\r\n` → `\n`-escape, `\r` → `\n`-escape,
`\n` → `\n`-escape, `\t` → `\t`-escape, then strips the remaining
control characters `[\x00-\x08\x0B\x0C\x0E-\x1F]`.  Since the escape
text introduced by each pass contains no character any later pass
rewrites, the chain is equivalent to the single left-to-right pass
implemented here. -/

/-- One pass over the characters implementing the chained replaces of
`sanitizeJsonString`. -/
def sanitizeChars : List Char → List Char
  | [] => []
  | c :: cs =>
    if c == Char.ofNat 13 then
      match cs with
      | d :: cs2 =>
        if d == Char.ofNat 10 then '\\' :: 'n' :: sanitizeChars cs2
        else '\\' :: 'n' :: sanitizeChars (d :: cs2)
      | [] => ['\\', 'n']
    else if c == Char.ofNat 10 then '\\' :: 'n' :: sanitizeChars cs
    else if c == Char.ofNat 9 then '\\' :: 't' :: sanitizeChars cs
    else if c.toNat < 32 then sanitizeChars cs
    else c :: sanitizeChars cs

/-- `sanitizeJsonString` from db.js: escape stray control characters so
that a retried `JSON.parse` can succeed. -/
def sanitizeJsonString (s : String) : String :=
  String.mk (sanitizeChars s.toList)

/-! ### The versioned record store rows -/

/-- A stored Dexie row of the `todos` table (db.js schema
`record_id, owner` plus the payload/version/pending fields every write
of the v3 code supplies). -/
structure Row where
  record_id : String
  owner : String
  payload : String
  version : Int
  pending : Bool
  deriving DecidableEq, Repr

/-- Remove the given keys from an object (JavaScript rest-destructuring
`const \x7b a, b, ...rest \x7d = o`). -/
def stripKeys (o : JObjFields) (ks : List String) : JObjFields :=
  o.filter (fun p => !(ks.contains p.1))

/-- The four row-level keys `serializeTodo` splits off the payload. -/
def metaKeys : List String := ["record_id", "owner", "version", "pending"]

/-- Read a string-valued field (used for `record_id` / `owner`). -/
def strField (o : JObjFields) (k : String) : String :=
  match oget o k with
  | some (JVal.jstr s) => s
  | _ => ""

/-- Read the `version` field with the source's `version ?? 0` default.
The v3 code only ever stores integer versions. -/
def versionField (o : JObjFields) : Int :=
  match oget o "version" with
  | some (JVal.jnum q) => q.num / (q.den : Int)
  | _ => 0

/-- Read the `pending` field with the source's `pending ?? true`
default.  The v3 code only ever stores booleans here. -/
def pendingField (o : JObjFields) : Bool :=
  match oget o "pending" with
  | some (JVal.jbool b) => b
  | _ => true

/-- `serializeTodo` from db.js: split off `record_id`, `owner`,
`version`, `pending`, and store every remaining field as the
JSON-encoded `payload`. -/
def serializeTodo (todo : JObjFields) : Row :=
  { record_id := strField todo "record_id"
    owner := strField todo "owner"
    payload := stringifyV (JVal.jobj (stripKeys todo metaKeys))
    version := versionField todo
    pending := pendingField todo }

/-- The placeholder object `deserializeTodo` returns when a payload is
unparseable even after sanitization. -/
def parseErrorPlaceholder (rid owner : String) : JObjFields :=
  [("record_id", JVal.jstr rid), ("owner", JVal.jstr owner),
   ("title", JVal.jstr "[Parse error - invalid JSON]"),
   ("description", JVal.jstr ""), ("priority", JVal.jstr "sand"),
   ("state", JVal.jstr "new"), ("tags", JVal.jstr ""),
   ("scheduled_for", JVal.jnull), ("done", JVal.jnum 0),
   ("deleted", JVal.jnum 1), ("created_at", JVal.jnull)]

/-- The stored row viewed as a JavaScript object (what the source's
`return storedTodo` early exit hands back when `payload` is falsy). -/
def rowAsObject (r : Row) : JObjFields :=
  [("record_id", JVal.jstr r.record_id), ("owner", JVal.jstr r.owner),
   ("payload", JVal.jstr r.payload), ("version", JVal.jnum (r.version : ℚ)),
   ("pending", JVal.jbool r.pending)]

/-- `deserializeTodo` from db.js: parse the payload, retrying once on
the sanitized text, falling back to the soft-deleted placeholder; a
falsy (empty) payload returns the stored row unchanged.  The function
is total — the JavaScript version never throws, every failure path is
caught. -/
def deserializeTodo (r : Row) : JObjFields :=
  if r.payload == "" then rowAsObject r
  else
    match jsonParse r.payload with
    | some d => [("record_id", JVal.jstr r.record_id), ("owner", JVal.jstr r.owner)] ++ spreadJ d
    | none =>
      match jsonParse (sanitizeJsonString r.payload) with
      | some d => [("record_id", JVal.jstr r.record_id), ("owner", JVal.jstr r.owner)] ++ spreadJ d
      | none => parseErrorPlaceholder r.record_id r.owner

/-! ### `updateTodo` and `transitionTodoState` (db.js lines 134-169) -/

/-- The done-flag coupling at the head of `updateTodo`: if
`updates.state === 'done'` set `updates.done = 1`, else if
`updates.state` is truthy set `updates.done = 0`. -/
def applyDoneRule (updates : JObjFields) : JObjFields :=
  match oget updates "state" with
  | some (JVal.jstr s) =>
    if s == "done" then updates ++ [("done", JVal.jnum 1)]
    else if !(s == "") then updates ++ [("done", JVal.jnum 0)]
    else updates
  | some v =>
    if truthy v then updates ++ [("done", JVal.jnum 0)] else updates
  | none => updates

/-- The `updated` object built by `updateTodo` before serialization:
`\x7b...existing, ...updates, updated_at: now, version:
existingStored.version, pending: true\x7d`. -/
def updateMerged (r : Row) (updates : JObjFields) (now : String) : JObjFields :=
  deserializeTodo r ++ applyDoneRule updates ++
    [("updated_at", JVal.jstr now), ("version", JVal.jnum (r.version : ℚ)),
     ("pending", JVal.jbool true)]

/-- `updateTodo` from db.js, as the row written back by `db.todos.put`
(`now` is the caller's clock reading). -/
def updateTodo (r : Row) (updates : JObjFields) (now : String) : Row :=
  serializeTodo (updateMerged r updates now)

/-- The updates object `transitionTodoState` builds: the new state plus
the forced done flag. -/
def transitionUpdates (newState : String) : JObjFields :=
  if newState == "done" then
    [("state", JVal.jstr newState), ("done", JVal.jnum 1)]
  else
    [("state", JVal.jstr newState), ("done", JVal.jnum 0)]

/-- `transitionTodoState` from db.js: set the state and force the done
flag, then delegate to `updateTodo`. -/
def transitionTodoState (r : Row) (newState : String) (now : String) : Row :=
  updateTodo r (transitionUpdates newState) now

/-! ### Raw agent-written blobs (for the decode-tolerance property)

A careless external writer serializes string fields without escaping
control characters: the blob below is a JSON object text whose string
values are spliced in raw.  `JSON.parse` rejects raw control
characters inside string literals, and `sanitizeJsonString` turns them
into proper escapes. -/

/-- A character that needs no escaping inside a JSON string literal. -/
def plainChar (c : Char) : Bool :=
  32 ≤ c.toNat && !(c == '"') && !(c == '\\')

/-- A raw value character: printable, or a raw line feed / tab. -/
def valChar (c : Char) : Bool :=
  plainChar c || c == Char.ofNat 10 || c == Char.ofNat 9

/-- One raw member, `"key":"value"`, with the value spliced unescaped. -/
def rawMember (kv : String × String) : List Char :=
  '"' :: kv.1.toList ++ '"' :: ':' :: '"' :: kv.2.toList ++ ['"']

/-- The comma-joined raw members. -/
def rawMembers : List (String × String) → List Char
  | [] => []
  | [kv] => rawMember kv
  | kv :: rest => rawMember kv ++ ',' :: rawMembers rest

/-- The whole raw object blob. -/
def rawObjBlob (kvs : List (String × String)) : String :=
  String.mk (lbrace :: rawMembers kvs ++ [rbrace])

/-- What `sanitizeJsonString` does to one character of a CR-free text:
line feed and tab become their two-character escapes, the remaining
control characters are dropped, everything else is kept. -/
def sanChar (c : Char) : List Char :=
  if c == Char.ofNat 10 then ['\\', 'n']
  else if c == Char.ofNat 9 then ['\\', 't']
  else if c.toNat < 32 then []
  else [c]

/-- One member after sanitization: the value's control characters are
now proper escapes. -/
def encMember (kv : String × String) : List Char :=
  '"' :: kv.1.toList ++ '"' :: ':' :: '"' :: kv.2.toList.flatMap sanChar ++ ['"']

/-- The comma-joined sanitized members. -/
def encMembers : List (String × String) → List Char
  | [] => []
  | [kv] => encMember kv
  | kv :: rest => encMember kv ++ ',' :: encMembers rest

/-! ### Encryption layer (nostr.js), modelled by oracles

NIP-44 encryption/decryption is modelled by oracle functions carried in
a context: `encSelf`/`decSelf` for the self-addressed conversation key,
`encTo`/`decFrom` for a cross-identity conversation.  Decryption is
partial (`Option`); a `none` is the thrown error of the source. -/

structure CryptoCtx where
  /-- `getMemoryPubkey()`: the ambient pubkey, absent for some
  extension flows. -/
  myPubkey : Option String
  /-- `encryptToSelf`. -/
  encSelf : String → String
  /-- `encryptToRecipient plaintext recipient`. -/
  encTo : String → String → String
  /-- `decryptFromSelf`. -/
  decSelf : String → Option String
  /-- `decryptFromSender ciphertext senderPubkey`. -/
  decFrom : String → String → Option String

/-- A v3 wire record (Sealed Envelope): what `fetchRecords` returns and
`syncRecords` submits.  `encrypted_from` is `none` when the field is
absent or null. -/
structure WireRecord where
  record_id : String
  collection : String
  version : Int
  updated_at : String
  encrypted_data : String
  encrypted_from : Option String
  delegate_payloads : List (String × String)
  deriving DecidableEq, Repr

/-- One decryption attempt made by `parseV3Record`: either
self-decryption of a ciphertext, or decryption of a ciphertext as
coming from a named sender. -/
inductive DecAttempt where
  | asSelf (ciphertext : String) : DecAttempt
  | asFrom (ciphertext : String) (sender : String) : DecAttempt
  deriving DecidableEq, Repr

/-- The delegate payload addressed to us:
`record.delegate_payloads?.[myPubkey]`, with JavaScript truthiness on
both the key and the looked-up ciphertext. -/
def delegateCt (ctx : CryptoCtx) (rec : WireRecord) : Option String :=
  match ctx.myPubkey with
  | some m =>
    if m == "" then none
    else
      match rec.delegate_payloads.lookup m with
      | some dp => if dp == "" then none else some dp
      | none => none
  | none => none

/-- The decryption dispatch of `parseV3Record` (db.js lines 259-292),
instrumented with the list of decryption attempts it makes, in order.
When `encrypted_from` is present (truthy) and differs from our pubkey
the source first decrypts `encrypted_data` as coming from that sender
and falls back to our delegate payload; otherwise it first
self-decrypts and falls back to the delegate payload using
`encrypted_from` as the owner identity. -/
def parseV3Dispatch (ctx : CryptoCtx) (rec : WireRecord) :
    Option String × List DecAttempt :=
  let senderBranch : Bool :=
    (match rec.encrypted_from with
     | some ef => !(ef == "")
     | none => false) && !(rec.encrypted_from == ctx.myPubkey)
  if senderBranch then
    let ef := rec.encrypted_from.getD ""
    match ctx.decFrom rec.encrypted_data ef with
    | some p => (some p, [DecAttempt.asFrom rec.encrypted_data ef])
    | none =>
      match delegateCt ctx rec with
      | some dp =>
        (ctx.decFrom dp ef,
         [DecAttempt.asFrom rec.encrypted_data ef, DecAttempt.asFrom dp ef])
      | none => (none, [DecAttempt.asFrom rec.encrypted_data ef])
  else
    match ctx.decSelf rec.encrypted_data with
    | some p => (some p, [DecAttempt.asSelf rec.encrypted_data])
    | none =>
      match delegateCt ctx rec with
      | some dp =>
        match rec.encrypted_from with
        | some ef =>
          if ef == "" then (none, [DecAttempt.asSelf rec.encrypted_data])
          else
            (ctx.decFrom dp ef,
             [DecAttempt.asSelf rec.encrypted_data, DecAttempt.asFrom dp ef])
        | none => (none, [DecAttempt.asSelf rec.encrypted_data])
      | none => (none, [DecAttempt.asSelf rec.encrypted_data])

/-- `parseV3Record` from db.js: decrypt via the dispatch above, then
sanitize the plaintext if it does not parse as JSON; `none` is the
source's `null` (all errors caught). -/
def parseV3Record (ctx : CryptoCtx) (rec : WireRecord) : Option String :=
  match (parseV3Dispatch ctx rec).1 with
  | none => none
  | some p => some (if (jsonParse p).isSome then p else sanitizeJsonString p)

/-- The decryption attempts `parseV3Record` makes on a record. -/
def parseV3Attempts (ctx : CryptoCtx) (rec : WireRecord) : List DecAttempt :=
  (parseV3Dispatch ctx rec).2

/-- `formatForV3Sync` from db.js: one wire record per pending row,
sealed to self, with one delegate payload per delegate pubkey and
`encrypted_from` set to our own pubkey.  (The pushed record carries no
version; the server assigns one.  The `version`/`updated_at` slots of
the wire structure are unused on this path.) -/
def formatForV3Sync (ctx : CryptoCtx) (storedTodos : List Row)
    (delegatePubkeys : List String) : List WireRecord :=
  storedTodos.map fun todo =>
    { record_id := todo.record_id
      collection := "todos"
      version := 0
      updated_at := ""
      encrypted_data := ctx.encSelf todo.payload
      encrypted_from := ctx.myPubkey
      delegate_payloads := delegatePubkeys.map fun d => (d, ctx.encTo todo.payload d) }

/-! ### `SyncNotifier.handleEvent` (sync-notifier.js lines 164-203) -/

/-- The local state of a `SyncNotifier` that `handleEvent` consults:
the tracked app namespace, the device identifier, and whether
`startSubscription` has registered a callback. -/
structure NotifierState where
  appNpub : String
  deviceId : String
  callbackRegistered : Bool
  deriving DecidableEq, Repr

/-- A decrypted sync-notification payload. -/
structure NotifyPayload where
  deviceId : String
  appNpub : String
  deriving DecidableEq, Repr

/-- `SyncNotifier.handleEvent`, reduced to its observable decision:
whether the registered callback fires.  `decrypted` is the outcome of
the NIP-44 decryption + `JSON.parse` of the event content (`none` when
either fails, which the source logs and swallows).  The callback fires
only when the notice is not a self-echo (`payload.deviceId ===
this.deviceId`) and is for the tracked app (`payload.appNpub !==
this.appNpub` is the skip condition). -/
def handleEvent (st : NotifierState) (decrypted : Option NotifyPayload) : Bool :=
  match decrypted with
  | none => false
  | some payload =>
    if payload.deviceId == st.deviceId then false
    else if !(payload.appNpub == st.appNpub) then false
    else st.callbackRegistered

/-! ### The local store (Dexie `todos` table)

The table is keyed by `record_id`; we model it as a list of rows in
which (for the store states the theorems quantify over) keys are
unique.  `dbPut` is Dexie's upsert, `dbUpdate` modifies a row in place
if present, `dbDelete` removes it. -/

/-- The local store. -/
abbrev Store := List Row

/-- `db.todos.get(id)`. -/
def dbGet (s : Store) (id : String) : Option Row :=
  s.find? (fun r => r.record_id == id)

/-- `db.todos.put(row)`: replace the row with this key, or append. -/
def dbPut (s : Store) (row : Row) : Store :=
  if s.any (fun r => r.record_id == row.record_id) then
    s.map (fun r => if r.record_id == row.record_id then row else r)
  else s ++ [row]

/-- `db.todos.delete(id)`. -/
def dbDelete (s : Store) (id : String) : Store :=
  s.filter (fun r => !(r.record_id == id))

/-- `db.todos.update(id, changes)` for the version/pending write-back
of the push phase. -/
def dbUpdate (s : Store) (id : String) (f : Row → Row) : Store :=
  s.map (fun r => if r.record_id == id then f r else r)

/-- `db.todos.where('owner').equals(owner).toArray()`. -/
def byOwner (s : Store) (owner : String) : List Row :=
  s.filter (fun r => r.owner == owner)

/-! ### `performSync` (superbased.js lines 274-404) -/

/-- The row written by the pull phase for an envelope whose payload
decrypted to `payload`. -/
def importedRow (owner : String) (rec : WireRecord) (payload : String) : Row :=
  { record_id := rec.record_id
    owner := owner
    payload := payload
    version := rec.version
    pending := false }

/-- One iteration of the pull loop: import an unknown record, overwrite
when the server version is strictly greater, skip otherwise; a record
that fails to decrypt is skipped (`if (!parsed) continue`).  The two
counters are the `pulled` and `updated` tallies. -/
def pullStep (ctx : CryptoCtx) (owner : String)
    (acc : Store × Nat × Nat) (rec : WireRecord) : Store × Nat × Nat :=
  let s := acc.1
  let pulled := acc.2.1
  let updated := acc.2.2
  match dbGet s rec.record_id with
  | none =>
    match parseV3Record ctx rec with
    | none => (s, pulled, updated)
    | some p => (dbPut s (importedRow owner rec p), pulled + 1, updated)
  | some local0 =>
    if rec.version > local0.version then
      match parseV3Record ctx rec with
      | none => (s, pulled, updated)
      | some p => (dbPut s (importedRow owner rec p), pulled, updated + 1)
    else (s, pulled, updated)

/-- Phase 1 — Pull: fold the pull loop over the fetched records. -/
def pullPhase (ctx : CryptoCtx) (owner : String) (s : Store)
    (records : List WireRecord) : Store × Nat × Nat :=
  records.foldl (pullStep ctx owner) (s, 0, 0)

/-- Strict lexicographic order on character lists. -/
def strLtB : List Char → List Char → Bool
  | [], [] => false
  | [], _ :: _ => true
  | _ :: _, [] => false
  | a :: as, b :: bs =>
    if a.toNat < b.toNat then true
    else if b.toNat < a.toNat then false
    else strLtB as bs

/-- Strict lexicographic order on strings (ISO-8601 timestamps compare
chronologically under it). -/
def strLt (a b : String) : Bool := strLtB a.toList b.toList

/-- Modelled from the spec: the §3 invariant's "the record has no
unpushed local edit newer than that remote timestamp" (§4.3
tie-break).  The code has no such notion — this definition exists only
to state the spec's invariant: the record is pending (unpushed) and its
payload's `updated_at` is later than the envelope's `updated_at`. -/
def hasUnpushedEditNewer (r : Row) (rec : WireRecord) : Bool :=
  r.pending &&
    (match jsonParse r.payload with
     | some (JVal.jobj o) =>
       match oget o "updated_at" with
       | some (JVal.jstr t) => strLt rec.updated_at t
       | _ => false
     | _ => false)

/-- The `record_id`s of a fetch response (the `serverRecordIds` set). -/
def serverRecordIds (records : List WireRecord) : List String :=
  records.map (·.record_id)

/-- The guard of the server-side-delete detection loop:
`local.version > 0 && !serverRecordIds.has(local.record_id) &&
!local.pending`. -/
def phase2Cond (serverIds : List String) (r : Row) : Bool :=
  r.version > 0 && !(serverIds.contains r.record_id) && !r.pending

/-- One iteration of the server-side-delete detection loop: a snapshot
row previously synced (`version > 0`), absent from the server response
and not pending is deleted locally. -/
def deleteDetectStep (serverIds : List String) (s : Store) (local0 : Row) : Store :=
  if phase2Cond serverIds local0 then
    dbDelete s local0.record_id
  else s

/-- Phase 2 — detect server-side deletes, iterating over the snapshot
of the owner's rows. -/
def deleteDetectPhase (owner : String) (serverIds : List String) (s : Store) : Store :=
  (byOwner s owner).foldl (deleteDetectStep serverIds) s

/-- `JSON.parse(todo.payload).deleted === 1`, with all exceptions of
the source's try/catch mapped to `false`. -/
def isSoftDeleted (payload : String) : Bool :=
  match jsonParse payload with
  | some (JVal.jobj o) =>
    match oget o "deleted" with
    | some (JVal.jnum q) => q == 1
    | _ => false
  | _ => false

/-- One entry of the push response: the server-assigned version for an
accepted record. -/
structure SyncedEntry where
  record_id : String
  version : Int
  deriving DecidableEq, Repr

/-- Write back a server-assigned version and clear `pending`. -/
def pushUpdateStep (s : Store) (e : SyncedEntry) : Store :=
  dbUpdate s e.record_id (fun r => { r with version := e.version, pending := false })

/-- The guard of the terminal-delete loop: the pushed record was
soft-deleted and the server confirmed it (`wasSynced`). -/
def terminalCond (synced : List SyncedEntry) (todo : Row) : Bool :=
  isSoftDeleted todo.payload && synced.any (fun e => e.record_id == todo.record_id)

/-- One iteration of the terminal-delete loop: a pushed soft-deleted
record confirmed by the server (`wasSynced`) is hard-deleted. -/
def terminalDeleteStep (synced : List SyncedEntry) (s : Store) (todo : Row) : Store :=
  if terminalCond synced todo then
    dbDelete s todo.record_id
  else s

/-- The push phase's query for the owner's pending rows:
`db.todos.where('owner').equals(owner).filter(t => t.pending === true)`. -/
def pendingOf (s : Store) (owner : String) : List Row :=
  (byOwner s owner).filter (fun t => t.pending == true)

/-- Phase 3 — Push.  `respond` is the remote store's reply to
`syncRecords` (the `synced` array).  Returns the new store and the
`pushed` tally.  When nothing is pending, no request is made. -/
def pushPhase (ctx : CryptoCtx) (owner : String) (delegatePubkeys : List String)
    (respond : List WireRecord → List SyncedEntry) (s : Store) : Store × Nat :=
  let pendingTodos := pendingOf s owner
  if pendingTodos.isEmpty then (s, 0)
  else
    let records := formatForV3Sync ctx pendingTodos delegatePubkeys
    let synced := respond records
    let s1 := synced.foldl pushUpdateStep s
    let s2 := pendingTodos.foldl (terminalDeleteStep synced) s1
    (s2, pendingTodos.length)

/-- `deserializeAiReview`-based filter of `getAiReviewsByOwner`: the
deserialized objects of the owner's rows whose `_collection` is
`'ai_reviews'` (rows with a falsy payload are excluded before
deserialization). -/
def getAiReviewsByOwner (s : Store) (owner : String) : List JObjFields :=
  (byOwner s owner).filterMap fun r =>
    if r.payload == "" then none
    else
      let d := deserializeTodo r
      match oget d "_collection" with
      | some (JVal.jstr c) => if c == "ai_reviews" then some d else none
      | _ => none

/-- One iteration of the ai_reviews delete-detection loop, keyed by the
deserialized review's `record_id` field and re-reading the current row
from the store. -/
def aiDeleteStep (aiIds : List String) (s : Store) (review : JObjFields) : Store :=
  let rid := strField review "record_id"
  match dbGet s rid with
  | some localRow =>
    if localRow.version > 0 && !(aiIds.contains rid) && !localRow.pending then
      dbDelete s rid
    else s
  | none => s

/-- Phase 4 — pull the `ai_reviews` collection (import/overwrite like
Phase 1) and detect its server-side deletes. -/
def aiPhase (ctx : CryptoCtx) (owner : String) (aiRecords : List WireRecord)
    (s : Store) : Store :=
  let sA := (pullPhase ctx owner s aiRecords).1
  let aiIds := serverRecordIds aiRecords
  (getAiReviewsByOwner sA owner).foldl (aiDeleteStep aiIds) sA

/-- The outcome of one sync pass (the store plus the tallies the
claims mention). -/
structure SyncOut where
  store : Store
  pulled : Nat
  updated : Nat
  pushed : Nat

/-- `performSync`: one full v3 sync pass.  `todosFetch` is the (already
received) response of the `todos` fetch; `respond` is the remote
store's reply function for the push; `aiFetch` is the response of the
`ai_reviews` fetch, `none` when that fetch failed (the source swallows
the error and skips the phase).  A failure of the first fetch aborts
the whole pass with no local effect and is therefore not modelled. -/
def performSync (ctx : CryptoCtx) (owner : String) (delegatePubkeys : List String)
    (todosFetch : List WireRecord) (respond : List WireRecord → List SyncedEntry)
    (aiFetch : Option (List WireRecord)) (s : Store) : SyncOut :=
  let p1 := pullPhase ctx owner s todosFetch
  let s2 := deleteDetectPhase owner (serverRecordIds todosFetch) p1.1
  let p3 := pushPhase ctx owner delegatePubkeys respond s2
  let s4 :=
    match aiFetch with
    | none => p3.1
    | some aiRecords => aiPhase ctx owner aiRecords p3.1
  { store := s4, pulled := p1.2.1, updated := p1.2.2, pushed := p3.2 }

/-! ### Concrete instances used by the witnesses and counterexamples -/

def cRowDone : Row :=
  { record_id := "r3", owner := "o1", payload := "\x7b\"done\":1\x7d", version := 0, pending := true }

def cUpdatesDoing : JObjFields := [("state", JVal.jstr "doing")]

def cUpdatesEmptyState : JObjFields := [("state", JVal.jstr "")]

def cCtxC5 : CryptoCtx :=
  { myPubkey := some "me"
    encSelf := fun p => p
    encTo := fun p _ => p
    decSelf := fun _ => some "sp"
    decFrom := fun ct _ => some ct }

def cRecC5 : WireRecord :=
  { record_id := "rid1", collection := "todos", version := 2, updated_at := ""
    encrypted_data := "ct1", encrypted_from := some "other", delegate_payloads := [] }

def cRecC5self : WireRecord :=
  { record_id := "rid2", collection := "todos", version := 1, updated_at := ""
    encrypted_data := "ct2", encrypted_from := some "me", delegate_payloads := [] }

def cRowSynced : Row :=
  { record_id := "rS", owner := "o1", payload := "\x7b\x7d", version := 3, pending := false }

def cRowPendingNew : Row :=
  { record_id := "rP", owner := "o1", payload := "\x7b\x7d", version := 0, pending := true }

def cCtxPull : CryptoCtx :=
  { myPubkey := some "me"
    encSelf := fun px => px
    encTo := fun px _ => px
    decSelf := fun ct => some ct
    decFrom := fun ct _ => some ct }

def cRowC2 : Row :=
  { record_id := "rA", owner := "o1", payload := "\x7b\"updated_at\":\"9\"\x7d",
    version := 1, pending := true }

def cRecC2 : WireRecord :=
  { record_id := "rA", collection := "todos", version := 2, updated_at := "1",
    encrypted_data := "\x7b\"title\":\"remote\"\x7d", encrypted_from := some "me",
    delegate_payloads := [] }

def cRecC2eq : WireRecord :=
  { record_id := "rA", collection := "todos", version := 1, updated_at := "1",
    encrypted_data := "\x7b\"title\":\"remote\"\x7d", encrypted_from := some "me",
    delegate_payloads := [] }

def cRowSoftDel : Row :=
  { record_id := "rD", owner := "o1", payload := "\x7b\"deleted\":1\x7d",
    version := 0, pending := true }

def cRespondAll : List WireRecord → List SyncedEntry :=
  fun recs => recs.map (fun w => { record_id := w.record_id, version := 1 })

def cNotifState : NotifierState :=
  { appNpub := "npub1app", deviceId := "dev-local", callbackRegistered := true }

def cNotifPayload : NotifyPayload :=
  { deviceId := "dev-other", appNpub := "npub1app" }

def cRowBadPayload : Row :=
  { record_id := "rBad", owner := "o1", payload := "\x7b", version := 2, pending := false }

def cRowEmptyPayload : Row :=
  { record_id := "rEmpty", owner := "o1", payload := "", version := 2, pending := false }

/-! ### Definitions for the idempotence development (C6) -/

/-- The `deserializeAiReview` test of db.js as a predicate on a stored
row: the payload is truthy and the deserialized object's `_collection`
is `'ai_reviews'`. -/
def isReviewRow (r : Row) : Bool :=
  if r.payload == "" then false
  else
    match oget (deserializeTodo r) "_collection" with
    | some (JVal.jstr c) => c == "ai_reviews"
    | _ => false

/-- Modelled from the spec: the server-assigned version of a pushed
record, read off the push response (§3 lifecycle: "pushed (server
assigns/increments `version`, client clears `pending`)"); the
`flux_adaptor` server is not part of this repository. -/
def syncedVersion (synced : List SyncedEntry) (id : String) : Int :=
  match synced.find? (fun e => e.record_id == id) with
  | some e => e.version
  | none => 0

/-- The rows the push phase of a pass submits, as a function of the
initial store and the first fetch: the owner's pending rows of the
store after Phase 1 (pull) and Phase 2 (server-side-delete
detection). -/
def pendingAtPush (ctx : CryptoCtx) (owner : String) (fetch1 : List WireRecord)
    (s : Store) : List Row :=
  pendingOf (deleteDetectPhase owner (serverRecordIds fetch1)
    (pullPhase ctx owner s fetch1).1) owner

/-- Modelled from the spec: the remote store's live record set after
one sync pass, under "no remote change" from any other writer (the
`flux_adaptor` server is not part of this repository).  Per the §3
lifecycle and the source's own Phase-2 assumption ("server only
returns live records"), the next fetch returns every first-fetch
record that was not re-pushed, unchanged, and every pushed record that
is not soft-deleted, sealed exactly as `formatForV3Sync` sealed it and
carrying the server-assigned version of the push response; pushed
soft-deleted records are dropped from the live set. -/
def remoteAfterSync (ctx : CryptoCtx) (owner : String) (delegatePubkeys : List String)
    (fetch1 : List WireRecord) (respond : List WireRecord → List SyncedEntry)
    (s : Store) : List WireRecord :=
  let pend := pendingAtPush ctx owner fetch1 s
  let synced := respond (formatForV3Sync ctx pend delegatePubkeys)
  fetch1.filter (fun rec => !(pend.any (fun t => t.record_id == rec.record_id))) ++
  pend.filterMap fun t =>
    if isSoftDeleted t.payload then none
    else some { record_id := t.record_id
                collection := "todos"
                version := syncedVersion synced t.record_id
                updated_at := ""
                encrypted_data := ctx.encSelf t.payload
                encrypted_from := ctx.myPubkey
                delegate_payloads := delegatePubkeys.map fun d => (d, ctx.encTo t.payload d) }

/-- The per-row effect of the push write-back fold. -/
def pushRowFun (synced : List SyncedEntry) (r : Row) : Row :=
  synced.foldl
    (fun r e => if r.record_id = e.record_id then
        { r with version := e.version, pending := false } else r) r

/-- The three possible origins of a row found in the store at the end
of a sync pass: it descends (key, owner and payload unchanged) from a
row of the initial store, or from a todos-fetch import, or it is an
ai_reviews import. -/
def rowOrigin (ctx : CryptoCtx) (owner : String) (fetch aiRecs : List WireRecord)
    (s : Store) (r : Row) : Prop :=
  (∃ y ∈ s, r.record_id = y.record_id ∧ r.owner = y.owner ∧ r.payload = y.payload)
  ∨ (∃ rec ∈ fetch, ∃ p, parseV3Record ctx rec = some p
      ∧ r.record_id = (importedRow owner rec p).record_id
      ∧ r.owner = (importedRow owner rec p).owner
      ∧ r.payload = (importedRow owner rec p).payload)
  ∨ (∃ rec ∈ aiRecs, ∃ p, parseV3Record ctx rec = some p ∧ r = importedRow owner rec p)

/-- Row origins before the ai_reviews phase: descent from the initial
store or from a todos-fetch import. -/
def rowOriginSF (ctx : CryptoCtx) (owner : String) (fetch : List WireRecord)
    (s : Store) (r : Row) : Prop :=
  (∃ y ∈ s, r.record_id = y.record_id ∧ r.owner = y.owner ∧ r.payload = y.payload)
  ∨ (∃ rec ∈ fetch, ∃ p, parseV3Record ctx rec = some p
      ∧ r.record_id = (importedRow owner rec p).record_id
      ∧ r.owner = (importedRow owner rec p).owner
      ∧ r.payload = (importedRow owner rec p).payload)

def cCtx6 : CryptoCtx :=
  { myPubkey := some "me"
    encSelf := fun p => p
    encTo := fun p _ => p
    decSelf := fun c => some c
    decFrom := fun c _ => some c }

def cRow6 : Row :=
  { record_id := "a", owner := "o", payload := "\x7b\"title\":\"x\"\x7d",
    version := 0, pending := true }

def cAiPayload6 : String := "\x7b\"_collection\":\"ai_reviews\"\x7d"

def cAiRec6 : WireRecord :=
  { record_id := "b", collection := "ai_reviews", version := 1, updated_at := "",
    encrypted_data := cAiPayload6, encrypted_from := some "me", delegate_payloads := [] }

def cRespond6 : List WireRecord → List SyncedEntry :=
  fun ws => ws.map fun w => { record_id := w.record_id, version := 7 }

/-! ## Theorems -/



theorem oget_append (a b : JObjFields) (k : String) :
    oget (a ++ b) k = ((oget b k).or (oget a k)) := by
  simp only [oget, List.reverse_append, List.find?_append]
  cases h : b.reverse.find? (fun p => p.1 == k) <;> simp [Option.or]

theorem applyDoneRule_char (updates : JObjFields) (v : JVal)
    (hs : oget updates "state" = some v) (ht : truthy v = true) :
    (applyDoneRule updates = updates ++ [("done", JVal.jnum 1)] ∧ v = JVal.jstr "done")
    ∨ (applyDoneRule updates = updates ++ [("done", JVal.jnum 0)] ∧ v ≠ JVal.jstr "done") := by
  unfold applyDoneRule
  rw [hs]
  cases v with
  | jstr s =>
    by_cases hd : s = "done"
    · subst hd
      left
      exact ⟨by simp, rfl⟩
    · right
      have h1 : (s == "done") = false := by simp [hd]
      have h2 : (s == "") = false := by
        simp only [truthy] at ht
        simpa using ht
      refine ⟨by simp [h1, h2], ?_⟩
      intro h
      exact hd (by injection h)
  | jnull => simp [truthy] at ht
  | jbool b =>
    cases b
    · simp [truthy] at ht
    · exact Or.inr ⟨by simp [truthy], by intro h; cases h⟩
  | jnum q =>
    have : (q == 0) = false := by
      simp only [truthy] at ht
      simpa using ht
    exact Or.inr ⟨by simp [truthy, this], by intro h; cases h⟩
  | jarr xs => exact Or.inr ⟨by simp [truthy], by intro h; cases h⟩
  | jobj ms => exact Or.inr ⟨by simp [truthy], by intro h; cases h⟩

theorem oget_updateMerged (r : Row) (updates : JObjFields) (now k : String)
    (h1 : ¬(k = "updated_at")) (h2 : ¬(k = "version")) (h3 : ¬(k = "pending")) :
    oget (updateMerged r updates now) k
      = ((oget (applyDoneRule updates) k).or (oget (deserializeTodo r) k)) := by
  unfold updateMerged
  rw [oget_append, oget_append]
  have e1 : ("updated_at" == k) = false := by simp [beq_iff_eq]; exact Ne.symm h1
  have e2 : ("version" == k) = false := by simp [beq_iff_eq]; exact Ne.symm h2
  have e3 : ("pending" == k) = false := by simp [beq_iff_eq]; exact Ne.symm h3
  have : oget [("updated_at", JVal.jstr now), ("version", JVal.jnum (r.version : ℚ)),
      ("pending", JVal.jbool true)] k = none := by
    simp [oget, List.find?, e1, e2, e3]
  rw [this]
  cases oget (applyDoneRule updates) k <;> simp [Option.or]

/-- C10 (amended): after every `updateTodo(record_id, updates)` in
which `updates.state` is set to a truthy value, and after every
`transitionTodoState(record_id, newState)`, the object stored as the
record's payload has `done = 1` when the resulting state is `'done'`
and `done = 0` for any other state (the stored payload is exactly the
serialization of that object). -/
theorem c10_done_state_coupling :
    (∀ (r : Row) (updates : JObjFields) (now : String) (v : JVal),
      oget updates "state" = some v → truthy v = true →
      ((updateTodo r updates now).payload
          = stringifyV (JVal.jobj (stripKeys (updateMerged r updates now) metaKeys))
       ∧ oget (updateMerged r updates now) "state" = some v
       ∧ (v = JVal.jstr "done" → oget (updateMerged r updates now) "done" = some (JVal.jnum 1))
       ∧ (¬(v = JVal.jstr "done") → oget (updateMerged r updates now) "done" = some (JVal.jnum 0))))
    ∧ (∀ (r : Row) (newState now : String),
      (transitionTodoState r newState now).payload
          = stringifyV (JVal.jobj (stripKeys (updateMerged r (transitionUpdates newState) now) metaKeys))
      ∧ oget (updateMerged r (transitionUpdates newState) now) "state" = some (JVal.jstr newState)
      ∧ (newState = "done" →
          oget (updateMerged r (transitionUpdates newState) now) "done" = some (JVal.jnum 1))
      ∧ (¬(newState = "done") →
          oget (updateMerged r (transitionUpdates newState) now) "done" = some (JVal.jnum 0))) := by
  have main : ∀ (r : Row) (updates : JObjFields) (now : String) (v : JVal),
      oget updates "state" = some v → truthy v = true →
      (oget (updateMerged r updates now) "state" = some v
       ∧ (v = JVal.jstr "done" → oget (updateMerged r updates now) "done" = some (JVal.jnum 1))
       ∧ (¬(v = JVal.jstr "done") → oget (updateMerged r updates now) "done" = some (JVal.jnum 0))) := by
    intro r updates now v hs ht
    have hO1 := oget_updateMerged r updates now "state" (by decide) (by decide) (by decide)
    have hO2 := oget_updateMerged r updates now "done" (by decide) (by decide) (by decide)
    rcases applyDoneRule_char updates v hs ht with ⟨heq, hv⟩ | ⟨heq, hv⟩
    · rw [heq, oget_append] at hO1 hO2
      refine ⟨?_, fun _ => ?_, fun hne => absurd hv hne⟩
      · rw [hO1, show oget [("done", JVal.jnum 1)] "state" = none from rfl, hs]
        rfl
      · rw [hO2, show oget [("done", JVal.jnum 1)] "done" = some (JVal.jnum 1) from rfl]
        rfl
    · rw [heq, oget_append] at hO1 hO2
      refine ⟨?_, fun h => absurd h hv, fun _ => ?_⟩
      · rw [hO1, show oget [("done", JVal.jnum 0)] "state" = none from rfl, hs]
        rfl
      · rw [hO2, show oget [("done", JVal.jnum 0)] "done" = some (JVal.jnum 0) from rfl]
        rfl
  constructor
  · intro r updates now v hs ht
    exact ⟨rfl, main r updates now v hs ht⟩
  · intro r newState now
    refine ⟨rfl, ?_⟩
    by_cases hd : newState = "done"
    · subst hd
      have hs : oget (transitionUpdates "done") "state" = some (JVal.jstr "done") := rfl
      have := main r (transitionUpdates "done") now (JVal.jstr "done") hs (by simp [truthy])
      exact ⟨this.1, fun _ => this.2.1 rfl, fun h => absurd rfl h⟩
    · by_cases he : newState = ""
      · subst he
        have hadr : applyDoneRule (transitionUpdates "") = transitionUpdates "" := rfl
        have hO1 := oget_updateMerged r (transitionUpdates "") now "state" (by decide) (by decide) (by decide)
        have hO2 := oget_updateMerged r (transitionUpdates "") now "done" (by decide) (by decide) (by decide)
        rw [hadr] at hO1 hO2
        refine ⟨?_, fun h => absurd h hd, fun _ => ?_⟩
        · rw [hO1, show oget (transitionUpdates "") "state" = some (JVal.jstr "") from rfl]
          rfl
        · rw [hO2, show oget (transitionUpdates "") "done" = some (JVal.jnum 0) from rfl]
          rfl
      · have hbd : (newState == "done") = false := by simp [hd]
        have hs : oget (transitionUpdates newState) "state" = some (JVal.jstr newState) := by
          simp [transitionUpdates, hbd, oget, List.find?]
        have hv : ¬(JVal.jstr newState = JVal.jstr "done") := by
          intro h
          exact hd (by injection h)
        have := main r (transitionUpdates newState) now (JVal.jstr newState) hs (by simp [truthy, he])
        exact ⟨this.1, fun h => absurd h hd, fun _ => this.2.2 hv⟩

/-- C10 witness at a concrete row and update. -/
theorem c10_witness :
    oget cUpdatesDoing "state" = some (JVal.jstr "doing") ∧
    truthy (JVal.jstr "doing") = true ∧
    ((updateTodo cRowDone cUpdatesDoing "T1").payload
        = stringifyV (JVal.jobj (stripKeys (updateMerged cRowDone cUpdatesDoing "T1") metaKeys))
     ∧ oget (updateMerged cRowDone cUpdatesDoing "T1") "state" = some (JVal.jstr "doing")
     ∧ (JVal.jstr "doing" = JVal.jstr "done" →
         oget (updateMerged cRowDone cUpdatesDoing "T1") "done" = some (JVal.jnum 1))
     ∧ (¬(JVal.jstr "doing" = JVal.jstr "done") →
         oget (updateMerged cRowDone cUpdatesDoing "T1") "done" = some (JVal.jnum 0))) :=
  ⟨rfl, rfl, c10_done_state_coupling.1 cRowDone cUpdatesDoing "T1" (JVal.jstr "doing") rfl rfl⟩

/-- C10 counterexample: setting `updates.state` to the falsy empty
string skips the done-flag rule of `updateTodo` — the resulting state
is the empty string (not `'done'`) but the stored `done` flag stays `1`. -/
theorem c10_counterexample :
    oget cUpdatesEmptyState "state" = some (JVal.jstr "") ∧
    oget (updateMerged cRowDone cUpdatesEmptyState "T1") "state" = some (JVal.jstr "") ∧
    oget (updateMerged cRowDone cUpdatesEmptyState "T1") "done" = some (JVal.jnum 1) :=
  ⟨rfl, rfl, rfl⟩

/-- C5 (amended): when the envelope's `encrypted_from` is absent,
empty, or equal to the local pubkey, `parseV3Record` attempts the
as-owner (self-decryption) path first and only on its failure falls
back to the delegate payload decrypted with `encrypted_from` as
sender; when `encrypted_from` names a different non-empty identity
the as-owner path is never attempted — decryption first tries
`encrypted_data` as coming from that sender. -/
theorem c5_decryption_order (ctx : CryptoCtx) (rec : WireRecord) :
    ((rec.encrypted_from = none ∨ rec.encrypted_from = some "" ∨ rec.encrypted_from = ctx.myPubkey) →
      ((parseV3Attempts ctx rec).head? = some (DecAttempt.asSelf rec.encrypted_data)
       ∧ ((ctx.decSelf rec.encrypted_data).isSome = true →
            parseV3Attempts ctx rec = [DecAttempt.asSelf rec.encrypted_data])))
    ∧ (∀ ef, rec.encrypted_from = some ef → ¬(ef = "") → ¬(rec.encrypted_from = ctx.myPubkey) →
      ((parseV3Attempts ctx rec).head? = some (DecAttempt.asFrom rec.encrypted_data ef)
       ∧ ∀ ct, ¬(DecAttempt.asSelf ct ∈ parseV3Attempts ctx rec))) := by
  constructor
  · intro hb
    have hsb : ((match rec.encrypted_from with
        | some ef => !(ef == "")
        | none => false) && !(rec.encrypted_from == ctx.myPubkey)) = false := by
      rcases hb with h | h | h
      · rw [h]
        rfl
      · rw [h]
        rfl
      · rw [h]
        simp
    unfold parseV3Attempts parseV3Dispatch
    rw [hsb]
    simp only [Bool.false_eq_true, if_false]
    cases hds : ctx.decSelf rec.encrypted_data with
    | some p => exact ⟨rfl, fun _ => rfl⟩
    | none =>
      refine ⟨?_, fun hcontra => by simp [hds] at hcontra⟩
      cases hdc : delegateCt ctx rec with
      | none => rfl
      | some dp =>
        cases hef : rec.encrypted_from with
        | none => rfl
        | some ef =>
          by_cases he : ef = ""
          · subst he
            rfl
          · have hb2 : (ef == "") = false := by simp [he]
            simp [hb2]
  · intro ef hef hne hnm
    have hsb : ((match rec.encrypted_from with
        | some ef => !(ef == "")
        | none => false) && !(rec.encrypted_from == ctx.myPubkey)) = true := by
      rw [hef]
      have h1 : (ef == "") = false := by simp [hne]
      have h2 : (rec.encrypted_from == ctx.myPubkey) = false := by
        rw [beq_eq_false_iff_ne]
        exact hnm
      rw [hef] at h2
      simp [h1, h2]
    have hgd : rec.encrypted_from.getD "" = ef := by rw [hef]; rfl
    unfold parseV3Attempts parseV3Dispatch
    rw [hsb]
    simp only [if_true, hgd]
    cases hdf : ctx.decFrom rec.encrypted_data ef with
    | some p => exact ⟨rfl, fun ct h => by simp at h⟩
    | none =>
      cases hdc : delegateCt ctx rec with
      | none => exact ⟨rfl, fun ct h => by simp at h⟩
      | some dp =>
        refine ⟨rfl, fun ct h => ?_⟩
        simp at h

/-- C5 counterexample: on an envelope whose `encrypted_from` differs
from the local pubkey, the only decryption attempt is a sender-path
attempt on `encrypted_data`; the as-owner path is never tried, contrary
to the claim that it is always tried first. -/
theorem c5_counterexample :
    cRecC5.encrypted_from = some "other" ∧ cCtxC5.myPubkey = some "me" ∧
    parseV3Attempts cCtxC5 cRecC5 = [DecAttempt.asFrom "ct1" "other"] ∧
    ¬((parseV3Attempts cCtxC5 cRecC5).head? = some (DecAttempt.asSelf cRecC5.encrypted_data)) ∧
    ¬(DecAttempt.asSelf "ct1" ∈ parseV3Attempts cCtxC5 cRecC5) := by
  refine ⟨rfl, rfl, rfl, by decide, by decide⟩

/-- C5 witness instantiating both branches of the amended claim. -/
theorem c5_witness :
    (cRecC5self.encrypted_from = none ∨ cRecC5self.encrypted_from = some ""
      ∨ cRecC5self.encrypted_from = cCtxC5.myPubkey) ∧
    ((parseV3Attempts cCtxC5 cRecC5self).head? = some (DecAttempt.asSelf cRecC5self.encrypted_data)
     ∧ ((cCtxC5.decSelf cRecC5self.encrypted_data).isSome = true →
          parseV3Attempts cCtxC5 cRecC5self = [DecAttempt.asSelf cRecC5self.encrypted_data]))
    ∧ ((parseV3Attempts cCtxC5 cRecC5).head? = some (DecAttempt.asFrom cRecC5.encrypted_data "other")
       ∧ ∀ ct, ¬(DecAttempt.asSelf ct ∈ parseV3Attempts cCtxC5 cRecC5)) :=
  ⟨Or.inr (Or.inr rfl),
   (c5_decryption_order cCtxC5 cRecC5self).1 (Or.inr (Or.inr rfl)),
   (c5_decryption_order cCtxC5 cRecC5).2 "other" rfl (by decide) (by decide)⟩

theorem dbGet_cons (r : Row) (t : Store) (k : String) :
    dbGet (r :: t) k = if r.record_id = k then some r else dbGet t k := by
  by_cases h : r.record_id = k
  · simp [dbGet, List.find?_cons, h]
  · simp [dbGet, List.find?_cons, h]

theorem dbGet_dbDelete (s : Store) (i k : String) :
    dbGet (dbDelete s i) k = if i = k then none else dbGet s k := by
  induction s with
  | nil => by_cases h : i = k <;> simp [dbGet, dbDelete, h]
  | cons r t ih =>
    have hfc : dbDelete (r :: t) i
        = if r.record_id = i then dbDelete t i else r :: dbDelete t i := by
      by_cases h : r.record_id = i <;> simp [dbDelete, List.filter_cons, h]
    rw [hfc]
    by_cases hri : r.record_id = i
    · rw [if_pos hri, ih, dbGet_cons]
      by_cases hik : i = k
      · simp [hik]
      · have : ¬(r.record_id = k) := by rw [hri]; exact hik
        simp [hik, this]
    · rw [if_neg hri, dbGet_cons, dbGet_cons]
      by_cases hrk : r.record_id = k
      · have hik : ¬(i = k) := by
          intro h
          exact hri (by rw [h, hrk])
        simp [hrk, hik]
      · simp [hrk, ih]

theorem dbGet_eq_of_mem (s : Store) (x : Row)
    (hnd : (s.map Row.record_id).Nodup) (hx : x ∈ s) :
    dbGet s x.record_id = some x := by
  induction s with
  | nil => cases hx
  | cons r t ih =>
    rcases List.mem_cons.mp hx with h | h
    · subst h
      simp [dbGet_cons]
    · have hr : ¬(r.record_id = x.record_id) := by
        intro he
        have : x.record_id ∈ t.map Row.record_id := List.mem_map_of_mem _ h
        rw [← he] at this
        exact (List.nodup_cons.mp hnd).1 this
      rw [dbGet_cons, if_neg hr]
      exact ih (List.nodup_cons.mp hnd).2 h

theorem foldl_delete_get (cond : Row → Bool) (L : List Row) (s : Store) (k : String) :
    dbGet (L.foldl (fun acc r => if cond r then dbDelete acc r.record_id else acc) s) k
      = if L.any (fun r => r.record_id == k && cond r) then none else dbGet s k := by
  induction L generalizing s with
  | nil => simp
  | cons r t ih =>
    simp only [List.foldl_cons, List.any_cons]
    by_cases hc : cond r
    · rw [if_pos hc, ih]
      by_cases hk : r.record_id = k
      · have h1 : (r.record_id == k && cond r) = true := by simp [hk, hc]
        simp only [h1, Bool.true_or, if_true, dbGet_dbDelete, if_pos hk]
        simp
      · have h1 : (r.record_id == k && cond r) = false := by simp [hk]
        simp only [h1, Bool.false_or, dbGet_dbDelete, if_neg hk]
    · have hcf : cond r = false := by simpa using hc
      rw [if_neg (by simp [hcf]), ih]
      have h1 : (r.record_id == k && cond r) = false := by simp [hcf]
      simp only [h1, Bool.false_or]

theorem deleteDetectPhase_get (owner : String) (serverIds : List String) (s : Store) (k : String) :
    dbGet (deleteDetectPhase owner serverIds s) k
      = if (byOwner s owner).any (fun r => r.record_id == k && phase2Cond serverIds r) then none
        else dbGet s k :=
  foldl_delete_get (phase2Cond serverIds) (byOwner s owner) s k

theorem phase2_pending_preserved (owner : String) (serverIds : List String)
    (s : Store) (k : String) (r : Row) (hnd : (s.map Row.record_id).Nodup)
    (hget : dbGet s k = some r) (hp : r.pending = true) :
    dbGet (deleteDetectPhase owner serverIds s) k = some r := by
  rw [deleteDetectPhase_get]
  have ha : (byOwner s owner).any (fun x => x.record_id == k && phase2Cond serverIds x) = false := by
    rw [List.any_eq_false]
    intro x hx
    have hxs : x ∈ s := (List.mem_filter.mp hx).1
    intro hpred
    have h1 : x.record_id = k := by
      have := (Bool.and_eq_true _ _).mp hpred
      exact beq_iff_eq.mp this.1
    have h2 := dbGet_eq_of_mem s x hnd hxs
    rw [h1, hget] at h2
    have hxr : x = r := by
      injection h2 with h3
      exact h3.symm
    have := (Bool.and_eq_true _ _).mp hpred
    rw [hxr] at this
    simp [phase2Cond, hp] at this
  simp only [ha, if_false]
  exact hget

/-- C3: during one sync pass, every locally stored record of the owner
with `version > 0` and `pending = false` whose `record_id` is absent
from the just-fetched remote set is removed by Phase 2, and a record
with `pending = true` is never removed by this phase — for every
fetched set, including the empty one. -/
theorem c3_remote_delete_detection :
    (∀ (owner : String) (serverIds : List String) (s : Store) (r : Row),
      r ∈ s → r.owner = owner → r.version > 0 → r.pending = false →
      ¬(r.record_id ∈ serverIds) →
      dbGet (deleteDetectPhase owner serverIds s) r.record_id = none)
    ∧ (∀ (owner : String) (serverIds : List String) (s : Store) (k : String) (r : Row),
      (s.map Row.record_id).Nodup →
      dbGet s k = some r → r.pending = true →
      dbGet (deleteDetectPhase owner serverIds s) k = some r) := by
  constructor
  · intro owner ids s r hmem howner hv hp hnotin
    rw [deleteDetectPhase_get]
    have ha : (byOwner s owner).any (fun x => x.record_id == r.record_id && phase2Cond ids x) = true := by
      refine List.any_eq_true.mpr ⟨r, ?_, ?_⟩
      · exact List.mem_filter.mpr ⟨hmem, by simp [howner]⟩
      · simp [phase2Cond, hv, hp, hnotin]
    simp only [ha, if_true]
  · intro owner ids s k r hnd hget hp
    exact phase2_pending_preserved owner ids s k r hnd hget hp

/-- C3 witness: with an empty fetch, the synced record is deleted and
the pending one survives. -/
theorem c3_witness :
    (cRowSynced ∈ [cRowSynced, cRowPendingNew] ∧ cRowSynced.owner = "o1"
      ∧ cRowSynced.version > 0 ∧ cRowSynced.pending = false
      ∧ ¬(cRowSynced.record_id ∈ ([] : List String))
      ∧ dbGet (deleteDetectPhase "o1" [] [cRowSynced, cRowPendingNew]) cRowSynced.record_id = none)
    ∧ (([cRowSynced, cRowPendingNew].map Row.record_id).Nodup
      ∧ dbGet [cRowSynced, cRowPendingNew] "rP" = some cRowPendingNew
      ∧ cRowPendingNew.pending = true
      ∧ dbGet (deleteDetectPhase "o1" [] [cRowSynced, cRowPendingNew]) "rP" = some cRowPendingNew) :=
  ⟨⟨List.mem_cons_self _ _, rfl, by decide, rfl, by decide,
    c3_remote_delete_detection.1 "o1" [] [cRowSynced, cRowPendingNew] cRowSynced
      (List.mem_cons_self _ _) rfl (by decide) rfl (by decide)⟩,
   ⟨by decide, rfl, rfl,
    c3_remote_delete_detection.2 "o1" [] [cRowSynced, cRowPendingNew] "rP" cRowPendingNew
      (by decide) rfl rfl⟩⟩

/-- C1: for every envelope processed by the pull loop that unseals and
decodes: if no local record with that `record_id` exists it is stored
with the envelope's version and `pending = false` and counted as
pulled; if a local record exists and the envelope's version is
strictly greater the local record is replaced wholesale (decoded
payload, envelope's version, `pending = false`) and counted as
updated; if the versions are equal the local record and the tallies
are unchanged. -/
theorem c1_pull_merge (ctx : CryptoCtx) (owner : String) (rec : WireRecord) (p : String)
    (hp : parseV3Record ctx rec = some p) :
    (∀ (s : Store) (pulled updated : Nat), dbGet s rec.record_id = none →
      pullStep ctx owner (s, pulled, updated) rec
        = (dbPut s (importedRow owner rec p), pulled + 1, updated))
    ∧ (∀ (s : Store) (pulled updated : Nat) (local0 : Row),
      dbGet s rec.record_id = some local0 → rec.version > local0.version →
      pullStep ctx owner (s, pulled, updated) rec
        = (dbPut s (importedRow owner rec p), pulled, updated + 1))
    ∧ (∀ (s : Store) (pulled updated : Nat) (local0 : Row),
      dbGet s rec.record_id = some local0 → rec.version = local0.version →
      pullStep ctx owner (s, pulled, updated) rec = (s, pulled, updated))
    ∧ importedRow owner rec p
        = { record_id := rec.record_id, owner := owner, payload := p,
            version := rec.version, pending := false } := by
  refine ⟨?_, ?_, ?_, rfl⟩
  · intro s pulled updated h
    simp [pullStep, h, hp]
  · intro s pulled updated local0 h hv
    simp [pullStep, h, hp, hv]
  · intro s pulled updated local0 h hv
    have hnv : ¬(rec.version > local0.version) := by
      rw [hv]
      exact lt_irrefl _
    simp [pullStep, h, hnv]

/-- C1 witness: the three pull cases at concrete stores and envelopes. -/
theorem c1_witness :
    parseV3Record cCtxPull cRecC2 = some "\x7b\"title\":\"remote\"\x7d" ∧
    (dbGet [] cRecC2.record_id = none ∧
      pullStep cCtxPull "o1" ([], 0, 0) cRecC2
        = (dbPut [] (importedRow "o1" cRecC2 "\x7b\"title\":\"remote\"\x7d"), 1, 0)) ∧
    (dbGet [cRowC2] cRecC2.record_id = some cRowC2 ∧ cRecC2.version > cRowC2.version ∧
      pullStep cCtxPull "o1" ([cRowC2], 0, 0) cRecC2
        = (dbPut [cRowC2] (importedRow "o1" cRecC2 "\x7b\"title\":\"remote\"\x7d"), 0, 1)) ∧
    (dbGet [cRowC2] cRecC2eq.record_id = some cRowC2 ∧ cRecC2eq.version = cRowC2.version ∧
      pullStep cCtxPull "o1" ([cRowC2], 0, 0) cRecC2eq = ([cRowC2], 0, 0)) ∧
    importedRow "o1" cRecC2 "\x7b\"title\":\"remote\"\x7d"
      = { record_id := "rA", owner := "o1", payload := "\x7b\"title\":\"remote\"\x7d",
          version := 2, pending := false } :=
  ⟨rfl,
   ⟨rfl, (c1_pull_merge cCtxPull "o1" cRecC2 _ rfl).1 [] 0 0 rfl⟩,
   ⟨rfl, by decide, (c1_pull_merge cCtxPull "o1" cRecC2 _ rfl).2.1 [cRowC2] 0 0 cRowC2 rfl (by decide)⟩,
   ⟨rfl, rfl, (c1_pull_merge cCtxPull "o1" cRecC2eq _ rfl).2.2.1 [cRowC2] 0 0 cRowC2 rfl rfl⟩,
   rfl⟩

/-- C2 (amended): a locally stored record — pending or not — is never
overwritten by an incoming envelope unless the envelope's version is
strictly greater than the local version.  (The second condition of the
original claim, about unpushed local edits newer than the remote
timestamp, is not checked by the code; see the counterexample.) -/
theorem c2_pending_guard (ctx : CryptoCtx) (owner : String) (rec : WireRecord)
    (s : Store) (pulled updated : Nat) (local0 : Row)
    (hget : dbGet s rec.record_id = some local0)
    (hnv : ¬(rec.version > local0.version)) :
    pullStep ctx owner (s, pulled, updated) rec = (s, pulled, updated) := by
  simp [pullStep, hget, hnv]

/-- C2 witness: an equal-version envelope leaves the pending row alone. -/
theorem c2_witness :
    dbGet [cRowC2] cRecC2eq.record_id = some cRowC2 ∧
    ¬(cRecC2eq.version > cRowC2.version) ∧
    cRowC2.pending = true ∧
    pullStep cCtxPull "o1" ([cRowC2], 0, 0) cRecC2eq = ([cRowC2], 0, 0) :=
  ⟨rfl, by decide, rfl,
   c2_pending_guard cCtxPull "o1" cRecC2eq [cRowC2] 0 0 cRowC2 rfl (by decide)⟩

/-- C2 counterexample: a pending record with an unpushed local edit
newer than the remote envelope's timestamp is nevertheless overwritten
because the envelope's version is strictly greater — the code never
consults timestamps. -/
theorem c2_counterexample :
    cRowC2.pending = true ∧
    hasUnpushedEditNewer cRowC2 cRecC2 = true ∧
    (pullStep cCtxPull "o1" ([cRowC2], 0, 0) cRecC2).1
      = [{ record_id := "rA", owner := "o1", payload := "\x7b\"title\":\"remote\"\x7d",
           version := 2, pending := false }] ∧
    ¬((pullStep cCtxPull "o1" ([cRowC2], 0, 0) cRecC2).1 = [cRowC2]) :=
  ⟨rfl, rfl, rfl, by decide⟩

theorem dbGet_map_idpres (g : Row → Row) (hg : ∀ r, (g r).record_id = r.record_id)
    (s : Store) (k : String) :
    dbGet (s.map g) k = (dbGet s k).map g := by
  induction s with
  | nil => rfl
  | cons r t ih =>
    rw [List.map_cons, dbGet_cons, dbGet_cons, hg]
    by_cases h : r.record_id = k
    · simp [h]
    · simp [h, ih]

theorem dbGet_dbPut_self (s : Store) (row : Row) :
    dbGet (dbPut s row) row.record_id = some row := by
  unfold dbPut
  by_cases h : s.any (fun r => r.record_id == row.record_id)
  · rw [if_pos h]
    have hg : ∀ r : Row, ((fun r : Row => if r.record_id == row.record_id then row else r) r).record_id
        = r.record_id := by
      intro r
      by_cases hh : r.record_id = row.record_id
      · simp [hh]
      · simp [hh]
    rw [dbGet_map_idpres _ hg]
    rcases List.any_eq_true.mp h with ⟨x, hx, hpx⟩
    have hxk : x.record_id = row.record_id := beq_iff_eq.mp hpx
    cases hget : dbGet s row.record_id with
    | none =>
      exfalso
      unfold dbGet at hget
      have := List.find?_eq_none.mp hget x hx
      simp [hxk] at this
    | some y =>
      have hy : y.record_id = row.record_id := by
        have := List.find?_some hget
        exact beq_iff_eq.mp this
      simp [hy]
  · rw [if_neg h]
    have hget : dbGet s row.record_id = none := by
      unfold dbGet
      rw [List.find?_eq_none]
      intro x hx
      intro hpx
      exact h (List.any_eq_true.mpr ⟨x, hx, hpx⟩)
    unfold dbGet at *
    rw [List.find?_append, hget]
    simp [List.find?]

theorem dbGet_dbPut_ne (s : Store) (row : Row) (k : String) (h : ¬(row.record_id = k)) :
    dbGet (dbPut s row) k = dbGet s k := by
  unfold dbPut
  by_cases he : s.any (fun r => r.record_id == row.record_id)
  · rw [if_pos he]
    have hg : ∀ r : Row, ((fun r : Row => if r.record_id == row.record_id then row else r) r).record_id
        = r.record_id := by
      intro r
      by_cases hh : r.record_id = row.record_id
      · simp [hh]
      · simp [hh]
    rw [dbGet_map_idpres _ hg]
    cases hget : dbGet s k with
    | none => rfl
    | some y =>
      have hy : y.record_id = k := by
        have := List.find?_some hget
        exact beq_iff_eq.mp this
      have : ¬(y.record_id = row.record_id) := by
        rw [hy]
        intro hc
        exact h hc.symm
      simp [this]
  · rw [if_neg he]
    unfold dbGet
    rw [List.find?_append]
    cases hget : s.find? (fun r => r.record_id == k) with
    | some y => rfl
    | none =>
      simp [List.find?, show (row.record_id == k) = false from by simp [h]]

theorem dbGet_dbPut_isSome (s : Store) (row : Row) (k : String)
    (h : (dbGet s k).isSome = true) : (dbGet (dbPut s row) k).isSome = true := by
  by_cases hk : row.record_id = k
  · rw [← hk, dbGet_dbPut_self]
    rfl
  · rw [dbGet_dbPut_ne s row k hk]
    exact h

theorem pullStep_presence (ctx : CryptoCtx) (owner : String)
    (s : Store) (pulled updated : Nat) (rec : WireRecord) (k : String)
    (h : (dbGet s k).isSome = true) :
    (dbGet (pullStep ctx owner (s, pulled, updated) rec).1 k).isSome = true := by
  cases hget : dbGet s rec.record_id with
  | none =>
    cases hp : parseV3Record ctx rec with
    | none => simpa [pullStep, hget, hp] using h
    | some p =>
      simp only [pullStep, hget, hp]
      exact dbGet_dbPut_isSome s _ k h
  | some local0 =>
    by_cases hv : rec.version > local0.version
    · cases hp : parseV3Record ctx rec with
      | none => simpa [pullStep, hget, hp, hv] using h
      | some p =>
        simp only [pullStep, hget, hp, if_pos hv]
        exact dbGet_dbPut_isSome s _ k h
    · simpa [pullStep, hget, hv] using h

theorem pullPhase_presence (ctx : CryptoCtx) (owner : String) (recs : List WireRecord)
    (s : Store) (pulled updated : Nat) (k : String)
    (h : (dbGet s k).isSome = true) :
    (dbGet (recs.foldl (pullStep ctx owner) (s, pulled, updated)).1 k).isSome = true := by
  induction recs generalizing s pulled updated with
  | nil => exact h
  | cons rec t ih =>
    rw [List.foldl_cons]
    have hstep := pullStep_presence ctx owner s pulled updated rec k h
    exact ih (pullStep ctx owner (s, pulled, updated) rec).1
      (pullStep ctx owner (s, pulled, updated) rec).2.1
      (pullStep ctx owner (s, pulled, updated) rec).2.2 hstep

theorem aiDelete_pending_preserved (aiIds : List String) (reviews : List JObjFields)
    (s : Store) (k : String) (r : Row)
    (hget : dbGet s k = some r) (hp : r.pending = true) :
    dbGet (reviews.foldl (aiDeleteStep aiIds) s) k = some r := by
  induction reviews generalizing s with
  | nil => exact hget
  | cons review t ih =>
    rw [List.foldl_cons]
    refine ih (aiDeleteStep aiIds s review) ?_
    cases hlr : dbGet s (strField review "record_id") with
    | none => simpa [aiDeleteStep, hlr] using hget
    | some localRow =>
      cases hcond : decide (localRow.version > 0) && !aiIds.contains (strField review "record_id")
          && !localRow.pending with
      | false =>
        have hstep : aiDeleteStep aiIds s review = s := by
          simp only [aiDeleteStep, hlr, hcond]
          rfl
        rw [hstep]
        exact hget
      | true =>
        by_cases hk : strField review "record_id" = k
        · exfalso
          rw [hk, hget] at hlr
          have hlocr : localRow = r := by
            injection hlr with h3
            exact h3.symm
          rw [hlocr, hp] at hcond
          simp at hcond
        · have hstep : aiDeleteStep aiIds s review = dbDelete s (strField review "record_id") := by
            simp only [aiDeleteStep, hlr, hcond]
            rfl
          rw [hstep, dbGet_dbDelete, if_neg hk]
          exact hget

theorem dbGet_dbUpdate (s : Store) (i k : String) (f : Row → Row)
    (hf : ∀ r, (f r).record_id = r.record_id) :
    dbGet (dbUpdate s i f) k
      = (dbGet s k).map (fun r => if r.record_id = i then f r else r) := by
  unfold dbUpdate
  have hg : ∀ r : Row, ((fun r : Row => if r.record_id == i then f r else r) r).record_id
      = r.record_id := by
    intro r
    by_cases hh : r.record_id = i
    · simp [hh, hf]
    · simp [hh]
  rw [dbGet_map_idpres _ hg]
  cases dbGet s k with
  | none => rfl
  | some y =>
    by_cases hy : y.record_id = i
    · simp [hy]
    · simp [hy]

theorem pushUpdate_fold_get (synced : List SyncedEntry) (s : Store) (k : String) :
    dbGet (synced.foldl pushUpdateStep s) k
      = (dbGet s k).map (fun r => synced.foldl
          (fun r e => if r.record_id = e.record_id then
              { r with version := e.version, pending := false } else r) r) := by
  induction synced generalizing s with
  | nil =>
    rw [List.foldl_nil]
    cases dbGet s k <;> rfl
  | cons e t ih =>
    rw [List.foldl_cons, ih]
    simp only [List.foldl_cons]
    unfold pushUpdateStep
    rw [dbGet_dbUpdate s e.record_id k
        (fun r => { r with version := e.version, pending := false }) (fun r => rfl)]
    cases dbGet s k with
    | none => rfl
    | some y =>
      by_cases hy : y.record_id = e.record_id
      · simp [hy]
      · simp [hy]

theorem pushUpdateFold_id_pres (synced : List SyncedEntry) (r : Row) :
    (synced.foldl
      (fun r e => if r.record_id = e.record_id then
          { r with version := e.version, pending := false } else r) r).record_id
      = r.record_id := by
  induction synced generalizing r with
  | nil => rfl
  | cons e t ih =>
    rw [List.foldl_cons]
    by_cases hy : r.record_id = e.record_id
    · rw [if_pos hy]
      rw [ih]
    · rw [if_neg hy]
      exact ih r

theorem terminal_fold_get (synced : List SyncedEntry) (L : List Row) (s : Store) (k : String) :
    dbGet (L.foldl (terminalDeleteStep synced) s) k
      = if L.any (fun r => r.record_id == k && terminalCond synced r) then none
        else dbGet s k :=
  foldl_delete_get (terminalCond synced) L s k

theorem pushPhase_delete_char (ctx : CryptoCtx) (owner : String)
    (delegatePubkeys : List String) (respond : List WireRecord → List SyncedEntry)
    (s : Store) (k : String) (r : Row)
    (hnd : (s.map Row.record_id).Nodup) (hget : dbGet s k = some r)
    (hnone : dbGet (pushPhase ctx owner delegatePubkeys respond s).1 k = none) :
    r.pending = true ∧ isSoftDeleted r.payload = true ∧
    (respond (formatForV3Sync ctx (pendingOf s owner) delegatePubkeys)).any
      (fun e => e.record_id == k) = true := by
  unfold pushPhase at hnone
  by_cases hemp : (pendingOf s owner).isEmpty
  · simp only [hemp, if_true] at hnone
    rw [hget] at hnone
    cases hnone
  · have hemp2 : (pendingOf s owner).isEmpty = false := by simpa using hemp
    simp only [hemp2, Bool.false_eq_true, if_false] at hnone
    rw [terminal_fold_get] at hnone
    by_cases hany : (pendingOf s owner).any
        (fun x => x.record_id == k
          && terminalCond (respond (formatForV3Sync ctx (pendingOf s owner) delegatePubkeys)) x) = true
    · rcases List.any_eq_true.mp hany with ⟨x, hx, hpx⟩
      have hx1 := (Bool.and_eq_true _ _).mp hpx
      have hxk : x.record_id = k := beq_iff_eq.mp hx1.1
      have hxmem : x ∈ s := (List.mem_filter.mp (List.mem_filter.mp hx).1).1
      have hxg := dbGet_eq_of_mem s x hnd hxmem
      rw [hxk, hget] at hxg
      have hxr : x = r := by
        injection hxg with h3
        exact h3.symm
      have hxpend : x.pending = true := by
        have := (List.mem_filter.mp hx).2
        simpa using this
      have htc := (Bool.and_eq_true _ _).mp hx1.2
      refine ⟨hxr ▸ hxpend, hxr ▸ htc.1, ?_⟩
      rw [← hxk]
      exact htc.2
    · exfalso
      have hanyf : ((pendingOf s owner).any
          (fun x => x.record_id == k
            && terminalCond (respond (formatForV3Sync ctx (pendingOf s owner) delegatePubkeys)) x)) = false := by
        simpa using hany
      rw [hanyf] at hnone
      simp only [Bool.false_eq_true, if_false] at hnone
      rw [pushUpdate_fold_get, hget] at hnone
      cases hnone

/-- C4: a soft-deleted pending record is hard-deleted only by the
terminal-delete step of the push phase, and only when the record
appears in the push response: the pull loops never remove a present
row, Phase 2 and the ai_reviews delete loop never remove a pending
row, and the push phase removes a row only if it was pending,
soft-deleted, and confirmed accepted by the remote store. -/
theorem c4_terminal_delete_ordering :
    (∀ (ctx : CryptoCtx) (owner : String) (recs : List WireRecord) (s : Store)
       (pulled updated : Nat) (k : String),
      (dbGet s k).isSome = true →
      (dbGet (recs.foldl (pullStep ctx owner) (s, pulled, updated)).1 k).isSome = true)
    ∧ (∀ (owner : String) (serverIds : List String) (s : Store) (k : String) (r : Row),
      (s.map Row.record_id).Nodup → dbGet s k = some r → r.pending = true →
      dbGet (deleteDetectPhase owner serverIds s) k = some r)
    ∧ (∀ (ctx : CryptoCtx) (owner : String) (dl : List String)
        (respond : List WireRecord → List SyncedEntry) (s : Store) (k : String) (r : Row),
      (s.map Row.record_id).Nodup → dbGet s k = some r →
      dbGet (pushPhase ctx owner dl respond s).1 k = none →
      r.pending = true ∧ isSoftDeleted r.payload = true ∧
      (respond (formatForV3Sync ctx (pendingOf s owner) dl)).any
        (fun e => e.record_id == k) = true)
    ∧ (∀ (aiIds : List String) (reviews : List JObjFields) (s : Store) (k : String) (r : Row),
      dbGet s k = some r → r.pending = true →
      dbGet (reviews.foldl (aiDeleteStep aiIds) s) k = some r) :=
  ⟨fun ctx owner recs s pulled updated k h =>
      pullPhase_presence ctx owner recs s pulled updated k h,
   fun owner ids s k r hnd hget hp => phase2_pending_preserved owner ids s k r hnd hget hp,
   fun ctx owner dl respond s k r hnd hget hnone =>
      pushPhase_delete_char ctx owner dl respond s k r hnd hget hnone,
   fun aiIds reviews s k r hget hp => aiDelete_pending_preserved aiIds reviews s k r hget hp⟩

/-- C4 witness: a confirmed soft-deleted pending row is hard-deleted
by the push phase. -/
theorem c4_witness :
    ([cRowSoftDel].map Row.record_id).Nodup ∧
    dbGet [cRowSoftDel] "rD" = some cRowSoftDel ∧
    dbGet (pushPhase cCtxPull "o1" [] cRespondAll [cRowSoftDel]).1 "rD" = none ∧
    (cRowSoftDel.pending = true ∧ isSoftDeleted cRowSoftDel.payload = true ∧
     (cRespondAll (formatForV3Sync cCtxPull (pendingOf [cRowSoftDel] "o1") [])).any
       (fun e => e.record_id == "rD") = true) :=
  ⟨by decide, rfl, rfl,
   c4_terminal_delete_ordering.2.2.1 cCtxPull "o1" [] cRespondAll [cRowSoftDel] "rD"
     cRowSoftDel (by decide) rfl rfl⟩

theorem skipWs_cons_of_not (c : Char) (cs : List Char) (h : isJsonWs c = false) :
    skipWs (c :: cs) = c :: cs := by
  simp [skipWs, h]

theorem plainChar_parts (c : Char) (h : plainChar c = true) :
    32 ≤ c.toNat ∧ (c == '"') = false ∧ (c == '\\') = false := by
  unfold plainChar at h
  have h1 := (Bool.and_eq_true _ _).mp h
  have h2 := (Bool.and_eq_true _ _).mp h1.1
  refine ⟨by simpa using h2.1, by simpa using h2.2, by simpa using h1.2⟩

theorem psb_plain (content : List Char) (rest : List Char) (fuel : Nat)
    (hp : ∀ c ∈ content, plainChar c = true) :
    parseStringBody fuel (content ++ '"' :: rest)
      = if content.length < fuel then some (content, rest) else none := by
  induction content generalizing fuel with
  | nil =>
    cases fuel with
    | zero => rfl
    | succ f => simp [parseStringBody]
  | cons c cs ih =>
    cases fuel with
    | zero => rfl
    | succ f =>
      obtain ⟨hge, hq, hbs⟩ := plainChar_parts c (hp c (List.mem_cons_self _ _))
      have hlt : (c.toNat < 32) = False := by
        simp
        omega
      simp only [List.cons_append, parseStringBody, hq, hbs, hlt, Bool.false_eq_true,
        if_false, List.append_eq]
      rw [ih f (fun x hx => hp x (List.mem_cons_of_mem _ hx))]
      by_cases hl : cs.length < f
      · simp [hl, Nat.succ_lt_succ hl]
      · have : ¬(cs.length + 1 < f + 1) := by omega
        simp [hl, this]

theorem psb_backslash_n (f : Nat) (cs2 : List Char) :
    parseStringBody (f + 1) ('\\' :: 'n' :: cs2)
      = match parseStringBody f cs2 with
        | none => none
        | some (tl, rest2) => some (Char.ofNat 10 :: tl, rest2) := rfl

theorem psb_backslash_t (f : Nat) (cs2 : List Char) :
    parseStringBody (f + 1) ('\\' :: 't' :: cs2)
      = match parseStringBody f cs2 with
        | none => none
        | some (tl, rest2) => some (Char.ofNat 9 :: tl, rest2) := rfl

theorem psb_encoded (v : List Char) (rest : List Char) (fuel : Nat)
    (hv : ∀ c ∈ v, valChar c = true) :
    parseStringBody fuel (v.flatMap sanChar ++ '"' :: rest)
      = if v.length < fuel then some (v, rest) else none := by
  induction v generalizing fuel with
  | nil =>
    cases fuel with
    | zero => rfl
    | succ f => simp [parseStringBody]
  | cons c cs ih =>
    cases fuel with
    | zero => rfl
    | succ f =>
      have hvc := hv c (List.mem_cons_self _ _)
      have htl : ∀ x ∈ cs, valChar x = true := fun x hx => hv x (List.mem_cons_of_mem _ hx)
      unfold valChar at hvc
      rcases (Bool.or_eq_true _ _).mp hvc with hor | htab
      · rcases (Bool.or_eq_true _ _).mp hor with hpl | hlf
        · obtain ⟨hge, hq, hbs⟩ := plainChar_parts c hpl
          have hlt : (c.toNat < 32) = False := by
            simp
            omega
          have hsc : sanChar c = [c] := by
            have h10 : (c == Char.ofNat 10) = false := by
              rw [beq_eq_false_iff_ne]
              intro hc
              rw [hc] at hge
              exact absurd hge (by decide)
            have h9 : (c == Char.ofNat 9) = false := by
              rw [beq_eq_false_iff_ne]
              intro hc
              rw [hc] at hge
              exact absurd hge (by decide)
            simp [sanChar, h10, h9]
            omega
          simp only [List.flatMap_cons, hsc, List.singleton_append, List.cons_append,
            List.nil_append, parseStringBody, hq, hbs, hlt, Bool.false_eq_true,
            if_false, List.append_eq]
          rw [ih f htl]
          by_cases hl : cs.length < f
          · simp [hl, Nat.succ_lt_succ hl]
          · have h2 : ¬(cs.length + 1 < f + 1) := by omega
            simp [hl, h2]
        · have hc10 : c = Char.ofNat 10 := beq_iff_eq.mp hlf
          subst hc10
          rw [show ((Char.ofNat 10 :: cs).flatMap sanChar ++ '"' :: rest)
              = '\\' :: 'n' :: (cs.flatMap sanChar ++ '"' :: rest) from by
            simp [sanChar]]
          rw [psb_backslash_n f, ih f htl]
          by_cases hl : cs.length < f
          · simp [hl, Nat.succ_lt_succ hl]
          · have h2 : ¬(cs.length + 1 < f + 1) := by omega
            simp [hl, h2]
      · have hc9 : c = Char.ofNat 9 := beq_iff_eq.mp htab
        subst hc9
        rw [show ((Char.ofNat 9 :: cs).flatMap sanChar ++ '"' :: rest)
            = '\\' :: 't' :: (cs.flatMap sanChar ++ '"' :: rest) from by
          simp [sanChar]]
        rw [psb_backslash_t f, ih f htl]
        by_cases hl : cs.length < f
        · simp [hl, Nat.succ_lt_succ hl]
        · have h2 : ¬(cs.length + 1 < f + 1) := by omega
          simp [hl, h2]

theorem psb_ctrl_fails (v : List Char) (rest : List Char) (fuel : Nat)
    (hv : ∀ c ∈ v, valChar c = true)
    (hctrl : ∃ c ∈ v, c.toNat < 32) :
    parseStringBody fuel (v ++ '"' :: rest) = none := by
  induction v generalizing fuel with
  | nil =>
    rcases hctrl with ⟨c, hc, _⟩
    cases hc
  | cons c cs ih =>
    cases fuel with
    | zero => rfl
    | succ f =>
      have hvc := hv c (List.mem_cons_self _ _)
      have htl : ∀ x ∈ cs, valChar x = true := fun x hx => hv x (List.mem_cons_of_mem _ hx)
      by_cases hcc : c.toNat < 32
      · have hq : (c == '"') = false := by
          rw [beq_eq_false_iff_ne]
          intro hc
          rw [hc] at hcc
          simp at hcc
        have hbs : (c == '\\') = false := by
          rw [beq_eq_false_iff_ne]
          intro hc
          rw [hc] at hcc
          simp at hcc
        simp [parseStringBody, hq, hbs, hcc]
      · rcases hctrl with ⟨d, hd, hdc⟩
        rcases List.mem_cons.mp hd with hdd | hdd
        · exact absurd (hdd ▸ hdc) hcc
        · unfold valChar at hvc
          have hpl : plainChar c = true := by
            rcases (Bool.or_eq_true _ _).mp hvc with hor | htab
            · rcases (Bool.or_eq_true _ _).mp hor with hpl | hlf
              · exact hpl
              · exact absurd (by rw [beq_iff_eq.mp hlf]; decide) hcc
            · exact absurd (by rw [beq_iff_eq.mp htab]; decide) hcc
          obtain ⟨hge, hq, hbs⟩ := plainChar_parts c hpl
          have hlt : (c.toNat < 32) = False := by
            simp
            omega
          simp only [List.cons_append, parseStringBody, hq, hbs, hlt, Bool.false_eq_true,
            if_false, List.append_eq]
          rw [ih f htl ⟨d, hdd, hdc⟩]

theorem flatMap_sanChar_length_ge (v : List Char) (hv : ∀ c ∈ v, valChar c = true) :
    v.length ≤ (v.flatMap sanChar).length := by
  induction v with
  | nil => simp
  | cons c cs ih =>
    have htl : ∀ x ∈ cs, valChar x = true := fun x hx => hv x (List.mem_cons_of_mem _ hx)
    have hvc := hv c (List.mem_cons_self _ _)
    have hlen : 1 ≤ (sanChar c).length := by
      unfold valChar at hvc
      rcases (Bool.or_eq_true _ _).mp hvc with hor | htab
      · rcases (Bool.or_eq_true _ _).mp hor with hpl | hlf
        · obtain ⟨hge, _, _⟩ := plainChar_parts c hpl
          have h10 : (c == Char.ofNat 10) = false := by
            rw [beq_eq_false_iff_ne]
            intro hc
            rw [hc] at hge
            exact absurd hge (by decide)
          have h9 : (c == Char.ofNat 9) = false := by
            rw [beq_eq_false_iff_ne]
            intro hc
            rw [hc] at hge
            exact absurd hge (by decide)
          have hlt : ¬(c.toNat < 32) := by omega
          simp [sanChar, h10, h9, hlt]
        · rw [beq_iff_eq.mp hlf]
          decide
      · rw [beq_iff_eq.mp htab]
        decide
    have hih := ih htl
    simp only [List.flatMap_cons, List.length_append, List.length_cons]
    omega

theorem member_step (kv : String × String) (rest1 : List Char) (acc : JObjFields) (f : Nat)
    (hkey : ∀ c ∈ kv.1.toList, plainChar c = true)
    (hval : ∀ c ∈ kv.2.toList, valChar c = true)
    (hfk : kv.1.toList.length < f + 1)
    (hfv : kv.2.toList.length + 1 < f) :
    parseCore (f + 1) (PMode.members acc) (encMember kv ++ rest1)
      = (match skipWs rest1 with
         | ',' :: cs5 =>
           parseCore f (PMode.members (acc ++ [(kv.1, JVal.jstr kv.2)])) (skipWs cs5)
         | d :: cs5 =>
           if d == rbrace then some (JVal.jobj (acc ++ [(kv.1, JVal.jstr kv.2)]), cs5)
           else none
         | [] => none) := by
  have hshape : encMember kv ++ rest1
      = '"' :: (kv.1.toList ++ '"' :: (':' :: '"' :: (kv.2.toList.flatMap sanChar ++ '"' :: rest1))) := by
    simp [encMember]
  rw [hshape]
  obtain ⟨f2, rfl⟩ : ∃ f2, f = f2 + 1 := ⟨f - 1, by omega⟩
  simp only [parseCore]
  rw [psb_plain kv.1.toList _ (f2 + 1 + 1) hkey, if_pos hfk]
  simp only []
  rw [skipWs_cons_of_not ':' _ rfl]
  simp only []
  rw [skipWs_cons_of_not '"' _ rfl]
  simp only [parseCore]
  rw [psb_encoded kv.2.toList _ (f2 + 1) hval]
  rw [if_pos (show kv.2.toList.length < f2 + 1 by omega)]
  simp only []
  rfl

theorem encMembers_cons_exists (kv : String × String) (rest : List (String × String)) :
    ∃ t, encMembers (kv :: rest) = '"' :: t := by
  cases rest with
  | nil => exact ⟨_, rfl⟩
  | cons kv2 rest2 => exact ⟨_, rfl⟩

theorem rawMembers_cons_exists (kv : String × String) (rest : List (String × String)) :
    ∃ t, rawMembers (kv :: rest) = '"' :: t := by
  cases rest with
  | nil => exact ⟨_, rfl⟩
  | cons kv2 rest2 => exact ⟨_, rfl⟩

theorem members_success (kvs : List (String × String)) (acc : JObjFields) (fuel : Nat)
    (hne : ¬(kvs = []))
    (hkeys : ∀ kv ∈ kvs, ∀ c ∈ kv.1.toList, plainChar c = true)
    (hvals : ∀ kv ∈ kvs, ∀ c ∈ kv.2.toList, valChar c = true)
    (hfuel : (encMembers kvs).length + 1 < fuel) :
    parseCore fuel (PMode.members acc) (encMembers kvs ++ [rbrace])
      = some (JVal.jobj (acc ++ kvs.map (fun kv => (kv.1, JVal.jstr kv.2))), []) := by
  induction kvs generalizing acc fuel with
  | nil => cases hne rfl
  | cons kv rest ih =>
    obtain ⟨f, rfl⟩ : ∃ f, fuel = f + 1 := ⟨fuel - 1, by omega⟩
    have hkey := hkeys kv (List.mem_cons_self _ _)
    have hval := hvals kv (List.mem_cons_self _ _)
    have hvlen := flatMap_sanChar_length_ge kv.2.toList hval
    have hlem : (encMember kv).length
        = kv.1.toList.length + (kv.2.toList.flatMap sanChar).length + 5 := by
      simp [encMember]
      omega
    cases rest with
    | nil =>
      have hlen1 : (encMembers [kv]).length = (encMember kv).length := rfl
      rw [show encMembers [kv] = encMember kv from rfl]
      rw [member_step kv [rbrace] acc f hkey hval
          (by omega) (by omega)]
      rfl
    | cons kv2 rest2 =>
      have hlen2 : (encMembers (kv :: kv2 :: rest2)).length
          = (encMember kv).length + 1 + (encMembers (kv2 :: rest2)).length := by
        rw [show encMembers (kv :: kv2 :: rest2)
            = encMember kv ++ ',' :: encMembers (kv2 :: rest2) from rfl]
        simp
        omega
      rw [show encMembers (kv :: kv2 :: rest2)
          = encMember kv ++ ',' :: encMembers (kv2 :: rest2) from rfl]
      rw [show (encMember kv ++ ',' :: encMembers (kv2 :: rest2)) ++ [rbrace]
          = encMember kv ++ (',' :: (encMembers (kv2 :: rest2) ++ [rbrace])) from by simp]
      rw [member_step kv _ acc f hkey hval (by omega) (by omega)]
      rw [skipWs_cons_of_not ',' _ rfl]
      simp only []
      obtain ⟨t, ht⟩ := encMembers_cons_exists kv2 rest2
      have hsk : skipWs (encMembers (kv2 :: rest2) ++ [rbrace])
          = encMembers (kv2 :: rest2) ++ [rbrace] := by
        rw [ht]
        exact skipWs_cons_of_not '"' _ rfl
      rw [hsk]
      rw [ih (acc ++ [(kv.1, JVal.jstr kv.2)]) f (by simp)
          (fun x hx => hkeys x (List.mem_cons_of_mem _ hx))
          (fun x hx => hvals x (List.mem_cons_of_mem _ hx))
          (by omega)]
      simp

theorem members_fail (kvs : List (String × String)) (acc : JObjFields) (fuel : Nat)
    (hkeys : ∀ kv ∈ kvs, ∀ c ∈ kv.1.toList, plainChar c = true)
    (hvals : ∀ kv ∈ kvs, ∀ c ∈ kv.2.toList, valChar c = true)
    (hctrl : ∃ kv ∈ kvs, ∃ c ∈ kv.2.toList, c.toNat < 32) :
    parseCore fuel (PMode.members acc) (rawMembers kvs ++ [rbrace]) = none := by
  induction kvs generalizing acc fuel with
  | nil =>
    rcases hctrl with ⟨kv, hkv, _⟩
    cases hkv
  | cons kv rest ih =>
    cases fuel with
    | zero => rfl
    | succ f =>
      have hkey := hkeys kv (List.mem_cons_self _ _)
      have hval := hvals kv (List.mem_cons_self _ _)
      cases rest with
      | nil =>
        have hvc : ∃ c ∈ kv.2.toList, c.toNat < 32 := by
          rcases hctrl with ⟨kv0, hkv0, hc0⟩
          rcases List.mem_cons.mp hkv0 with he | he
          · exact he ▸ hc0
          · cases he
        have hshape : rawMembers [kv] ++ [rbrace]
            = '"' :: (kv.1.toList ++ '"' :: (':' :: '"' :: (kv.2.toList ++ '"' :: [rbrace]))) := by
          simp [rawMembers, rawMember]
        rw [hshape]
        simp only [parseCore]
        rw [psb_plain kv.1.toList _ (f + 1) hkey]
        by_cases hkf : kv.1.toList.length < f + 1
        · rw [if_pos hkf]
          simp only []
          rw [skipWs_cons_of_not ':' _ rfl]
          simp only []
          rw [skipWs_cons_of_not '"' _ rfl]
          cases f with
          | zero => rfl
          | succ f2 =>
            simp only [parseCore]
            rw [psb_ctrl_fails kv.2.toList _ (f2 + 1) hval hvc]
            rfl
        · rw [if_neg hkf]
      | cons kv2 rest2 =>
        have hshape : rawMembers (kv :: kv2 :: rest2) ++ [rbrace]
            = '"' :: (kv.1.toList ++ '"' :: (':' :: '"' :: (kv.2.toList ++ '"' ::
                (',' :: (rawMembers (kv2 :: rest2) ++ [rbrace]))))) := by
          rw [show rawMembers (kv :: kv2 :: rest2)
              = rawMember kv ++ ',' :: rawMembers (kv2 :: rest2) from rfl]
          simp [rawMember]
        rw [hshape]
        simp only [parseCore]
        rw [psb_plain kv.1.toList _ (f + 1) hkey]
        by_cases hkf : kv.1.toList.length < f + 1
        · rw [if_pos hkf]
          simp only []
          rw [skipWs_cons_of_not ':' _ rfl]
          simp only []
          rw [skipWs_cons_of_not '"' _ rfl]
          cases f with
          | zero => rfl
          | succ f2 =>
            simp only [parseCore]
            by_cases hvc : ∃ c ∈ kv.2.toList, c.toNat < 32
            · rw [psb_ctrl_fails kv.2.toList _ (f2 + 1) hval hvc]
              rfl
            · have hvp : ∀ c ∈ kv.2.toList, plainChar c = true := by
                intro c hc
                have hcv := hval c hc
                unfold valChar at hcv
                rcases (Bool.or_eq_true _ _).mp hcv with hor | htab
                · rcases (Bool.or_eq_true _ _).mp hor with hp | hlf
                  · exact hp
                  · exact absurd ⟨c, hc, by rw [beq_iff_eq.mp hlf]; decide⟩ hvc
                · exact absurd ⟨c, hc, by rw [beq_iff_eq.mp htab]; decide⟩ hvc
              rw [psb_plain kv.2.toList _ (f2 + 1) hvp]
              by_cases hvf : kv.2.toList.length < f2 + 1
              · rw [if_pos hvf]
                simp only [show (('"' : Char) == 'n') = false from rfl,
                  show (('"' : Char) == 't') = false from rfl,
                  show (('"' : Char) == 'f') = false from rfl,
                  show (('"' : Char) == '"') = true from rfl,
                  Bool.false_eq_true, if_false, if_true]
                rw [skipWs_cons_of_not ',' _ rfl]
                simp only []
                obtain ⟨t, ht⟩ := rawMembers_cons_exists kv2 rest2
                have hsk : skipWs (rawMembers (kv2 :: rest2) ++ [rbrace])
                    = rawMembers (kv2 :: rest2) ++ [rbrace] := by
                  rw [ht]
                  exact skipWs_cons_of_not '"' _ rfl
                rw [hsk]
                rcases hctrl with ⟨kv0, hkv0, hc0⟩
                rcases List.mem_cons.mp hkv0 with he | he
                · exact absurd (he ▸ hc0) hvc
                · exact ih (acc ++ [({ data := kv.1.toList }, JVal.jstr { data := kv.2.toList })])
                    (f2 + 1)
                    (fun x hx => hkeys x (List.mem_cons_of_mem _ hx))
                    (fun x hx => hvals x (List.mem_cons_of_mem _ hx))
                    ⟨kv0, he, hc0⟩
              · rw [if_neg hvf]
                rfl
        · rw [if_neg hkf]

theorem sanitizeChars_cons_nonCR (c : Char) (cs : List Char)
    (hc : (c == Char.ofNat 13) = false) :
    sanitizeChars (c :: cs)
      = (if c == Char.ofNat 10 then '\\' :: 'n' :: sanitizeChars cs
         else if c == Char.ofNat 9 then '\\' :: 't' :: sanitizeChars cs
         else if c.toNat < 32 then sanitizeChars cs
         else c :: sanitizeChars cs) := by
  rw [sanitizeChars.eq_def]
  simp only [hc, Bool.false_eq_true, if_false]

theorem sanitizeChars_eq_flatMap (l : List Char)
    (hcr : ∀ c ∈ l, ¬(c = Char.ofNat 13)) :
    sanitizeChars l = l.flatMap sanChar := by
  induction l with
  | nil => rfl
  | cons c cs ih =>
    have hctl : ∀ x ∈ cs, ¬(x = Char.ofNat 13) := fun x hx => hcr x (List.mem_cons_of_mem _ hx)
    have hc : (c == Char.ofNat 13) = false := by
      rw [beq_eq_false_iff_ne]
      exact hcr c (List.mem_cons_self _ _)
    rw [List.flatMap_cons, ← ih hctl, sanitizeChars_cons_nonCR c cs hc]
    by_cases h10 : c = Char.ofNat 10
    · have hb : (c == Char.ofNat 10) = true := beq_iff_eq.mpr h10
      rw [if_pos hb]
      subst h10
      rfl
    · have hb10 : (c == Char.ofNat 10) = false := beq_eq_false_iff_ne.mpr h10
      rw [if_neg (by simp [hb10])]
      by_cases h9 : c = Char.ofNat 9
      · have hb : (c == Char.ofNat 9) = true := beq_iff_eq.mpr h9
        rw [if_pos hb]
        subst h9
        rfl
      · have hb9 : (c == Char.ofNat 9) = false := beq_eq_false_iff_ne.mpr h9
        rw [if_neg (by simp [hb9])]
        by_cases hlt : c.toNat < 32
        · rw [if_pos hlt]
          rw [show sanChar c = [] from by simp [sanChar, hb10, hb9]; omega]
          rfl
        · rw [if_neg hlt]
          rw [show sanChar c = [c] from by simp [sanChar, hb10, hb9]; omega]
          rfl

theorem flatMap_sanChar_id (l : List Char) (hl : ∀ c ∈ l, sanChar c = [c]) :
    l.flatMap sanChar = l := by
  induction l with
  | nil => rfl
  | cons c cs ih =>
    rw [List.flatMap_cons, hl c (List.mem_cons_self _ _),
      ih (fun x hx => hl x (List.mem_cons_of_mem _ hx))]
    rfl

theorem flatMap_sanChar_rawMembers (kvs : List (String × String))
    (hkeys : ∀ kv ∈ kvs, ∀ c ∈ kv.1.toList, plainChar c = true) :
    (rawMembers kvs).flatMap sanChar = encMembers kvs := by
  have hmem : ∀ kv, (∀ c ∈ (kv : String × String).1.toList, plainChar c = true) →
      (rawMember kv).flatMap sanChar = encMember kv := by
    intro kv hk
    have hkeep : ∀ c ∈ kv.1.toList, sanChar c = [c] := by
      intro c hc
      obtain ⟨hge, _, _⟩ := plainChar_parts c (hk c hc)
      have h10 : (c == Char.ofNat 10) = false := by
        rw [beq_eq_false_iff_ne]
        intro hcc
        rw [hcc] at hge
        exact absurd hge (by decide)
      have h9 : (c == Char.ofNat 9) = false := by
        rw [beq_eq_false_iff_ne]
        intro hcc
        rw [hcc] at hge
        exact absurd hge (by decide)
      simp [sanChar, h10, h9]
      omega
    have hflat : kv.1.toList.flatMap sanChar = kv.1.toList :=
      flatMap_sanChar_id kv.1.toList hkeep
    unfold rawMember encMember
    simp only [List.flatMap_cons, List.flatMap_append]
    rw [hflat]
    rfl
  induction kvs with
  | nil => rfl
  | cons kv rest ih =>
    have hk := hkeys kv (List.mem_cons_self _ _)
    cases rest with
    | nil =>
      rw [show rawMembers [kv] = rawMember kv from rfl,
        show encMembers [kv] = encMember kv from rfl]
      exact hmem kv hk
    | cons kv2 rest2 =>
      rw [show rawMembers (kv :: kv2 :: rest2)
          = rawMember kv ++ ',' :: rawMembers (kv2 :: rest2) from rfl]
      rw [show encMembers (kv :: kv2 :: rest2)
          = encMember kv ++ ',' :: encMembers (kv2 :: rest2) from rfl]
      rw [List.flatMap_append, hmem kv hk, List.flatMap_cons]
      rw [ih (fun x hx => hkeys x (List.mem_cons_of_mem _ hx))]
      rfl

theorem parseVal_obj (fuel : Nat) (cs : List Char) :
    parseCore (fuel + 1) PMode.value (lbrace :: cs)
      = (match skipWs cs with
         | d :: rest =>
           if d == rbrace then some (JVal.jobj [], rest)
           else parseCore fuel (PMode.members []) (d :: rest)
         | [] => none) := by
  simp only [parseCore,
    show (lbrace == 'n') = false from rfl,
    show (lbrace == 't') = false from rfl,
    show (lbrace == 'f') = false from rfl,
    show (lbrace == '"') = false from rfl,
    show (lbrace == lbrace) = true from rfl,
    Bool.false_eq_true, if_false, if_true]

theorem mem_rawMember (c : Char) (kv : String × String) (hc : c ∈ rawMember kv) :
    c = '"' ∨ c = ':' ∨ c ∈ kv.1.toList ∨ c ∈ kv.2.toList := by
  unfold rawMember at hc
  simp at hc
  tauto

theorem mem_rawMembers (c : Char) (kvs : List (String × String))
    (hc : c ∈ rawMembers kvs) :
    c = '"' ∨ c = ':' ∨ c = ',' ∨ (∃ kv ∈ kvs, c ∈ kv.1.toList ∨ c ∈ kv.2.toList) := by
  induction kvs with
  | nil => cases hc
  | cons kv rest ih =>
    cases rest with
    | nil =>
      rcases mem_rawMember c kv hc with h | h | h | h
      · exact Or.inl h
      · exact Or.inr (Or.inl h)
      · exact Or.inr (Or.inr (Or.inr ⟨kv, List.mem_cons_self _ _, Or.inl h⟩))
      · exact Or.inr (Or.inr (Or.inr ⟨kv, List.mem_cons_self _ _, Or.inr h⟩))
    | cons kv2 rest2 =>
      rw [show rawMembers (kv :: kv2 :: rest2)
          = rawMember kv ++ ',' :: rawMembers (kv2 :: rest2) from rfl] at hc
      rcases List.mem_append.mp hc with h | h
      · rcases mem_rawMember c kv h with h2 | h2 | h2 | h2
        · exact Or.inl h2
        · exact Or.inr (Or.inl h2)
        · exact Or.inr (Or.inr (Or.inr ⟨kv, List.mem_cons_self _ _, Or.inl h2⟩))
        · exact Or.inr (Or.inr (Or.inr ⟨kv, List.mem_cons_self _ _, Or.inr h2⟩))
      · rcases List.mem_cons.mp h with h2 | h2
        · exact Or.inr (Or.inr (Or.inl h2))
        · rcases ih h2 with h3 | h3 | h3 | ⟨kv0, hkv0, h3⟩
          · exact Or.inl h3
          · exact Or.inr (Or.inl h3)
          · exact Or.inr (Or.inr (Or.inl h3))
          · exact Or.inr (Or.inr (Or.inr ⟨kv0, List.mem_cons_of_mem _ hkv0, h3⟩))

theorem jsonParse_eq (s : String) :
    jsonParse s = (match parseVal (s.length + 2) (skipWs s.toList) with
      | none => none
      | some (v, rest) => if (skipWs rest).isEmpty then some v else none) := rfl

/-- C7 (amended): for every object blob whose string values were
written with raw (unescaped) newlines/tabs — keys and values otherwise
printable, at least one raw newline present — direct decoding fails,
and decoding the sanitized blob succeeds and recovers exactly the
intended fields. -/
theorem c7_decode_tolerance (kvs : List (String × String))
    (hkeys : ∀ kv ∈ kvs, ∀ c ∈ kv.1.toList, plainChar c = true)
    (hvals : ∀ kv ∈ kvs, ∀ c ∈ kv.2.toList, valChar c = true)
    (hnl : ∃ kv ∈ kvs, Char.ofNat 10 ∈ kv.2.toList) :
    jsonParse (rawObjBlob kvs) = none ∧
    jsonParse (sanitizeJsonString (rawObjBlob kvs))
      = some (JVal.jobj (kvs.map (fun kv => (kv.1, JVal.jstr kv.2)))) := by
  have hctrl : ∃ kv ∈ kvs, ∃ c ∈ kv.2.toList, c.toNat < 32 := by
    rcases hnl with ⟨kv, hkv, hmem⟩
    exact ⟨kv, hkv, Char.ofNat 10, hmem, by decide⟩
  have hkvne : ¬(kvs = []) := by
    rcases hnl with ⟨kv, hkv, _⟩
    intro h
    rw [h] at hkv
    cases hkv
  obtain ⟨kv1, rest1, rfl⟩ : ∃ kv1 rest1, kvs = kv1 :: rest1 := by
    cases kvs with
    | nil => cases hkvne rfl
    | cons a b => exact ⟨a, b, rfl⟩
  have hcr : ∀ c ∈ lbrace :: (rawMembers (kv1 :: rest1) ++ [rbrace]),
      ¬(c = Char.ofNat 13) := by
    intro c hc
    rcases List.mem_cons.mp hc with h | h
    · subst h
      decide
    · rcases List.mem_append.mp h with h2 | h2
      · rcases mem_rawMembers c _ h2 with h3 | h3 | h3 | ⟨kv0, hkv0, h3⟩
        · subst h3; decide
        · subst h3; decide
        · subst h3; decide
        · rcases h3 with h4 | h4
          · obtain ⟨hge, _, _⟩ := plainChar_parts c (hkeys kv0 hkv0 c h4)
            intro he
            rw [he] at hge
            exact absurd hge (by decide)
          · have hv := hvals kv0 hkv0 c h4
            intro he
            rw [he] at hv
            exact absurd hv (by decide)
      · rcases List.mem_singleton.mp h2 with rfl
        decide
  constructor
  · rw [jsonParse_eq]
    rw [show (rawObjBlob (kv1 :: rest1)).toList
        = lbrace :: (rawMembers (kv1 :: rest1) ++ [rbrace]) from rfl]
    rw [skipWs_cons_of_not lbrace _ rfl]
    rw [show (rawObjBlob (kv1 :: rest1)).length
        = (rawMembers (kv1 :: rest1)).length + 2 from by
      show (lbrace :: (rawMembers (kv1 :: rest1) ++ [rbrace])).length = _
      simp]
    rw [show (rawMembers (kv1 :: rest1)).length + 2 + 2
        = ((rawMembers (kv1 :: rest1)).length + 3) + 1 from rfl]
    unfold parseVal
    rw [parseVal_obj]
    obtain ⟨t, ht⟩ := rawMembers_cons_exists kv1 rest1
    rw [show rawMembers (kv1 :: rest1) ++ [rbrace] = '"' :: (t ++ [rbrace]) from by
      rw [ht]; rfl]
    rw [skipWs_cons_of_not '"' _ rfl]
    simp only [show (('"' : Char) == rbrace) = false from rfl, Bool.false_eq_true, if_false]
    rw [show ('"' : Char) :: (t ++ [rbrace]) = rawMembers (kv1 :: rest1) ++ [rbrace] from by
      rw [ht]; rfl]
    rw [members_fail (kv1 :: rest1) [] _ hkeys hvals hctrl]
  · have hsan : sanitizeJsonString (rawObjBlob (kv1 :: rest1))
        = String.mk (lbrace :: (encMembers (kv1 :: rest1) ++ [rbrace])) := by
      unfold sanitizeJsonString rawObjBlob
      show String.mk (sanitizeChars (lbrace :: (rawMembers (kv1 :: rest1) ++ [rbrace]))) = _
      rw [sanitizeChars_eq_flatMap _ hcr, List.flatMap_cons, List.flatMap_append,
        flatMap_sanChar_rawMembers _ hkeys]
      rfl
    rw [hsan, jsonParse_eq]
    rw [show (String.mk (lbrace :: (encMembers (kv1 :: rest1) ++ [rbrace]))).toList
        = lbrace :: (encMembers (kv1 :: rest1) ++ [rbrace]) from rfl]
    rw [skipWs_cons_of_not lbrace _ rfl]
    rw [show (String.mk (lbrace :: (encMembers (kv1 :: rest1) ++ [rbrace]))).length
        = (encMembers (kv1 :: rest1)).length + 2 from by
      show (lbrace :: (encMembers (kv1 :: rest1) ++ [rbrace])).length = _
      simp]
    rw [show (encMembers (kv1 :: rest1)).length + 2 + 2
        = ((encMembers (kv1 :: rest1)).length + 3) + 1 from rfl]
    unfold parseVal
    rw [parseVal_obj]
    obtain ⟨t, ht⟩ := encMembers_cons_exists kv1 rest1
    rw [show encMembers (kv1 :: rest1) ++ [rbrace] = '"' :: (t ++ [rbrace]) from by
      rw [ht]; rfl]
    rw [skipWs_cons_of_not '"' _ rfl]
    simp only [show (('"' : Char) == rbrace) = false from rfl, Bool.false_eq_true, if_false]
    rw [show ('"' : Char) :: (t ++ [rbrace]) = encMembers (kv1 :: rest1) ++ [rbrace] from by
      rw [ht]; rfl]
    rw [members_success (kv1 :: rest1) [] _ hkvne hkeys hvals (by omega)]
    simp [skipWs]

/-- C7 counterexample: a blob consisting of a raw newline fails direct
decoding, and decoding its sanitized form fails too — sanitization
does not rescue every newline-containing blob, only object texts with
the raw control characters inside string values. -/
theorem c7_counterexample :
    (Char.ofNat 10 ∈ "\n".toList) ∧
    jsonParse "\n" = none ∧
    jsonParse (sanitizeJsonString "\n") = none :=
  ⟨by decide, rfl, rfl⟩

/-- C7 witness: a one-field object with a raw newline in the value. -/
theorem c7_witness :
    (∀ kv ∈ [("title", "a\nb")], ∀ c ∈ (kv : String × String).1.toList, plainChar c = true) ∧
    (∀ kv ∈ [("title", "a\nb")], ∀ c ∈ (kv : String × String).2.toList, valChar c = true) ∧
    (∃ kv ∈ [("title", "a\nb")], Char.ofNat 10 ∈ (kv : String × String).2.toList) ∧
    (jsonParse (rawObjBlob [("title", "a\nb")]) = none ∧
     jsonParse (sanitizeJsonString (rawObjBlob [("title", "a\nb")]))
       = some (JVal.jobj ([("title", "a\nb")].map (fun kv => (kv.1, JVal.jstr kv.2))))) :=
  ⟨by decide, by decide, by decide,
   c7_decode_tolerance [("title", "a\nb")] (by decide) (by decide) (by decide)⟩

/-- C9: for every notification event received by the subscribed sync
listener (with a callback registered), the callback is invoked if and
only if the event decrypts and decodes to a payload whose device
identifier does not match the local device identifier and whose app
tag matches the locally tracked app namespace; self-echoes, other-app
notices and undecryptable events never trigger the callback. -/
theorem c9_notifier_filter (st : NotifierState) (dec : Option NotifyPayload)
    (hcb : st.callbackRegistered = true) :
    (handleEvent st dec = true ↔
      ∃ p, dec = some p ∧ ¬(p.deviceId = st.deviceId) ∧ p.appNpub = st.appNpub) ∧
    handleEvent st none = false := by
  constructor
  · cases dec with
    | none => simp [handleEvent]
    | some p =>
      simp only [handleEvent]
      by_cases h1 : p.deviceId = st.deviceId
      · simp [h1]
      · by_cases h2 : p.appNpub = st.appNpub
        · simp [h1, h2, hcb]
        · simp [h1, h2]
  · simp [handleEvent]

/-- C9 witness: a foreign-device, same-app notice fires the callback;
the skip conditions hold vacuously false at this input. -/
theorem c9_witness :
    cNotifState.callbackRegistered = true ∧
    handleEvent cNotifState (some cNotifPayload) = true :=
  ⟨rfl, by
    have h := (c9_notifier_filter cNotifState (some cNotifPayload) rfl).1
    exact h.mpr ⟨cNotifPayload, rfl, by decide, rfl⟩⟩

/-- C8 (amended): for every stored row whose payload is a non-empty
string failing to parse both directly and after the single sanitizing
retry, decoding returns (it is total — the source catches every
failure) the placeholder record: domain fields are safe defaults,
the title marks the parse error, and the soft-delete flag is set
(`deleted = 1`), so the record is hidden rather than crashing or
vanishing. -/
theorem c8_unparseable_placeholder (r : Row)
    (hne : ¬(r.payload = ""))
    (h1 : jsonParse r.payload = none)
    (h2 : jsonParse (sanitizeJsonString r.payload) = none) :
    deserializeTodo r = parseErrorPlaceholder r.record_id r.owner ∧
    oget (deserializeTodo r) "deleted" = some (JVal.jnum 1) ∧
    oget (deserializeTodo r) "done" = some (JVal.jnum 0) ∧
    oget (deserializeTodo r) "title" = some (JVal.jstr "[Parse error - invalid JSON]") := by
  have hmain : deserializeTodo r = parseErrorPlaceholder r.record_id r.owner := by
    simp only [deserializeTodo, beq_iff_eq, if_neg hne, h1, h2]
  refine ⟨hmain, ?_, ?_, ?_⟩ <;> rw [hmain] <;> rfl

/-- C8 witness: a concrete non-empty unparseable payload maps to the
soft-deleted placeholder. -/
theorem c8_witness :
    ¬(cRowBadPayload.payload = "") ∧
    jsonParse cRowBadPayload.payload = none ∧
    jsonParse (sanitizeJsonString cRowBadPayload.payload) = none ∧
    deserializeTodo cRowBadPayload = parseErrorPlaceholder "rBad" "o1" :=
  ⟨by decide, rfl, rfl,
   (c8_unparseable_placeholder cRowBadPayload (by decide) rfl rfl).1⟩

/-- C8 counterexample: the empty payload also fails both parses, yet
`deserializeTodo` returns the stored row unchanged (the source's
`if (!storedTodo.payload) return storedTodo` early exit), not the
soft-deleted placeholder — no `deleted` flag is set on it. -/
theorem c8_counterexample :
    jsonParse cRowEmptyPayload.payload = none ∧
    jsonParse (sanitizeJsonString cRowEmptyPayload.payload) = none ∧
    deserializeTodo cRowEmptyPayload = rowAsObject cRowEmptyPayload ∧
    ¬(deserializeTodo cRowEmptyPayload
        = parseErrorPlaceholder cRowEmptyPayload.record_id cRowEmptyPayload.owner) ∧
    oget (deserializeTodo cRowEmptyPayload) "deleted" = none := by
  refine ⟨rfl, rfl, rfl, ?_, rfl⟩
  intro h
  have hd : deserializeTodo cRowEmptyPayload = rowAsObject cRowEmptyPayload := rfl
  rw [hd] at h
  simp [rowAsObject, parseErrorPlaceholder, cRowEmptyPayload] at h

/-! ## The idempotence development (C6) -/

/-! ## C6 : the remote-store model and the idempotence development -/

/-! ### Basic store lemmas for the idempotence development -/

theorem dbGet_id (s : Store) (k : String) (r : Row) (h : dbGet s k = some r) :
    r.record_id = k := by
  have := List.find?_some h
  exact beq_iff_eq.mp this

theorem dbGet_mem (s : Store) (k : String) (r : Row) (h : dbGet s k = some r) :
    r ∈ s :=
  List.mem_of_find?_eq_some h

theorem dbGet_none_of_not_mem (s : Store) (k : String)
    (h : k ∉ s.map Row.record_id) : dbGet s k = none := by
  unfold dbGet
  rw [List.find?_eq_none]
  intro x hx hpx
  exact h (List.mem_map.mpr ⟨x, hx, beq_iff_eq.mp hpx⟩)

theorem mem_dbPut (s : Store) (row x : Row) (h : x ∈ dbPut s row) :
    x ∈ s ∨ x = row := by
  unfold dbPut at h
  by_cases ha : s.any (fun r => r.record_id == row.record_id)
  · rw [if_pos ha] at h
    rcases List.mem_map.mp h with ⟨y, hy, hxy⟩
    by_cases hid : y.record_id = row.record_id
    · right
      rw [← hxy]
      simp [hid]
    · left
      rw [← hxy]
      simpa [hid] using hy
  · rw [if_neg ha] at h
    rcases List.mem_append.mp h with h1 | h1
    · exact Or.inl h1
    · exact Or.inr (List.mem_singleton.mp h1)

theorem nodup_ids_dbPut (s : Store) (row : Row)
    (h : (s.map Row.record_id).Nodup) : ((dbPut s row).map Row.record_id).Nodup := by
  unfold dbPut
  by_cases ha : s.any (fun r => r.record_id == row.record_id)
  · rw [if_pos ha]
    have hmap : (s.map (fun r => if r.record_id == row.record_id then row else r)).map Row.record_id
        = s.map Row.record_id := by
      rw [List.map_map]
      apply List.map_congr_left
      intro r _
      by_cases hid : r.record_id = row.record_id
      · simp [Function.comp, hid]
      · simp [Function.comp, hid]
    rw [hmap]
    exact h
  · rw [if_neg ha, List.map_append]
    rw [List.nodup_append]
    refine ⟨h, by simp, ?_⟩
    intro a hamem
    simp only [List.map_cons, List.map_nil, List.mem_singleton]
    intro hb
    rcases List.mem_map.mp hamem with ⟨y, hy, hya⟩
    rw [hb] at hya
    have : s.any (fun r => r.record_id == row.record_id) = true :=
      List.any_eq_true.mpr ⟨y, hy, by simp [hya]⟩
    exact ha this

theorem nodup_ids_dbDelete (s : Store) (i : String)
    (h : (s.map Row.record_id).Nodup) : ((dbDelete s i).map Row.record_id).Nodup :=
  ((List.filter_sublist s).map Row.record_id).nodup h

theorem nodup_ids_dbUpdate (s : Store) (i : String) (f : Row → Row)
    (hf : ∀ r, (f r).record_id = r.record_id)
    (h : (s.map Row.record_id).Nodup) : ((dbUpdate s i f).map Row.record_id).Nodup := by
  unfold dbUpdate
  have hmap : (s.map (fun r => if r.record_id == i then f r else r)).map Row.record_id
      = s.map Row.record_id := by
    rw [List.map_map]
    apply List.map_congr_left
    intro r _
    by_cases hid : r.record_id = i
    · simp [Function.comp, hid, hf]
    · simp [Function.comp, hid]
  rw [hmap]
  exact h

/-- A fold whose every step is the identity on the accumulator it is
given never moves off the initial accumulator. -/
theorem foldl_fixed {α β : Type} (f : α → β → α) (s : α) (L : List β)
    (h : ∀ x ∈ L, f s x = s) : L.foldl f s = s := by
  induction L with
  | nil => rfl
  | cons x t ih =>
    rw [List.foldl_cons, h x (List.mem_cons_self x t)]
    exact ih (fun y hy => h y (List.mem_cons_of_mem x hy))

/-! ### Phase 1 (pull): pointwise characterization -/

theorem pullStep_get_ne (ctx : CryptoCtx) (owner : String) (s : Store)
    (pulled updated : Nat) (rec : WireRecord) (k : String)
    (h : ¬(rec.record_id = k)) :
    dbGet (pullStep ctx owner (s, pulled, updated) rec).1 k = dbGet s k := by
  cases hget : dbGet s rec.record_id with
  | none =>
    cases hp : parseV3Record ctx rec with
    | none => simp [pullStep, hget, hp]
    | some p =>
      simp only [pullStep, hget, hp]
      exact dbGet_dbPut_ne s _ k h
  | some local0 =>
    by_cases hv : rec.version > local0.version
    · cases hp : parseV3Record ctx rec with
      | none => simp [pullStep, hget, hp, hv]
      | some p =>
        simp only [pullStep, hget, hp, if_pos hv]
        exact dbGet_dbPut_ne s _ k h
    · simp [pullStep, hget, hv]

theorem pullPhase_get_spec (ctx : CryptoCtx) (owner : String) (recs : List WireRecord)
    (s : Store) (pulled updated : Nat) (k : String)
    (hnd : (recs.map WireRecord.record_id).Nodup) :
    dbGet (recs.foldl (pullStep ctx owner) (s, pulled, updated)).1 k =
      match recs.find? (fun rec => rec.record_id == k) with
      | none => dbGet s k
      | some rec =>
        match dbGet s k with
        | none =>
          match parseV3Record ctx rec with
          | none => none
          | some p => some (importedRow owner rec p)
        | some row =>
          if rec.version > row.version then
            match parseV3Record ctx rec with
            | none => some row
            | some p => some (importedRow owner rec p)
          else some row := by
  induction recs generalizing s pulled updated with
  | nil => simp [List.find?]
  | cons rec t ih =>
    have hndt : (t.map WireRecord.record_id).Nodup := (List.nodup_cons.mp hnd).2
    by_cases hk : rec.record_id = k
    · have hfind : (rec :: t).find? (fun r => r.record_id == k) = some rec := by
        simp [List.find?, hk]
      rw [hfind, List.foldl_cons]
      have hnone : t.find? (fun r => r.record_id == k) = none := by
        rw [List.find?_eq_none]
        intro x hx hpx
        have hxk : x.record_id = k := beq_iff_eq.mp hpx
        have : rec.record_id ∈ t.map WireRecord.record_id := by
          rw [hk, ← hxk]
          exact List.mem_map_of_mem _ hx
        exact (List.nodup_cons.mp hnd).1 this
      have hih := ih (pullStep ctx owner (s, pulled, updated) rec).1
        (pullStep ctx owner (s, pulled, updated) rec).2.1
        (pullStep ctx owner (s, pulled, updated) rec).2.2 hndt
      rw [hnone] at hih
      simp only [Prod.mk.eta] at hih
      rw [hih]
      cases hget : dbGet s rec.record_id with
      | none =>
        have hgetk : dbGet s k = none := by rw [← hk]; exact hget
        rw [hgetk]
        simp only []
        cases hp : parseV3Record ctx rec with
        | none => simp [pullStep, hget, hp, hgetk]
        | some p =>
          simp only [pullStep, hget, hp]
          have := dbGet_dbPut_self s (importedRow owner rec p)
          have hid : (importedRow owner rec p).record_id = k := hk
          rw [hid] at this
          exact this
      | some local0 =>
        have hgetk : dbGet s k = some local0 := by rw [← hk]; exact hget
        rw [hgetk]
        simp only []
        by_cases hv : rec.version > local0.version
        · rw [if_pos hv]
          cases hp : parseV3Record ctx rec with
          | none => simp [pullStep, hget, hp, hv, hgetk]
          | some p =>
            simp only [pullStep, hget, hp, if_pos hv]
            have := dbGet_dbPut_self s (importedRow owner rec p)
            have hid : (importedRow owner rec p).record_id = k := hk
            rw [hid] at this
            exact this
        · rw [if_neg hv]
          simp [pullStep, hget, hv, hgetk]
    · have hfind : (rec :: t).find? (fun r => r.record_id == k)
          = t.find? (fun r => r.record_id == k) := by
        have hbk : (rec.record_id == k) = false := by simp [hk]
        simp [List.find?, hbk]
      rw [hfind, List.foldl_cons]
      have hstep := pullStep_get_ne ctx owner s pulled updated rec k hk
      have hih := ih (pullStep ctx owner (s, pulled, updated) rec).1
        (pullStep ctx owner (s, pulled, updated) rec).2.1
        (pullStep ctx owner (s, pulled, updated) rec).2.2 hndt
      simp only [Prod.mk.eta] at hih
      rw [hih, hstep]

theorem pullPhase_get_spec2 (ctx : CryptoCtx) (owner : String) (recs : List WireRecord)
    (s : Store) (k : String)
    (hnd : (recs.map WireRecord.record_id).Nodup) :
    dbGet (pullPhase ctx owner s recs).1 k =
      match recs.find? (fun rec => rec.record_id == k) with
      | none => dbGet s k
      | some rec =>
        match dbGet s k with
        | none =>
          match parseV3Record ctx rec with
          | none => none
          | some p => some (importedRow owner rec p)
        | some row =>
          if rec.version > row.version then
            match parseV3Record ctx rec with
            | none => some row
            | some p => some (importedRow owner rec p)
          else some row :=
  pullPhase_get_spec ctx owner recs s 0 0 k hnd

theorem pullStep_noop (ctx : CryptoCtx) (owner : String) (s : Store)
    (pulled updated : Nat) (rec : WireRecord)
    (h : match dbGet s rec.record_id with
         | none => parseV3Record ctx rec = none
         | some row => ¬(rec.version > row.version) ∨ parseV3Record ctx rec = none) :
    pullStep ctx owner (s, pulled, updated) rec = (s, pulled, updated) := by
  cases hget : dbGet s rec.record_id with
  | none =>
    rw [hget] at h
    simp [pullStep, hget, h]
  | some row =>
    rw [hget] at h
    rcases h with h | h
    · simp [pullStep, hget, h]
    · by_cases hv : rec.version > row.version
      · simp [pullStep, hget, hv, h]
      · simp [pullStep, hget, hv]

theorem pullPhase_noop (ctx : CryptoCtx) (owner : String) (recs : List WireRecord)
    (s : Store) (pulled updated : Nat)
    (h : ∀ rec ∈ recs,
      match dbGet s rec.record_id with
      | none => parseV3Record ctx rec = none
      | some row => ¬(rec.version > row.version) ∨ parseV3Record ctx rec = none) :
    recs.foldl (pullStep ctx owner) (s, pulled, updated) = (s, pulled, updated) :=
  foldl_fixed _ _ recs (fun rec hrec => pullStep_noop ctx owner s pulled updated rec (h rec hrec))

theorem nodup_ids_pullStep (ctx : CryptoCtx) (owner : String) (s : Store)
    (pulled updated : Nat) (rec : WireRecord)
    (h : (s.map Row.record_id).Nodup) :
    ((pullStep ctx owner (s, pulled, updated) rec).1.map Row.record_id).Nodup := by
  cases hget : dbGet s rec.record_id with
  | none =>
    cases hp : parseV3Record ctx rec with
    | none => simpa [pullStep, hget, hp] using h
    | some p =>
      simp only [pullStep, hget, hp]
      exact nodup_ids_dbPut s _ h
  | some local0 =>
    by_cases hv : rec.version > local0.version
    · cases hp : parseV3Record ctx rec with
      | none => simpa [pullStep, hget, hp, hv] using h
      | some p =>
        simp only [pullStep, hget, hp, if_pos hv]
        exact nodup_ids_dbPut s _ h
    · simpa [pullStep, hget, hv] using h

theorem nodup_ids_pullPhase (ctx : CryptoCtx) (owner : String) (recs : List WireRecord)
    (s : Store) (pulled updated : Nat)
    (h : (s.map Row.record_id).Nodup) :
    ((recs.foldl (pullStep ctx owner) (s, pulled, updated)).1.map Row.record_id).Nodup := by
  induction recs generalizing s pulled updated with
  | nil => exact h
  | cons rec t ih =>
    rw [List.foldl_cons]
    have hstep := nodup_ids_pullStep ctx owner s pulled updated rec h
    have := ih (pullStep ctx owner (s, pulled, updated) rec).1
      (pullStep ctx owner (s, pulled, updated) rec).2.1
      (pullStep ctx owner (s, pulled, updated) rec).2.2 hstep
    simp only [Prod.mk.eta] at this
    exact this

theorem mem_pullStep (ctx : CryptoCtx) (owner : String) (s : Store)
    (pulled updated : Nat) (rec : WireRecord) (x : Row)
    (hx : x ∈ (pullStep ctx owner (s, pulled, updated) rec).1) :
    x ∈ s ∨ ∃ p, parseV3Record ctx rec = some p ∧ x = importedRow owner rec p := by
  cases hget : dbGet s rec.record_id with
  | none =>
    cases hp : parseV3Record ctx rec with
    | none =>
      left
      simpa [pullStep, hget, hp] using hx
    | some p =>
      simp only [pullStep, hget, hp] at hx
      rcases mem_dbPut s _ x hx with h | h
      · exact Or.inl h
      · exact Or.inr ⟨p, rfl, h⟩
  | some local0 =>
    by_cases hv : rec.version > local0.version
    · cases hp : parseV3Record ctx rec with
      | none =>
        left
        simpa [pullStep, hget, hp, hv] using hx
      | some p =>
        simp only [pullStep, hget, hp, if_pos hv] at hx
        rcases mem_dbPut s _ x hx with h | h
        · exact Or.inl h
        · exact Or.inr ⟨p, rfl, h⟩
    · left
      simpa [pullStep, hget, hv] using hx

theorem mem_pullPhase (ctx : CryptoCtx) (owner : String) (recs : List WireRecord)
    (s : Store) (pulled updated : Nat) (x : Row)
    (hx : x ∈ (recs.foldl (pullStep ctx owner) (s, pulled, updated)).1) :
    x ∈ s ∨ ∃ rec ∈ recs, ∃ p, parseV3Record ctx rec = some p ∧ x = importedRow owner rec p := by
  induction recs generalizing s pulled updated with
  | nil => exact Or.inl hx
  | cons rec t ih =>
    rw [List.foldl_cons] at hx
    rw [← Prod.mk.eta (p := pullStep ctx owner (s, pulled, updated) rec),
      ← Prod.mk.eta (p := (pullStep ctx owner (s, pulled, updated) rec).2)] at hx
    rcases ih _ _ _ hx with h | ⟨rec', hrec', p, hp, hxp⟩
    · rcases mem_pullStep ctx owner s pulled updated rec x h with h1 | ⟨p, hp, hxp⟩
      · exact Or.inl h1
      · exact Or.inr ⟨rec, List.mem_cons_self rec t, p, hp, hxp⟩
    · exact Or.inr ⟨rec', List.mem_cons_of_mem rec hrec', p, hp, hxp⟩

/-! ### Phase 2 and Phase 3: pointwise characterizations -/

theorem find?_key_some {α : Type} (f : α → String) (L : List α) (k : String)
    (h : k ∈ L.map f) :
    ∃ x, L.find? (fun e => f e == k) = some x ∧ f x = k := by
  induction L with
  | nil => cases h
  | cons a t ih =>
    by_cases ha : f a = k
    · refine ⟨a, ?_, ha⟩
      simp [List.find?, ha]
    · have hbk : (f a == k) = false := by simp [ha]
      rcases List.mem_map.mp h with ⟨y, hy, hyk⟩
      rcases List.mem_cons.mp hy with hh | hh
      · exact absurd (hh ▸ hyk) ha
      · rcases ih (List.mem_map.mpr ⟨y, hh, hyk⟩) with ⟨x, hx, hxk⟩
        refine ⟨x, ?_, hxk⟩
        simp [List.find?, hbk, hx]

theorem find?_key_none {α : Type} (f : α → String) (L : List α) (k : String)
    (h : k ∉ L.map f) :
    L.find? (fun e => f e == k) = none := by
  rw [List.find?_eq_none]
  intro x hx hpx
  exact h (List.mem_map.mpr ⟨x, hx, beq_iff_eq.mp hpx⟩)

theorem deleteDetect_get_pointwise (owner : String) (ids : List String) (s : Store) (k : String)
    (hnd : (s.map Row.record_id).Nodup) :
    dbGet (deleteDetectPhase owner ids s) k =
      match dbGet s k with
      | none => none
      | some r => if r.owner == owner && phase2Cond ids r then none else some r := by
  rw [deleteDetectPhase_get]
  cases hget : dbGet s k with
  | none =>
    by_cases hany : (byOwner s owner).any (fun r => r.record_id == k && phase2Cond ids r)
    · simp [hany]
    · have : (byOwner s owner).any (fun r => r.record_id == k && phase2Cond ids r) = false := by
        simpa using hany
      simp [this, hget]
  | some r =>
    by_cases hc : (r.owner == owner && phase2Cond ids r) = true
    · have hmem : r ∈ s := dbGet_mem s k r hget
      have hro : (r.owner == owner) = true := ((Bool.and_eq_true _ _).mp hc).1
      have hbo : r ∈ byOwner s owner := List.mem_filter.mpr ⟨hmem, hro⟩
      have hany : (byOwner s owner).any (fun x => x.record_id == k && phase2Cond ids x) = true :=
        List.any_eq_true.mpr ⟨r, hbo, by
          simp [dbGet_id s k r hget, ((Bool.and_eq_true _ _).mp hc).2]⟩
      simp [hany, hc]
    · have hany : (byOwner s owner).any (fun x => x.record_id == k && phase2Cond ids x) = false := by
        rw [List.any_eq_false]
        intro x hx hpx
        have hxk : x.record_id = k := beq_iff_eq.mp ((Bool.and_eq_true _ _).mp hpx).1
        have hxmem : x ∈ s := (List.mem_filter.mp hx).1
        have hxg := dbGet_eq_of_mem s x hnd hxmem
        rw [hxk, hget] at hxg
        have hxr : x = r := by
          injection hxg with h3
          exact h3.symm
        apply hc
        subst hxr
        exact (Bool.and_eq_true _ _).mpr ⟨(List.mem_filter.mp hx).2, ((Bool.and_eq_true _ _).mp hpx).2⟩
      have hcf : (r.owner == owner && phase2Cond ids r) = false := by
        simpa using hc
      simp [hany, hget, hcf]

theorem pushUpdate_fold_get2 (synced : List SyncedEntry) (s : Store) (k : String) :
    dbGet (synced.foldl pushUpdateStep s) k = (dbGet s k).map (pushRowFun synced) :=
  pushUpdate_fold_get synced s k

theorem pushRowFun_record_id (synced : List SyncedEntry) (r : Row) :
    (pushRowFun synced r).record_id = r.record_id :=
  pushUpdateFold_id_pres synced r

theorem pushRowFun_of_find_none (synced : List SyncedEntry) (r : Row)
    (h : synced.find? (fun e => e.record_id == r.record_id) = none) :
    pushRowFun synced r = r := by
  induction synced with
  | nil => rfl
  | cons e t ih =>
    by_cases hbe : e.record_id = r.record_id
    · exfalso
      have : (fun x => x.record_id == r.record_id) e = true := by simp [hbe]
      simp [List.find?, this] at h
    · have hbk : (e.record_id == r.record_id) = false := by simp [hbe]
      have ht : t.find? (fun x => x.record_id == r.record_id) = none := by
        simpa [List.find?, hbk] using h
      have hne : ¬(r.record_id = e.record_id) := fun hh => hbe hh.symm
      unfold pushRowFun
      rw [List.foldl_cons, if_neg hne]
      exact ih ht

theorem pushRowFun_of_find_some (synced : List SyncedEntry) (r : Row) (e0 : SyncedEntry)
    (hnd : (synced.map SyncedEntry.record_id).Nodup)
    (h : synced.find? (fun e => e.record_id == r.record_id) = some e0) :
    pushRowFun synced r = { r with version := e0.version, pending := false } := by
  induction synced with
  | nil => cases h
  | cons e t ih =>
    by_cases hbe : e.record_id = r.record_id
    · have hfe : (fun x => x.record_id == r.record_id) e = true := by simp [hbe]
      have he0 : e0 = e := by
        simp [List.find?, hfe] at h
        exact h.symm
      subst he0
      unfold pushRowFun
      rw [List.foldl_cons, if_pos hbe.symm]
      have hnone : t.find? (fun x => x.record_id ==
          ({ r with version := e0.version, pending := false } : Row).record_id) = none := by
        apply find?_key_none
        intro hmem
        have : e0.record_id ∈ t.map SyncedEntry.record_id := by
          simpa [hbe] using hmem
        exact (List.nodup_cons.mp hnd).1 this
      exact pushRowFun_of_find_none t _ hnone
    · have hbk : (e.record_id == r.record_id) = false := by simp [hbe]
      have ht : t.find? (fun x => x.record_id == r.record_id) = some e0 := by
        simpa [List.find?, hbk] using h
      have hne : ¬(r.record_id = e.record_id) := fun hh => hbe hh.symm
      unfold pushRowFun
      rw [List.foldl_cons, if_neg hne]
      exact ih (List.nodup_cons.mp hnd).2 ht

theorem formatForV3Sync_ids (ctx : CryptoCtx) (rows : List Row) (dps : List String) :
    (formatForV3Sync ctx rows dps).map WireRecord.record_id = rows.map Row.record_id := by
  unfold formatForV3Sync
  rw [List.map_map]
  rfl

theorem mem_pendingOf (s : Store) (owner : String) (r : Row) :
    r ∈ pendingOf s owner ↔ r ∈ s ∧ (r.owner == owner) = true ∧ (r.pending == true) = true := by
  unfold pendingOf byOwner
  constructor
  · intro h
    have h1 := List.mem_filter.mp h
    have h2 := List.mem_filter.mp h1.1
    exact ⟨h2.1, h2.2, h1.2⟩
  · intro ⟨h1, h2, h3⟩
    exact List.mem_filter.mpr ⟨List.mem_filter.mpr ⟨h1, h2⟩, h3⟩

theorem nodup_ids_pendingOf (s : Store) (owner : String)
    (hnd : (s.map Row.record_id).Nodup) :
    ((pendingOf s owner).map Row.record_id).Nodup := by
  unfold pendingOf byOwner
  exact (((List.filter_sublist s).trans (List.Sublist.refl s)).map Row.record_id).nodup hnd |>.sublist
    (((List.filter_sublist _).map Row.record_id))

theorem pushPhase_get_pointwise (ctx : CryptoCtx) (owner : String) (dps : List String)
    (respond : List WireRecord → List SyncedEntry) (s : Store) (k : String)
    (hnd : (s.map Row.record_id).Nodup)
    (hResp : (respond (formatForV3Sync ctx (pendingOf s owner) dps)).map SyncedEntry.record_id
        = (pendingOf s owner).map Row.record_id) :
    dbGet (pushPhase ctx owner dps respond s).1 k =
      match dbGet s k with
      | none => none
      | some r =>
        if r.owner == owner && r.pending then
          if isSoftDeleted r.payload then none
          else some { r with
            version := syncedVersion (respond (formatForV3Sync ctx (pendingOf s owner) dps)) k,
            pending := false }
        else some r := by
  by_cases hemp : (pendingOf s owner).isEmpty
  · have hstore : (pushPhase ctx owner dps respond s).1 = s := by
      simp [pushPhase, hemp]
    rw [hstore]
    cases hget : dbGet s k with
    | none => rfl
    | some r =>
      have hcf : (r.owner == owner && r.pending) = false := by
        by_contra hcc
        have hc : (r.owner == owner && r.pending) = true := by
          revert hcc
          cases r.owner == owner && r.pending <;> simp
        have hrp : r ∈ pendingOf s owner :=
          (mem_pendingOf s owner r).mpr
            ⟨dbGet_mem s k r hget, ((Bool.and_eq_true _ _).mp hc).1,
             by simp [((Bool.and_eq_true _ _).mp hc).2]⟩
        rw [List.isEmpty_iff] at hemp
        rw [hemp] at hrp
        cases hrp
      simp [hcf]
  · have hemp2 : (pendingOf s owner).isEmpty = false := by simpa using hemp
    have hstore : (pushPhase ctx owner dps respond s).1
        = (pendingOf s owner).foldl
            (terminalDeleteStep (respond (formatForV3Sync ctx (pendingOf s owner) dps)))
            ((respond (formatForV3Sync ctx (pendingOf s owner) dps)).foldl pushUpdateStep s) := by
      simp [pushPhase, hemp2]
    rw [hstore, terminal_fold_get, pushUpdate_fold_get2]
    have hndp : ((pendingOf s owner).map Row.record_id).Nodup := nodup_ids_pendingOf s owner hnd
    have hnds : ((respond (formatForV3Sync ctx (pendingOf s owner) dps)).map
        SyncedEntry.record_id).Nodup := by
      rw [hResp]
      exact hndp
    cases hget : dbGet s k with
    | none =>
      by_cases hany : (pendingOf s owner).any (fun x => x.record_id == k
          && terminalCond (respond (formatForV3Sync ctx (pendingOf s owner) dps)) x)
      · simp [hany, hget]
      · have hanyf : ((pendingOf s owner).any (fun x => x.record_id == k
            && terminalCond (respond (formatForV3Sync ctx (pendingOf s owner) dps)) x)) = false := by
          simpa using hany
        simp [hanyf, hget]
    | some r =>
      have hrk : r.record_id = k := dbGet_id s k r hget
      have hrmem : r ∈ s := dbGet_mem s k r hget
      by_cases hc : (r.owner == owner && r.pending) = true
      · have hrp : r ∈ pendingOf s owner :=
          (mem_pendingOf s owner r).mpr
            ⟨hrmem, ((Bool.and_eq_true _ _).mp hc).1, by simp [((Bool.and_eq_true _ _).mp hc).2]⟩
        have hkids : k ∈ (respond (formatForV3Sync ctx (pendingOf s owner) dps)).map
            SyncedEntry.record_id := by
          rw [hResp, ← hrk]
          exact List.mem_map_of_mem _ hrp
        rcases find?_key_some SyncedEntry.record_id _ k hkids with ⟨e0, hfind, he0k⟩
        have hfindr : (respond (formatForV3Sync ctx (pendingOf s owner) dps)).find?
            (fun e => e.record_id == r.record_id) = some e0 := by
          rw [hrk]
          exact hfind
        have hfold : pushRowFun (respond (formatForV3Sync ctx (pendingOf s owner) dps)) r
            = { r with version := e0.version, pending := false } :=
          pushRowFun_of_find_some _ r e0 hnds hfindr
        have hsv : syncedVersion (respond (formatForV3Sync ctx (pendingOf s owner) dps)) k
            = e0.version := by
          unfold syncedVersion
          rw [hfind]
        have hsany : (respond (formatForV3Sync ctx (pendingOf s owner) dps)).any
            (fun e => e.record_id == r.record_id) = true :=
          List.any_eq_true.mpr ⟨e0, List.mem_of_find?_eq_some hfindr,
            by simp [he0k, hrk]⟩
        have hterm : terminalCond (respond (formatForV3Sync ctx (pendingOf s owner) dps)) r
            = isSoftDeleted r.payload := by
          unfold terminalCond
          rw [hsany]
          cases isSoftDeleted r.payload <;> rfl
        by_cases hsd : isSoftDeleted r.payload = true
        · have hany : (pendingOf s owner).any (fun x => x.record_id == k
              && terminalCond (respond (formatForV3Sync ctx (pendingOf s owner) dps)) x) = true :=
            List.any_eq_true.mpr ⟨r, hrp, by simp [hrk, hterm, hsd]⟩
          simp [hany, hc, hsd]
        · have hany : (pendingOf s owner).any (fun x => x.record_id == k
              && terminalCond (respond (formatForV3Sync ctx (pendingOf s owner) dps)) x) = false := by
            rw [List.any_eq_false]
            intro x hx hpx
            have hxk : x.record_id = k := beq_iff_eq.mp ((Bool.and_eq_true _ _).mp hpx).1
            have hxmem : x ∈ s := ((mem_pendingOf s owner x).mp hx).1
            have hxg := dbGet_eq_of_mem s x hnd hxmem
            rw [hxk, hget] at hxg
            have hxr : x = r := by
              injection hxg with h3
              exact h3.symm
            subst hxr
            rw [hterm] at hpx
            have := ((Bool.and_eq_true _ _).mp hpx).2
            exact hsd this
          have hsdf : isSoftDeleted r.payload = false := by simpa using hsd
          simp only [hany, Bool.false_eq_true, if_false, hget, Option.map_some, Option.map_some']
          rw [hfold, hsv]
          simp [hc, hsdf]
      · have hcf : (r.owner == owner && r.pending) = false := by simpa using hc
        have hknotin : k ∉ (pendingOf s owner).map Row.record_id := by
          intro hmem
          rcases List.mem_map.mp hmem with ⟨x, hx, hxk⟩
          have hxmem : x ∈ s := ((mem_pendingOf s owner x).mp hx).1
          have hxg := dbGet_eq_of_mem s x hnd hxmem
          rw [hxk, hget] at hxg
          have hxr : x = r := by
            injection hxg with h3
            exact h3.symm
          apply hc
          rcases (mem_pendingOf s owner x).mp hx with ⟨_, h2, h3⟩
          subst hxr
          exact (Bool.and_eq_true _ _).mpr ⟨h2, by simpa using h3⟩
        have hfind : (respond (formatForV3Sync ctx (pendingOf s owner) dps)).find?
            (fun e => e.record_id == r.record_id) = none := by
          apply find?_key_none
          rw [hResp, hrk]
          exact hknotin
        have hfold : pushRowFun (respond (formatForV3Sync ctx (pendingOf s owner) dps)) r = r :=
          pushRowFun_of_find_none _ r hfind
        have hany : (pendingOf s owner).any (fun x => x.record_id == k
            && terminalCond (respond (formatForV3Sync ctx (pendingOf s owner) dps)) x) = false := by
          rw [List.any_eq_false]
          intro x hx hpx
          have hxk : x.record_id = k := beq_iff_eq.mp ((Bool.and_eq_true _ _).mp hpx).1
          apply hknotin
          rw [← hxk]
          exact List.mem_map_of_mem _ hx
        simp only [hany, Bool.false_eq_true, if_false, hget, Option.map_some, Option.map_some']
        rw [hfold]
        simp [hcf]

/-! ### Membership origins through the phases -/

theorem mem_foldl_delete (cond : Row → Bool) (L : List Row) (s : Store) (x : Row)
    (hx : x ∈ L.foldl (fun acc r => if cond r then dbDelete acc r.record_id else acc) s) :
    x ∈ s := by
  induction L generalizing s with
  | nil => exact hx
  | cons r t ih =>
    rw [List.foldl_cons] at hx
    have := ih _ hx
    by_cases hc : cond r
    · rw [if_pos hc] at this
      exact (List.mem_filter.mp this).1
    · rw [if_neg hc] at this
      exact this

theorem mem_deleteDetectPhase (owner : String) (ids : List String) (s : Store) (x : Row)
    (hx : x ∈ deleteDetectPhase owner ids s) : x ∈ s :=
  mem_foldl_delete (phase2Cond ids) (byOwner s owner) s x hx

theorem mem_terminalFold (synced : List SyncedEntry) (L : List Row) (s : Store) (x : Row)
    (hx : x ∈ L.foldl (terminalDeleteStep synced) s) : x ∈ s :=
  mem_foldl_delete (terminalCond synced) L s x hx

theorem mem_dbUpdate (s : Store) (i : String) (f : Row → Row) (x : Row)
    (hx : x ∈ dbUpdate s i f) : ∃ y ∈ s, x = y ∨ x = f y := by
  unfold dbUpdate at hx
  rcases List.mem_map.mp hx with ⟨y, hy, hxy⟩
  by_cases hid : y.record_id = i
  · exact ⟨y, hy, Or.inr (by rw [← hxy]; simp [hid])⟩
  · exact ⟨y, hy, Or.inl (by rw [← hxy]; simp [hid])⟩

theorem mem_pushUpdateFold (synced : List SyncedEntry) (s : Store) (x : Row)
    (hx : x ∈ synced.foldl pushUpdateStep s) :
    ∃ y ∈ s, x.record_id = y.record_id ∧ x.owner = y.owner ∧ x.payload = y.payload := by
  induction synced generalizing s with
  | nil => exact ⟨x, hx, rfl, rfl, rfl⟩
  | cons e t ih =>
    rw [List.foldl_cons] at hx
    rcases ih _ hx with ⟨y, hy, h1, h2, h3⟩
    rcases mem_dbUpdate s e.record_id _ y hy with ⟨z, hz, hzy⟩
    rcases hzy with hzy | hzy
    · exact ⟨z, hz, by rw [h1, hzy], by rw [h2, hzy], by rw [h3, hzy]⟩
    · exact ⟨z, hz, by rw [h1, hzy], by rw [h2, hzy], by rw [h3, hzy]⟩

theorem mem_aiDeleteFold (aiIds : List String) (reviews : List JObjFields) (s : Store) (x : Row)
    (hx : x ∈ reviews.foldl (aiDeleteStep aiIds) s) : x ∈ s := by
  induction reviews generalizing s with
  | nil => exact hx
  | cons review t ih =>
    rw [List.foldl_cons] at hx
    have := ih _ hx
    cases hget : dbGet s (strField review "record_id") with
    | none =>
      rw [show aiDeleteStep aiIds s review = s from by simp [aiDeleteStep, hget]] at this
      exact this
    | some localRow =>
      by_cases hc : (decide (localRow.version > 0)
          && !aiIds.contains (strField review "record_id") && !localRow.pending) = true
      · rw [show aiDeleteStep aiIds s review = dbDelete s (strField review "record_id") from by
          simp only [aiDeleteStep, hget]
          rw [if_pos hc]] at this
        exact (List.mem_filter.mp this).1
      · rw [show aiDeleteStep aiIds s review = s from by
          simp only [aiDeleteStep, hget]
          rw [if_neg hc]] at this
        exact this

theorem mem_pushPhase (ctx : CryptoCtx) (owner : String) (dps : List String)
    (respond : List WireRecord → List SyncedEntry) (s : Store) (x : Row)
    (hx : x ∈ (pushPhase ctx owner dps respond s).1) :
    ∃ y ∈ s, x.record_id = y.record_id ∧ x.owner = y.owner ∧ x.payload = y.payload := by
  unfold pushPhase at hx
  by_cases hemp : (pendingOf s owner).isEmpty
  · rw [if_pos hemp] at hx
    exact ⟨x, hx, rfl, rfl, rfl⟩
  · have hemp2 : (pendingOf s owner).isEmpty = false := by simpa using hemp
    simp only [hemp2, Bool.false_eq_true, if_false] at hx
    have hx2 := mem_terminalFold _ _ _ x hx
    exact mem_pushUpdateFold _ s x hx2

theorem isReviewRow_congr (x y : Row) (h1 : x.record_id = y.record_id)
    (h2 : x.owner = y.owner) (h3 : x.payload = y.payload) :
    isReviewRow x = isReviewRow y := by
  unfold isReviewRow deserializeTodo
  rw [h1, h2, h3]
  by_cases hpe : (y.payload == "") = true
  · rw [if_pos hpe, if_pos hpe]
  · rw [if_neg hpe, if_neg hpe, if_neg hpe, if_neg hpe]

theorem mem_getAiReviews (s : Store) (owner : String) (review : JObjFields)
    (hx : review ∈ getAiReviewsByOwner s owner) :
    ∃ r ∈ s, (r.owner == owner) = true ∧ isReviewRow r = true ∧ review = deserializeTodo r := by
  unfold getAiReviewsByOwner at hx
  rcases List.mem_filterMap.mp hx with ⟨r, hr, hfr⟩
  have hrs : r ∈ s := (List.mem_filter.mp hr).1
  have hro : (r.owner == owner) = true := (List.mem_filter.mp hr).2
  by_cases hpe : (r.payload == "") = true
  · rw [if_pos hpe] at hfr
    cases hfr
  · rw [if_neg hpe] at hfr
    simp only [] at hfr
    cases hcol : oget (deserializeTodo r) "_collection" with
    | none =>
      rw [hcol] at hfr
      simp only [] at hfr
      cases hfr
    | some v =>
      cases v with
      | jstr c =>
        rw [hcol] at hfr
        simp only [] at hfr
        by_cases hcc : (c == "ai_reviews") = true
        · rw [if_pos hcc] at hfr
          refine ⟨r, hrs, hro, ?_, by injection hfr with h; exact h.symm⟩
          unfold isReviewRow
          rw [if_neg hpe, hcol]
          exact hcc
        · rw [if_neg hcc] at hfr
          cases hfr
      | jnull => rw [hcol] at hfr; simp only [] at hfr; cases hfr
      | jbool b => rw [hcol] at hfr; simp only [] at hfr; cases hfr
      | jnum q => rw [hcol] at hfr; simp only [] at hfr; cases hfr
      | jarr a => rw [hcol] at hfr; simp only [] at hfr; cases hfr
      | jobj o => rw [hcol] at hfr; simp only [] at hfr; cases hfr

theorem aiDetectFold_noop (aiIds : List String) (reviews : List JObjFields) (s : Store)
    (h : ∀ review ∈ reviews, aiIds.contains (strField review "record_id") = true) :
    reviews.foldl (aiDeleteStep aiIds) s = s := by
  apply foldl_fixed
  intro review hrev
  cases hget : dbGet s (strField review "record_id") with
  | none => simp [aiDeleteStep, hget]
  | some localRow =>
    have hmem : strField review "record_id" ∈ aiIds := by
      have := h review hrev
      simpa using this
    simp [aiDeleteStep, hget, hmem]

/-! ### Nodup and ownership preservation through the phases -/

theorem nodup_ids_foldl_delete (cond : Row → Bool) (L : List Row) (s : Store)
    (h : (s.map Row.record_id).Nodup) :
    (((L.foldl (fun acc r => if cond r then dbDelete acc r.record_id else acc) s)).map
      Row.record_id).Nodup := by
  induction L generalizing s with
  | nil => exact h
  | cons r t ih =>
    rw [List.foldl_cons]
    by_cases hc : cond r
    · rw [if_pos hc]
      exact ih _ (nodup_ids_dbDelete s r.record_id h)
    · rw [if_neg hc]
      exact ih _ h

theorem nodup_ids_deleteDetect (owner : String) (ids : List String) (s : Store)
    (h : (s.map Row.record_id).Nodup) :
    ((deleteDetectPhase owner ids s).map Row.record_id).Nodup :=
  nodup_ids_foldl_delete (phase2Cond ids) (byOwner s owner) s h

theorem nodup_ids_pushUpdateFold (synced : List SyncedEntry) (s : Store)
    (h : (s.map Row.record_id).Nodup) :
    ((synced.foldl pushUpdateStep s).map Row.record_id).Nodup := by
  induction synced generalizing s with
  | nil => exact h
  | cons e t ih =>
    rw [List.foldl_cons]
    exact ih _ (nodup_ids_dbUpdate s e.record_id _ (fun r => rfl) h)

theorem nodup_ids_pushPhase (ctx : CryptoCtx) (owner : String) (dps : List String)
    (respond : List WireRecord → List SyncedEntry) (s : Store)
    (h : (s.map Row.record_id).Nodup) :
    (((pushPhase ctx owner dps respond s).1).map Row.record_id).Nodup := by
  unfold pushPhase
  by_cases hemp : (pendingOf s owner).isEmpty
  · rw [if_pos hemp]
    exact h
  · have hemp2 : (pendingOf s owner).isEmpty = false := by simpa using hemp
    simp only [hemp2, Bool.false_eq_true, if_false]
    exact nodup_ids_foldl_delete _ _ _ (nodup_ids_pushUpdateFold _ s h)

theorem nodup_ids_aiDeleteFold (aiIds : List String) (reviews : List JObjFields) (s : Store)
    (h : (s.map Row.record_id).Nodup) :
    ((reviews.foldl (aiDeleteStep aiIds) s).map Row.record_id).Nodup := by
  induction reviews generalizing s with
  | nil => exact h
  | cons review t ih =>
    rw [List.foldl_cons]
    refine ih _ ?_
    cases hget : dbGet s (strField review "record_id") with
    | none => simpa [aiDeleteStep, hget] using h
    | some localRow =>
      by_cases hc : (decide (localRow.version > 0)
          && !aiIds.contains (strField review "record_id") && !localRow.pending) = true
      · rw [show aiDeleteStep aiIds s review = dbDelete s (strField review "record_id") from by
          simp only [aiDeleteStep, hget]
          rw [if_pos hc]]
        exact nodup_ids_dbDelete s _ h
      · rw [show aiDeleteStep aiIds s review = s from by
          simp only [aiDeleteStep, hget]
          rw [if_neg hc]]
        exact h

theorem nodup_ids_aiPhase (ctx : CryptoCtx) (owner : String) (aiRecords : List WireRecord)
    (s : Store) (h : (s.map Row.record_id).Nodup) :
    ((aiPhase ctx owner aiRecords s).map Row.record_id).Nodup := by
  unfold aiPhase
  exact nodup_ids_aiDeleteFold _ _ _
    (nodup_ids_pullPhase ctx owner aiRecords s 0 0 h)

theorem ownerAll_pullPhase (ctx : CryptoCtx) (owner : String) (recs : List WireRecord)
    (s : Store) (pulled updated : Nat)
    (h : ∀ r ∈ s, r.owner = owner) :
    ∀ r ∈ (recs.foldl (pullStep ctx owner) (s, pulled, updated)).1, r.owner = owner := by
  intro r hr
  rcases mem_pullPhase ctx owner recs s pulled updated r hr with h1 | ⟨rec, _, p, _, hxp⟩
  · exact h r h1
  · rw [hxp]
    rfl

theorem ownerAll_pushPhase (ctx : CryptoCtx) (owner : String) (dps : List String)
    (respond : List WireRecord → List SyncedEntry) (s : Store)
    (h : ∀ r ∈ s, r.owner = owner) :
    ∀ r ∈ (pushPhase ctx owner dps respond s).1, r.owner = owner := by
  intro r hr
  rcases mem_pushPhase ctx owner dps respond s r hr with ⟨y, hy, _, h2, _⟩
  rw [h2]
  exact h y hy

theorem ownerAll_aiPhase (ctx : CryptoCtx) (owner : String) (aiRecords : List WireRecord)
    (s : Store) (h : ∀ r ∈ s, r.owner = owner) :
    ∀ r ∈ aiPhase ctx owner aiRecords s, r.owner = owner := by
  intro r hr
  unfold aiPhase at hr
  have hr2 := mem_aiDeleteFold _ _ _ r hr
  exact ownerAll_pullPhase ctx owner aiRecords s 0 0 h r hr2

/-! ### Assembly helpers for the idempotence theorem -/

theorem find?_of_mem_nodup {α : Type} (f : α → String) (L : List α) (x : α)
    (hnd : (L.map f).Nodup) (hx : x ∈ L) :
    L.find? (fun e => f e == f x) = some x := by
  induction L with
  | nil => cases hx
  | cons a t ih =>
    rcases List.mem_cons.mp hx with h | h
    · subst h
      simp [List.find?]
    · have hne : ¬(f a = f x) := by
        intro he
        have : f x ∈ t.map f := List.mem_map_of_mem _ h
        rw [← he] at this
        exact (List.nodup_cons.mp hnd).1 this
      have hbk : (f a == f x) = false := by simp [hne]
      simp only [List.find?, hbk]
      exact ih (List.nodup_cons.mp hnd).2 h

theorem contains_of_mem (l : List String) (x : String) (h : x ∈ l) :
    l.contains x = true := by
  simpa using h

theorem aiDetect_noop_of_origins (ctx : CryptoCtx) (owner : String)
    (fetch aiRecs : List WireRecord) (s S : Store)
    (hNoRevS : ∀ r ∈ s, isReviewRow r = false)
    (hNoRevF : ∀ rec ∈ fetch, ∀ p, parseV3Record ctx rec = some p →
        isReviewRow (importedRow owner rec p) = false)
    (hAiRid : ∀ rec ∈ aiRecs, ∀ p, parseV3Record ctx rec = some p →
        strField (deserializeTodo (importedRow owner rec p)) "record_id" = rec.record_id)
    (horig : ∀ r ∈ S, rowOrigin ctx owner fetch aiRecs s r) :
    (getAiReviewsByOwner S owner).foldl (aiDeleteStep (serverRecordIds aiRecs)) S = S := by
  apply aiDetectFold_noop
  intro review hrev
  rcases mem_getAiReviews S owner review hrev with ⟨r, hrS, _, hrev2, hreq⟩
  rcases horig r hrS with ⟨y, hy, h1, h2, h3⟩ | ⟨rec, hrec, p, hp, h1, h2, h3⟩ | ⟨rec, hrec, p, hp, hr⟩
  · exfalso
    have := isReviewRow_congr r y h1 h2 h3
    rw [hrev2, hNoRevS y hy] at this
    cases this
  · exfalso
    have := isReviewRow_congr r (importedRow owner rec p) h1 h2 h3
    rw [hrev2, hNoRevF rec hrec p hp] at this
    cases this
  · subst hr
    rw [hreq, hAiRid rec hrec p hp]
    apply contains_of_mem
    exact List.mem_map_of_mem _ hrec

theorem rowOriginSF_lift (ctx : CryptoCtx) (owner : String)
    (fetch aiRecs : List WireRecord) (s : Store) (r : Row)
    (h : rowOriginSF ctx owner fetch s r) : rowOrigin ctx owner fetch aiRecs s r := by
  rcases h with h | h
  · exact Or.inl h
  · exact Or.inr (Or.inl h)

theorem rowOriginSF_base (ctx : CryptoCtx) (owner : String) (fetch : List WireRecord)
    (s : Store) : ∀ r ∈ s, rowOriginSF ctx owner fetch s r :=
  fun r hr => Or.inl ⟨r, hr, rfl, rfl, rfl⟩

theorem rowOriginSF_pull (ctx : CryptoCtx) (owner : String) (fetch : List WireRecord)
    (s S : Store) (pulled updated : Nat)
    (h : ∀ r ∈ S, rowOriginSF ctx owner fetch s r) :
    ∀ r ∈ (fetch.foldl (pullStep ctx owner) (S, pulled, updated)).1,
      rowOriginSF ctx owner fetch s r := by
  intro r hr
  rcases mem_pullPhase ctx owner fetch S pulled updated r hr with h1 | ⟨rec, hrec, p, hp, hxp⟩
  · exact h r h1
  · exact Or.inr ⟨rec, hrec, p, hp, by rw [hxp], by rw [hxp], by rw [hxp]⟩

theorem rowOriginSF_deleteDetect (ctx : CryptoCtx) (owner owner2 : String)
    (fetch : List WireRecord) (ids : List String) (s S : Store)
    (h : ∀ r ∈ S, rowOriginSF ctx owner fetch s r) :
    ∀ r ∈ deleteDetectPhase owner2 ids S, rowOriginSF ctx owner fetch s r :=
  fun r hr => h r (mem_deleteDetectPhase owner2 ids S r hr)

theorem rowOriginSF_push (ctx ctx2 : CryptoCtx) (owner owner2 : String)
    (fetch : List WireRecord) (dps : List String)
    (respond : List WireRecord → List SyncedEntry) (s S : Store)
    (h : ∀ r ∈ S, rowOriginSF ctx owner fetch s r) :
    ∀ r ∈ (pushPhase ctx2 owner2 dps respond S).1, rowOriginSF ctx owner fetch s r := by
  intro r hr
  rcases mem_pushPhase ctx2 owner2 dps respond S r hr with ⟨y, hy, h1, h2, h3⟩
  rcases h y hy with ⟨z, hz, g1, g2, g3⟩ | ⟨rec, hrec, p, hp, g1, g2, g3⟩
  · exact Or.inl ⟨z, hz, by rw [h1, g1], by rw [h2, g2], by rw [h3, g3]⟩
  · exact Or.inr ⟨rec, hrec, p, hp, by rw [h1, g1], by rw [h2, g2], by rw [h3, g3]⟩

theorem rowOrigin_S4 (ctx : CryptoCtx) (owner : String) (fetch aiRecs : List WireRecord)
    (dps : List String) (respond : List WireRecord → List SyncedEntry) (s : Store) :
    ∀ r ∈ (aiRecs.foldl (pullStep ctx owner)
        ((pushPhase ctx owner dps respond
          (deleteDetectPhase owner (serverRecordIds fetch)
            (pullPhase ctx owner s fetch).1)).1, 0, 0)).1,
      rowOrigin ctx owner fetch aiRecs s r := by
  intro r hr
  have hSF : ∀ x ∈ (pushPhase ctx owner dps respond
      (deleteDetectPhase owner (serverRecordIds fetch)
        (pullPhase ctx owner s fetch).1)).1, rowOriginSF ctx owner fetch s x := by
    apply rowOriginSF_push
    apply rowOriginSF_deleteDetect
    unfold pullPhase
    apply rowOriginSF_pull
    exact rowOriginSF_base ctx owner fetch s
  rcases mem_pullPhase ctx owner aiRecs _ 0 0 r hr with h1 | ⟨rec, hrec, p, hp, hxp⟩
  · exact rowOriginSF_lift ctx owner fetch aiRecs s r (hSF r h1)
  · exact Or.inr (Or.inr ⟨rec, hrec, p, hp, hxp⟩)

theorem pendingAtPush_sub (ctx : CryptoCtx) (owner : String) (fetch : List WireRecord)
    (s : Store) :
    ∀ t ∈ pendingAtPush ctx owner fetch s, t ∈ s ∧ t.pending = true := by
  intro t ht
  rcases (mem_pendingOf _ owner t).mp ht with ⟨htS2, _, htp⟩
  have htp2 : t.pending = true := by simpa using htp
  refine ⟨?_, htp2⟩
  have htP1 := mem_deleteDetectPhase owner (serverRecordIds fetch) _ t htS2
  rcases mem_pullPhase ctx owner fetch s 0 0 t htP1 with h1 | ⟨rec, _, p, _, hxp⟩
  · exact h1
  · exfalso
    rw [hxp] at htp2
    cases htp2

theorem pendingFalse_P3 (ctx : CryptoCtx) (owner : String) (dps : List String)
    (respond : List WireRecord → List SyncedEntry) (fetch : List WireRecord) (s : Store)
    (hndS : (s.map Row.record_id).Nodup)
    (hOwnS : ∀ r ∈ s, r.owner = owner)
    (hResp : ∀ ws, (respond ws).map SyncedEntry.record_id = ws.map WireRecord.record_id) :
    ∀ k r, dbGet (pushPhase ctx owner dps respond
        (deleteDetectPhase owner (serverRecordIds fetch)
          (pullPhase ctx owner s fetch).1)).1 k = some r → r.pending = false := by
  intro k r hget
  have ndP1 : (((pullPhase ctx owner s fetch).1).map Row.record_id).Nodup :=
    nodup_ids_pullPhase ctx owner fetch s 0 0 hndS
  have ndS2 : ((deleteDetectPhase owner (serverRecordIds fetch)
      (pullPhase ctx owner s fetch).1).map Row.record_id).Nodup :=
    nodup_ids_deleteDetect owner _ _ ndP1
  have ownP1 : ∀ x ∈ (pullPhase ctx owner s fetch).1, x.owner = owner :=
    ownerAll_pullPhase ctx owner fetch s 0 0 hOwnS
  have ownS2 : ∀ x ∈ deleteDetectPhase owner (serverRecordIds fetch)
      (pullPhase ctx owner s fetch).1, x.owner = owner :=
    fun x hx => ownP1 x (mem_deleteDetectPhase owner _ _ x hx)
  have hRespS2 : (respond (formatForV3Sync ctx
      (pendingOf (deleteDetectPhase owner (serverRecordIds fetch)
        (pullPhase ctx owner s fetch).1) owner) dps)).map SyncedEntry.record_id
      = (pendingOf (deleteDetectPhase owner (serverRecordIds fetch)
        (pullPhase ctx owner s fetch).1) owner).map Row.record_id := by
    rw [hResp, formatForV3Sync_ids]
  rw [pushPhase_get_pointwise ctx owner dps respond _ k ndS2 hRespS2] at hget
  cases hg2 : dbGet (deleteDetectPhase owner (serverRecordIds fetch)
      (pullPhase ctx owner s fetch).1) k with
  | none =>
    rw [hg2] at hget
    cases hget
  | some r0 =>
    rw [hg2] at hget
    simp only [] at hget
    by_cases hc : (r0.owner == owner && r0.pending) = true
    · rw [if_pos hc] at hget
      by_cases hsd : isSoftDeleted r0.payload = true
      · rw [if_pos hsd] at hget
        cases hget
      · rw [if_neg hsd] at hget
        injection hget with hr
        rw [← hr]
    · have hcf : (r0.owner == owner && r0.pending) = false := by simpa using hc
      rw [hcf] at hget
      simp only [Bool.false_eq_true, if_false] at hget
      injection hget with hr
      have hro : (r0.owner == owner) = true := by
        simp [ownS2 r0 (dbGet_mem _ k r0 hg2)]
      rw [hro, Bool.true_and] at hcf
      rw [← hr]
      exact hcf

theorem pendingFalse_S4 (ctx : CryptoCtx) (owner : String) (dps : List String)
    (respond : List WireRecord → List SyncedEntry) (fetch aiRecs : List WireRecord) (s : Store)
    (hndS : (s.map Row.record_id).Nodup)
    (hOwnS : ∀ r ∈ s, r.owner = owner)
    (hndA : (aiRecs.map WireRecord.record_id).Nodup)
    (hResp : ∀ ws, (respond ws).map SyncedEntry.record_id = ws.map WireRecord.record_id) :
    ∀ k r, dbGet (aiRecs.foldl (pullStep ctx owner)
        ((pushPhase ctx owner dps respond
          (deleteDetectPhase owner (serverRecordIds fetch)
            (pullPhase ctx owner s fetch).1)).1, 0, 0)).1 k = some r → r.pending = false := by
  intro k r hget
  rw [pullPhase_get_spec ctx owner aiRecs _ 0 0 k hndA] at hget
  cases hfA : aiRecs.find? (fun rec => rec.record_id == k) with
  | none =>
    rw [hfA] at hget
    exact pendingFalse_P3 ctx owner dps respond fetch s hndS hOwnS hResp k r hget
  | some recA =>
    rw [hfA] at hget
    simp only [] at hget
    cases hg3 : dbGet (pushPhase ctx owner dps respond
        (deleteDetectPhase owner (serverRecordIds fetch)
          (pullPhase ctx owner s fetch).1)).1 k with
    | none =>
      rw [hg3] at hget
      simp only [] at hget
      cases hp : parseV3Record ctx recA with
      | none =>
        rw [hp] at hget
        cases hget
      | some p =>
        rw [hp] at hget
        injection hget with hr
        rw [← hr]
        rfl
    | some row =>
      rw [hg3] at hget
      simp only [] at hget
      have hrowpf : row.pending = false :=
        pendingFalse_P3 ctx owner dps respond fetch s hndS hOwnS hResp k row hg3
      by_cases hv : recA.version > row.version
      · rw [if_pos hv] at hget
        cases hp : parseV3Record ctx recA with
        | none =>
          rw [hp] at hget
          injection hget with hr
          rw [← hr]
          exact hrowpf
        | some p =>
          rw [hp] at hget
          injection hget with hr
          rw [← hr]
          rfl
      · rw [if_neg hv] at hget
        injection hget with hr
        rw [← hr]
        exact hrowpf

theorem mem_remoteAfterSync (ctx : CryptoCtx) (owner : String) (dps : List String)
    (fetch : List WireRecord) (respond : List WireRecord → List SyncedEntry)
    (s : Store) (rec : WireRecord)
    (h : rec ∈ remoteAfterSync ctx owner dps fetch respond s) :
    (rec ∈ fetch ∧ (pendingAtPush ctx owner fetch s).any
        (fun t => t.record_id == rec.record_id) = false)
    ∨ (∃ t ∈ pendingAtPush ctx owner fetch s, isSoftDeleted t.payload = false
        ∧ rec = { record_id := t.record_id
                  collection := "todos"
                  version := syncedVersion (respond (formatForV3Sync ctx
                    (pendingAtPush ctx owner fetch s) dps)) t.record_id
                  updated_at := ""
                  encrypted_data := ctx.encSelf t.payload
                  encrypted_from := ctx.myPubkey
                  delegate_payloads := dps.map fun d => (d, ctx.encTo t.payload d) }) := by
  unfold remoteAfterSync at h
  rcases List.mem_append.mp h with h1 | h1
  · left
    have hm := List.mem_filter.mp h1
    refine ⟨hm.1, ?_⟩
    have := hm.2
    cases hany : (pendingAtPush ctx owner fetch s).any
        (fun t => t.record_id == rec.record_id) with
    | false => rfl
    | true =>
      exfalso
      rw [hany] at this
      cases this
  · right
    rcases List.mem_filterMap.mp h1 with ⟨t, ht, hft⟩
    by_cases hsd : isSoftDeleted t.payload = true
    · rw [if_pos hsd] at hft
      cases hft
    · have hsdf : isSoftDeleted t.payload = false := by simpa using hsd
      rw [if_neg hsd] at hft
      injection hft with hft2
      exact ⟨t, ht, hsdf, hft2.symm⟩

theorem ids2_of_live_pending (ctx : CryptoCtx) (owner : String) (dps : List String)
    (fetch : List WireRecord) (respond : List WireRecord → List SyncedEntry)
    (s : Store) (t : Row)
    (ht : t ∈ pendingAtPush ctx owner fetch s) (hsd : isSoftDeleted t.payload = false) :
    t.record_id ∈ serverRecordIds (remoteAfterSync ctx owner dps fetch respond s) := by
  unfold serverRecordIds remoteAfterSync
  rw [List.map_append]
  apply List.mem_append.mpr
  right
  apply List.mem_map.mpr
  refine ⟨{ record_id := t.record_id
            collection := "todos"
            version := syncedVersion (respond (formatForV3Sync ctx
              (pendingAtPush ctx owner fetch s) dps)) t.record_id
            updated_at := ""
            encrypted_data := ctx.encSelf t.payload
            encrypted_from := ctx.myPubkey
            delegate_payloads := dps.map fun d => (d, ctx.encTo t.payload d) }, ?_, rfl⟩
  apply List.mem_filterMap.mpr
  exact ⟨t, ht, by rw [if_neg (by simp [hsd])]⟩

theorem ids2_of_unpushed_fetch (ctx : CryptoCtx) (owner : String) (dps : List String)
    (fetch : List WireRecord) (respond : List WireRecord → List SyncedEntry)
    (s : Store) (rec : WireRecord)
    (hrec : rec ∈ fetch)
    (hany : (pendingAtPush ctx owner fetch s).any
        (fun t => t.record_id == rec.record_id) = false) :
    rec.record_id ∈ serverRecordIds (remoteAfterSync ctx owner dps fetch respond s) := by
  unfold serverRecordIds remoteAfterSync
  rw [List.map_append]
  apply List.mem_append.mpr
  left
  apply List.mem_map.mpr
  exact ⟨rec, List.mem_filter.mpr ⟨hrec, by simp [hany]⟩, rfl⟩

theorem ids2_sub (ctx : CryptoCtx) (owner : String) (dps : List String)
    (fetch : List WireRecord) (respond : List WireRecord → List SyncedEntry)
    (s : Store) (k : String)
    (h : k ∈ serverRecordIds (remoteAfterSync ctx owner dps fetch respond s)) :
    k ∈ fetch.map WireRecord.record_id ∨ ∃ t ∈ pendingAtPush ctx owner fetch s, t.record_id = k := by
  unfold serverRecordIds remoteAfterSync at h
  rw [List.map_append] at h
  rcases List.mem_append.mp h with h1 | h1
  · left
    rcases List.mem_map.mp h1 with ⟨rec, hrec, hk⟩
    exact List.mem_map.mpr ⟨rec, (List.mem_filter.mp hrec).1, hk⟩
  · right
    rcases List.mem_map.mp h1 with ⟨rec, hrec, hk⟩
    rcases List.mem_filterMap.mp hrec with ⟨t, ht, hft⟩
    by_cases hsd : isSoftDeleted t.payload = true
    · rw [if_pos hsd] at hft
      cases hft
    · rw [if_neg hsd] at hft
      injection hft with hft2
      refine ⟨t, ht, ?_⟩
      rw [← hk, ← hft2]

theorem pull2_noop_cond (ctx : CryptoCtx) (owner : String) (dps : List String)
    (respond : List WireRecord → List SyncedEntry) (fetch aiRecs : List WireRecord) (s : Store)
    (hndS : (s.map Row.record_id).Nodup)
    (hOwnS : ∀ r ∈ s, r.owner = owner)
    (hndF : (fetch.map WireRecord.record_id).Nodup)
    (hndA : (aiRecs.map WireRecord.record_id).Nodup)
    (hDisjAF : ∀ rec ∈ aiRecs, rec.record_id ∉ fetch.map WireRecord.record_id)
    (hDisjAS : ∀ rec ∈ aiRecs, rec.record_id ∉ s.map Row.record_id)
    (hResp : ∀ ws, (respond ws).map SyncedEntry.record_id = ws.map WireRecord.record_id) :
    ∀ rec ∈ remoteAfterSync ctx owner dps fetch respond s,
      match dbGet (aiRecs.foldl (pullStep ctx owner)
          ((pushPhase ctx owner dps respond
            (deleteDetectPhase owner (serverRecordIds fetch)
              (pullPhase ctx owner s fetch).1)).1, 0, 0)).1 rec.record_id with
      | none => parseV3Record ctx rec = none
      | some row => ¬(rec.version > row.version) ∨ parseV3Record ctx rec = none := by
  intro rec hrec
  have ndP1 : (((pullPhase ctx owner s fetch).1).map Row.record_id).Nodup :=
    nodup_ids_pullPhase ctx owner fetch s 0 0 hndS
  have ndS2 : ((deleteDetectPhase owner (serverRecordIds fetch)
      (pullPhase ctx owner s fetch).1).map Row.record_id).Nodup :=
    nodup_ids_deleteDetect owner _ _ ndP1
  have hRespS2 : (respond (formatForV3Sync ctx
      (pendingOf (deleteDetectPhase owner (serverRecordIds fetch)
        (pullPhase ctx owner s fetch).1) owner) dps)).map SyncedEntry.record_id
      = (pendingOf (deleteDetectPhase owner (serverRecordIds fetch)
        (pullPhase ctx owner s fetch).1) owner).map Row.record_id := by
    rw [hResp, formatForV3Sync_ids]
  have hpend_eq : pendingAtPush ctx owner fetch s
      = pendingOf (deleteDetectPhase owner (serverRecordIds fetch)
        (pullPhase ctx owner s fetch).1) owner := rfl
  have hS2spec := fun (k : String) =>
    deleteDetect_get_pointwise owner (serverRecordIds fetch)
      (pullPhase ctx owner s fetch).1 k ndP1
  have hP3spec := fun (k : String) =>
    pushPhase_get_pointwise ctx owner dps respond
      (deleteDetectPhase owner (serverRecordIds fetch)
        (pullPhase ctx owner s fetch).1) k ndS2 hRespS2
  have hP1spec := fun (k : String) =>
    pullPhase_get_spec2 ctx owner fetch s k hndF
  have hS4spec := fun (k : String) =>
    pullPhase_get_spec ctx owner aiRecs
      (pushPhase ctx owner dps respond
        (deleteDetectPhase owner (serverRecordIds fetch)
          (pullPhase ctx owner s fetch).1)).1 0 0 k hndA
  rcases mem_remoteAfterSync ctx owner dps fetch respond s rec hrec with
    ⟨hrecF, hany⟩ | ⟨t, ht, hsd, hrw⟩
  · -- (a) an unpushed record of the first fetch
    have hkF : rec.record_id ∈ fetch.map WireRecord.record_id :=
      List.mem_map_of_mem _ hrecF
    have hfF : fetch.find? (fun e => e.record_id == rec.record_id) = some rec :=
      find?_of_mem_nodup WireRecord.record_id fetch rec hndF hrecF
    have hfA : aiRecs.find? (fun e => e.record_id == rec.record_id) = none := by
      apply find?_key_none
      intro hk
      rcases List.mem_map.mp hk with ⟨recA, hrecA, hkk⟩
      exact hDisjAF recA hrecA (by rw [hkk]; exact hkF)
    have hcont1 : (serverRecordIds fetch).contains rec.record_id = true :=
      contains_of_mem _ _ hkF
    have hkS : rec.record_id ∈ serverRecordIds fetch := List.mem_map.mpr ⟨rec, hrecF, rfl⟩
    have hS4red : dbGet (aiRecs.foldl (pullStep ctx owner)
        ((pushPhase ctx owner dps respond
          (deleteDetectPhase owner (serverRecordIds fetch)
            (pullPhase ctx owner s fetch).1)).1, 0, 0)).1 rec.record_id
        = dbGet (pushPhase ctx owner dps respond
          (deleteDetectPhase owner (serverRecordIds fetch)
            (pullPhase ctx owner s fetch).1)).1 rec.record_id := by
      rw [hS4spec rec.record_id, hfA]
    -- pending rows never carry this record_id
    have hnp : ∀ r0, dbGet (deleteDetectPhase owner (serverRecordIds fetch)
        (pullPhase ctx owner s fetch).1) rec.record_id = some r0 →
        (r0.owner == owner && r0.pending) = false := by
      intro r0 hg2
      by_contra hcc
      have hc : (r0.owner == owner && r0.pending) = true := by
        revert hcc
        cases r0.owner == owner && r0.pending <;> simp
      have hr0id : r0.record_id = rec.record_id := dbGet_id _ _ _ hg2
      have hr0p : r0 ∈ pendingOf (deleteDetectPhase owner (serverRecordIds fetch)
          (pullPhase ctx owner s fetch).1) owner :=
        (mem_pendingOf _ owner r0).mpr
          ⟨dbGet_mem _ _ _ hg2, ((Bool.and_eq_true _ _).mp hc).1,
           by simp [((Bool.and_eq_true _ _).mp hc).2]⟩
      rw [← hpend_eq] at hr0p
      have : (pendingAtPush ctx owner fetch s).any
          (fun t => t.record_id == rec.record_id) = true :=
        List.any_eq_true.mpr ⟨r0, hr0p, by simp [hr0id]⟩
      rw [hany] at this
      cases this
    rw [hS4red, hP3spec rec.record_id, hS2spec rec.record_id, hP1spec rec.record_id, hfF]
    simp only []
    cases hgs : dbGet s rec.record_id with
    | none =>
      simp only []
      cases hp : parseV3Record ctx rec with
      | none => simp [hp]
      | some p =>
        simp only []
        have hcond : ((importedRow owner rec p).owner == owner
            && phase2Cond (serverRecordIds fetch) (importedRow owner rec p)) = false := by
          simp [phase2Cond, hcont1, hkS, importedRow]
        rw [hcond]
        simp only [Bool.false_eq_true, if_false]
        have hcond2 : ((importedRow owner rec p).owner == owner
            && (importedRow owner rec p).pending) = false := by
          simp [importedRow]
        rw [hcond2]
        simp only [Bool.false_eq_true, if_false]
        left
        simp [importedRow]
    | some row0 =>
      simp only []
      have hr0id : row0.record_id = rec.record_id := dbGet_id s rec.record_id row0 hgs
      by_cases hv : rec.version > row0.version
      · rw [if_pos hv]
        cases hp : parseV3Record ctx rec with
        | none =>
          simp only []
          have hcond : (row0.owner == owner
              && phase2Cond (serverRecordIds fetch) row0) = false := by
            simp [phase2Cond, hcont1, hkS, hr0id]
          rw [hcond]
          simp only [Bool.false_eq_true, if_false]
          have hg2 : dbGet (deleteDetectPhase owner (serverRecordIds fetch)
              (pullPhase ctx owner s fetch).1) rec.record_id = some row0 := by
            rw [hS2spec rec.record_id, hP1spec rec.record_id, hfF]
            simp only []
            rw [hgs]
            simp only []
            rw [if_pos hv, hp]
            simp only []
            rw [hcond]
            simp
          have hnp0 := hnp row0 hg2
          rw [hnp0]
          simp only [Bool.false_eq_true, if_false]
          simp [hp]
        | some p =>
          simp only []
          have hcond : ((importedRow owner rec p).owner == owner
              && phase2Cond (serverRecordIds fetch) (importedRow owner rec p)) = false := by
            simp [phase2Cond, hcont1, hkS, importedRow]
          rw [hcond]
          simp only [Bool.false_eq_true, if_false]
          have hcond2 : ((importedRow owner rec p).owner == owner
              && (importedRow owner rec p).pending) = false := by
            simp [importedRow]
          rw [hcond2]
          simp only [Bool.false_eq_true, if_false]
          left
          simp [importedRow]
      · rw [if_neg hv]
        simp only []
        have hcond : (row0.owner == owner
            && phase2Cond (serverRecordIds fetch) row0) = false := by
          simp [phase2Cond, hcont1, hkS, hr0id]
        rw [hcond]
        simp only [Bool.false_eq_true, if_false]
        have hg2 : dbGet (deleteDetectPhase owner (serverRecordIds fetch)
            (pullPhase ctx owner s fetch).1) rec.record_id = some row0 := by
          rw [hS2spec rec.record_id, hP1spec rec.record_id, hfF]
          simp only []
          rw [hgs]
          simp only []
          rw [if_neg hv]
          simp only []
          rw [hcond]
          simp
        have hnp0 := hnp row0 hg2
        rw [hnp0]
        simp only [Bool.false_eq_true, if_false]
        left
        exact hv
  · -- (b) a re-pushed live record
    have htS2 : t ∈ deleteDetectPhase owner (serverRecordIds fetch)
        (pullPhase ctx owner s fetch).1 := by
      rw [hpend_eq] at ht
      exact ((mem_pendingOf _ owner t).mp ht).1
    have hgt : dbGet (deleteDetectPhase owner (serverRecordIds fetch)
        (pullPhase ctx owner s fetch).1) t.record_id = some t :=
      dbGet_eq_of_mem _ t ndS2 htS2
    have hts : t ∈ s ∧ t.pending = true := pendingAtPush_sub ctx owner fetch s t ht
    have hfA : aiRecs.find? (fun e => e.record_id == t.record_id) = none := by
      apply find?_key_none
      intro hk
      rcases List.mem_map.mp hk with ⟨recA, hrecA, hkk⟩
      exact hDisjAS recA hrecA (by rw [hkk]; exact List.mem_map_of_mem _ hts.1)
    have hrecid : rec.record_id = t.record_id := by rw [hrw]
    have hcpend : (t.owner == owner && t.pending) = true := by
      rw [hpend_eq] at ht
      rcases (mem_pendingOf _ owner t).mp ht with ⟨_, h2, h3⟩
      simp [h2, hts.2]
    have hP3t : dbGet (pushPhase ctx owner dps respond
        (deleteDetectPhase owner (serverRecordIds fetch)
          (pullPhase ctx owner s fetch).1)).1 t.record_id
        = some { t with
            version := syncedVersion (respond (formatForV3Sync ctx
              (pendingOf (deleteDetectPhase owner (serverRecordIds fetch)
                (pullPhase ctx owner s fetch).1) owner) dps)) t.record_id,
            pending := false } := by
      rw [hP3spec t.record_id, hgt]
      simp only []
      rw [hcpend]
      simp only [if_true]
      rw [hsd]
      simp
    have hS4t : dbGet (aiRecs.foldl (pullStep ctx owner)
        ((pushPhase ctx owner dps respond
          (deleteDetectPhase owner (serverRecordIds fetch)
            (pullPhase ctx owner s fetch).1)).1, 0, 0)).1 t.record_id
        = some { t with
            version := syncedVersion (respond (formatForV3Sync ctx
              (pendingOf (deleteDetectPhase owner (serverRecordIds fetch)
                (pullPhase ctx owner s fetch).1) owner) dps)) t.record_id,
            pending := false } := by
      rw [hS4spec t.record_id, hfA]
      exact hP3t
    rw [hrecid, hS4t]
    simp only []
    left
    rw [hrw]
    simp [hpend_eq]

theorem contains_eq_false_of_not_mem (l : List String) (x : String) (h : x ∉ l) :
    l.contains x = false := by
  simpa using h

theorem pass2_pointwise (ctx : CryptoCtx) (owner : String) (dps : List String)
    (respond : List WireRecord → List SyncedEntry) (fetch aiRecs : List WireRecord) (s : Store)
    (hndS : (s.map Row.record_id).Nodup)
    (hOwnS : ∀ r ∈ s, r.owner = owner)
    (hndF : (fetch.map WireRecord.record_id).Nodup)
    (hndA : (aiRecs.map WireRecord.record_id).Nodup)
    (hvA : ∀ rec ∈ aiRecs, 0 < rec.version)
    (hDisjAF : ∀ rec ∈ aiRecs, rec.record_id ∉ fetch.map WireRecord.record_id)
    (hDisjAS : ∀ rec ∈ aiRecs, rec.record_id ∉ s.map Row.record_id)
    (hResp : ∀ ws, (respond ws).map SyncedEntry.record_id = ws.map WireRecord.record_id) :
    ∀ k, dbGet (pullPhase ctx owner
        (deleteDetectPhase owner
          (serverRecordIds (remoteAfterSync ctx owner dps fetch respond s))
          (aiRecs.foldl (pullStep ctx owner)
            ((pushPhase ctx owner dps respond
              (deleteDetectPhase owner (serverRecordIds fetch)
                (pullPhase ctx owner s fetch).1)).1, 0, 0)).1)
        aiRecs).1 k
      = dbGet (aiRecs.foldl (pullStep ctx owner)
          ((pushPhase ctx owner dps respond
            (deleteDetectPhase owner (serverRecordIds fetch)
              (pullPhase ctx owner s fetch).1)).1, 0, 0)).1 k := by
  intro k
  have ndP1 : (((pullPhase ctx owner s fetch).1).map Row.record_id).Nodup :=
    nodup_ids_pullPhase ctx owner fetch s 0 0 hndS
  have ndS2 : ((deleteDetectPhase owner (serverRecordIds fetch)
      (pullPhase ctx owner s fetch).1).map Row.record_id).Nodup :=
    nodup_ids_deleteDetect owner _ _ ndP1
  have ndP3 : (((pushPhase ctx owner dps respond
      (deleteDetectPhase owner (serverRecordIds fetch)
        (pullPhase ctx owner s fetch).1)).1).map Row.record_id).Nodup :=
    nodup_ids_pushPhase ctx owner dps respond _ ndS2
  have ndS4 : ((aiRecs.foldl (pullStep ctx owner)
      ((pushPhase ctx owner dps respond
        (deleteDetectPhase owner (serverRecordIds fetch)
          (pullPhase ctx owner s fetch).1)).1, 0, 0)).1.map Row.record_id).Nodup :=
    nodup_ids_pullPhase ctx owner aiRecs _ 0 0 ndP3
  have ownP1 : ∀ x ∈ (pullPhase ctx owner s fetch).1, x.owner = owner :=
    ownerAll_pullPhase ctx owner fetch s 0 0 hOwnS
  have ownS2 : ∀ x ∈ deleteDetectPhase owner (serverRecordIds fetch)
      (pullPhase ctx owner s fetch).1, x.owner = owner :=
    fun x hx => ownP1 x (mem_deleteDetectPhase owner _ _ x hx)
  have ownP3 : ∀ x ∈ (pushPhase ctx owner dps respond
      (deleteDetectPhase owner (serverRecordIds fetch)
        (pullPhase ctx owner s fetch).1)).1, x.owner = owner :=
    ownerAll_pushPhase ctx owner dps respond _ ownS2
  have ownS4 : ∀ x ∈ (aiRecs.foldl (pullStep ctx owner)
      ((pushPhase ctx owner dps respond
        (deleteDetectPhase owner (serverRecordIds fetch)
          (pullPhase ctx owner s fetch).1)).1, 0, 0)).1, x.owner = owner :=
    ownerAll_pullPhase ctx owner aiRecs _ 0 0 ownP3
  have hRespS2 : (respond (formatForV3Sync ctx
      (pendingOf (deleteDetectPhase owner (serverRecordIds fetch)
        (pullPhase ctx owner s fetch).1) owner) dps)).map SyncedEntry.record_id
      = (pendingOf (deleteDetectPhase owner (serverRecordIds fetch)
        (pullPhase ctx owner s fetch).1) owner).map Row.record_id := by
    rw [hResp, formatForV3Sync_ids]
  have hpend_eq : pendingAtPush ctx owner fetch s
      = pendingOf (deleteDetectPhase owner (serverRecordIds fetch)
        (pullPhase ctx owner s fetch).1) owner := rfl
  have hpf := pendingFalse_S4 ctx owner dps respond fetch aiRecs s hndS hOwnS hndA hResp
  rw [pullPhase_get_spec2 ctx owner aiRecs _ k hndA]
  rw [deleteDetect_get_pointwise owner _ _ k ndS4]
  cases hfA2 : aiRecs.find? (fun rec => rec.record_id == k) with
  | none =>
    simp only []
    -- this key is untouched by the ai_reviews pull; show Phase 2 keeps it
    cases hg4 : dbGet (aiRecs.foldl (pullStep ctx owner)
        ((pushPhase ctx owner dps respond
          (deleteDetectPhase owner (serverRecordIds fetch)
            (pullPhase ctx owner s fetch).1)).1, 0, 0)).1 k with
    | none => simp only []
    | some r =>
      simp only []
      have hrid : r.record_id = k := dbGet_id _ _ _ hg4
      have hrpf : r.pending = false := hpf k r hg4
      -- the row is either low-version or its id is in the second fetch
      have hkeep : r.version ≤ 0 ∨ k ∈ serverRecordIds (remoteAfterSync ctx owner dps fetch respond s) := by
        have hg3 : dbGet (pushPhase ctx owner dps respond
            (deleteDetectPhase owner (serverRecordIds fetch)
              (pullPhase ctx owner s fetch).1)).1 k = some r := by
          have := hg4
          rw [pullPhase_get_spec ctx owner aiRecs _ 0 0 k hndA, hfA2] at this
          exact this
        rw [pushPhase_get_pointwise ctx owner dps respond _ k ndS2 hRespS2] at hg3
        cases hg2 : dbGet (deleteDetectPhase owner (serverRecordIds fetch)
            (pullPhase ctx owner s fetch).1) k with
        | none =>
          rw [hg2] at hg3
          cases hg3
        | some r0 =>
          rw [hg2] at hg3
          simp only [] at hg3
          have hr0id : r0.record_id = k := dbGet_id _ _ _ hg2
          by_cases hc : (r0.owner == owner && r0.pending) = true
          · rw [if_pos hc] at hg3
            by_cases hsd : isSoftDeleted r0.payload = true
            · rw [if_pos hsd] at hg3
              cases hg3
            · rw [if_neg hsd] at hg3
              right
              have hr0p : r0 ∈ pendingAtPush ctx owner fetch s := by
                rw [hpend_eq]
                exact (mem_pendingOf _ owner r0).mpr
                  ⟨dbGet_mem _ _ _ hg2, ((Bool.and_eq_true _ _).mp hc).1,
                   by simp [((Bool.and_eq_true _ _).mp hc).2]⟩
              have := ids2_of_live_pending ctx owner dps fetch respond s r0 hr0p (by simpa using hsd)
              rw [hr0id] at this
              exact this
          · have hcf : (r0.owner == owner && r0.pending) = false := by simpa using hc
            rw [hcf] at hg3
            simp only [Bool.false_eq_true, if_false] at hg3
            have hrr0 : r = r0 := by
              injection hg3 with h3
              exact h3.symm
            have hr0own : (r0.owner == owner) = true := by
              simp [ownS2 r0 (dbGet_mem _ _ _ hg2)]
            have hr0pf : r0.pending = false := by
              rw [hr0own, Bool.true_and] at hcf
              exact hcf
            -- Phase 2 of pass 1 kept this row: low version or present in the first fetch
            have hS2k := deleteDetect_get_pointwise owner (serverRecordIds fetch)
              (pullPhase ctx owner s fetch).1 k ndP1
            rw [hg2] at hS2k
            cases hgP1 : dbGet (pullPhase ctx owner s fetch).1 k with
            | none =>
              rw [hgP1] at hS2k
              cases hS2k
            | some r1 =>
              rw [hgP1] at hS2k
              simp only [] at hS2k
              by_cases hc1 : (r1.owner == owner && phase2Cond (serverRecordIds fetch) r1) = true
              · rw [if_pos hc1] at hS2k
                cases hS2k
              · have hc1f : (r1.owner == owner && phase2Cond (serverRecordIds fetch) r1) = false := by
                  simpa using hc1
                rw [hc1f] at hS2k
                simp only [Bool.false_eq_true, if_false] at hS2k
                have hr1r0 : r1 = r0 := by
                  injection hS2k with h3
                  exact h3.symm
                have hr1own : (r1.owner == owner) = true := by
                  simp [ownP1 r1 (dbGet_mem _ _ _ hgP1)]
                rw [hr1own, Bool.true_and] at hc1f
                have hr1pf : r1.pending = false := by rw [hr1r0]; exact hr0pf
                unfold phase2Cond at hc1f
                rw [hr1pf] at hc1f
                simp only [Bool.not_false, Bool.and_true] at hc1f
                rcases Bool.and_eq_false_iff.mp hc1f with hv0 | hcont
                · left
                  rw [hrr0, ← hr1r0]
                  have : ¬(0 < r1.version) := by simpa using hv0
                  omega
                · right
                  have hkin1 : k ∈ serverRecordIds fetch := by
                    have : ((serverRecordIds fetch).contains r1.record_id) = true := by
                      cases hcc : (serverRecordIds fetch).contains r1.record_id with
                      | true => rfl
                      | false =>
                        rw [hcc] at hcont
                        cases hcont
                    have hmem : r1.record_id ∈ serverRecordIds fetch := by simpa using this
                    rw [hr1r0, hr0id] at hmem
                    exact hmem
                  rcases List.mem_map.mp hkin1 with ⟨rec1, hrec1, hrk1⟩
                  by_cases hany1 : (pendingAtPush ctx owner fetch s).any
                      (fun t => t.record_id == rec1.record_id) = true
                  · exfalso
                    rcases List.any_eq_true.mp hany1 with ⟨t, ht, hpt⟩
                    have htk : t.record_id = rec1.record_id := beq_iff_eq.mp hpt
                    have htS2 : t ∈ deleteDetectPhase owner (serverRecordIds fetch)
                        (pullPhase ctx owner s fetch).1 := by
                      rw [hpend_eq] at ht
                      exact ((mem_pendingOf _ owner t).mp ht).1
                    have hgt := dbGet_eq_of_mem _ t ndS2 htS2
                    rw [htk, hrk1, hg2] at hgt
                    have htr0 : t = r0 := by
                      injection hgt with h3
                      exact h3.symm
                    have htp : t.pending = true := (pendingAtPush_sub ctx owner fetch s t ht).2
                    rw [htr0, hr0pf] at htp
                    cases htp
                  · have hany1f : (pendingAtPush ctx owner fetch s).any
                        (fun t => t.record_id == rec1.record_id) = false := by
                      simpa using hany1
                    have := ids2_of_unpushed_fetch ctx owner dps fetch respond s rec1 hrec1 hany1f
                    rw [hrk1] at this
                    exact this
      have hcond : (r.owner == owner
          && phase2Cond (serverRecordIds (remoteAfterSync ctx owner dps fetch respond s)) r) = false := by
        rcases hkeep with hkeep | hkeep
        · have : decide (r.version > 0) = false := by
            simp
            omega
          simp [phase2Cond, this]
        · have hmem2 : r.record_id ∈ serverRecordIds (remoteAfterSync ctx owner dps fetch respond s) := by
            rw [hrid]
            exact hkeep
          simp [phase2Cond, hmem2]
      rw [hcond]
      simp
  | some recA =>
    simp only []
    have hrecA : recA ∈ aiRecs := List.mem_of_find?_eq_some hfA2
    have hrecAk : recA.record_id = k := by
      have := List.find?_some hfA2
      exact beq_iff_eq.mp this
    have hkNF : k ∉ fetch.map WireRecord.record_id := by
      rw [← hrecAk]
      exact hDisjAF recA hrecA
    have hkNS : k ∉ s.map Row.record_id := by
      rw [← hrecAk]
      exact hDisjAS recA hrecA
    -- before the ai pull of pass 1 this key is absent
    have hg3 : dbGet (pushPhase ctx owner dps respond
        (deleteDetectPhase owner (serverRecordIds fetch)
          (pullPhase ctx owner s fetch).1)).1 k = none := by
      rw [pushPhase_get_pointwise ctx owner dps respond _ k ndS2 hRespS2]
      have hg2 : dbGet (deleteDetectPhase owner (serverRecordIds fetch)
          (pullPhase ctx owner s fetch).1) k = none := by
        rw [deleteDetect_get_pointwise owner _ _ k ndP1]
        have hgP1 : dbGet (pullPhase ctx owner s fetch).1 k = none := by
          rw [pullPhase_get_spec2 ctx owner fetch s k hndF, find?_key_none _ _ _ hkNF]
          exact dbGet_none_of_not_mem s k hkNS
        rw [hgP1]
      rw [hg2]
    have hg4 : dbGet (aiRecs.foldl (pullStep ctx owner)
        ((pushPhase ctx owner dps respond
          (deleteDetectPhase owner (serverRecordIds fetch)
            (pullPhase ctx owner s fetch).1)).1, 0, 0)).1 k
        = match parseV3Record ctx recA with
          | none => none
          | some p => some (importedRow owner recA p) := by
      rw [pullPhase_get_spec ctx owner aiRecs _ 0 0 k hndA, hfA2]
      simp only []
      rw [hg3]
    cases hp : parseV3Record ctx recA with
    | none =>
      rw [hp] at hg4
      simp only [] at hg4
      rw [hg4]
    | some p =>
      rw [hp] at hg4
      simp only [] at hg4
      rw [hg4]
      simp only []
      have hkN2 : k ∉ serverRecordIds (remoteAfterSync ctx owner dps fetch respond s) := by
        intro hk2
        rcases ids2_sub ctx owner dps fetch respond s k hk2 with h1 | ⟨t, ht, htk⟩
        · exact hkNF h1
        · apply hkNS
          rw [← htk]
          exact List.mem_map_of_mem _ (pendingAtPush_sub ctx owner fetch s t ht).1
      have hvA2 : 0 < recA.version := hvA recA hrecA
      have hcond : ((importedRow owner recA p).owner == owner
          && phase2Cond (serverRecordIds (remoteAfterSync ctx owner dps fetch respond s))
            (importedRow owner recA p)) = true := by
        have hnm : recA.record_id ∉ serverRecordIds (remoteAfterSync ctx owner dps fetch respond s) := by
          rw [hrecAk]
          exact hkN2
        simp [phase2Cond, importedRow, hvA2, hnm]
      rw [hcond]
      simp only [if_true]

theorem pushPhase_noop (ctx : CryptoCtx) (owner : String) (dps : List String)
    (respond : List WireRecord → List SyncedEntry) (S : Store)
    (h : pendingOf S owner = []) :
    (pushPhase ctx owner dps respond S).1 = S := by
  unfold pushPhase
  rw [h]
  rfl

/-- C6 (amended): one sync pass against a remote store that accepts
every pushed record, followed—with no intervening local mutation and
no remote change (the second fetch is exactly the live set the first
pass left on the server)—by a second pass, leaves the keyed store
pointwise identical to the state after the first pass, and the first
pass leaves zero records with `pending = true`.  Hypotheses: the store
is keyed (no duplicate `record_id`s) and owned by the syncing owner;
fetch responses carry no duplicate ids; ai_review envelopes have
positive versions and ids disjoint from the todos envelopes and the
local store; the push response echoes exactly the pushed ids; and no
todos row or todos envelope masquerades as an ai_review. -/
theorem c6_sync_idempotence (ctx : CryptoCtx) (owner : String) (dps : List String)
    (respond : List WireRecord → List SyncedEntry) (fetch aiRecs : List WireRecord) (s : Store)
    (hndS : (s.map Row.record_id).Nodup)
    (hOwnS : ∀ r ∈ s, r.owner = owner)
    (hndF : (fetch.map WireRecord.record_id).Nodup)
    (hndA : (aiRecs.map WireRecord.record_id).Nodup)
    (hvA : ∀ rec ∈ aiRecs, 0 < rec.version)
    (hDisjAF : ∀ rec ∈ aiRecs, rec.record_id ∉ fetch.map WireRecord.record_id)
    (hDisjAS : ∀ rec ∈ aiRecs, rec.record_id ∉ s.map Row.record_id)
    (hResp : ∀ ws, (respond ws).map SyncedEntry.record_id = ws.map WireRecord.record_id)
    (hNoRevS : ∀ r ∈ s, isReviewRow r = false)
    (hNoRevF : ∀ rec ∈ fetch, ∀ p, parseV3Record ctx rec = some p →
        isReviewRow (importedRow owner rec p) = false)
    (hAiRid : ∀ rec ∈ aiRecs, ∀ p, parseV3Record ctx rec = some p →
        strField (deserializeTodo (importedRow owner rec p)) "record_id" = rec.record_id) :
    (∀ r ∈ (performSync ctx owner dps fetch respond (some aiRecs) s).store, r.pending = false)
    ∧ (∀ k, dbGet (performSync ctx owner dps
          (remoteAfterSync ctx owner dps fetch respond s) respond (some aiRecs)
          (performSync ctx owner dps fetch respond (some aiRecs) s).store).store k
        = dbGet (performSync ctx owner dps fetch respond (some aiRecs) s).store k) := by
  have horig4 : ∀ r ∈ (pullPhase ctx owner
      (pushPhase ctx owner dps respond
        (deleteDetectPhase owner (serverRecordIds fetch)
          (pullPhase ctx owner s fetch).1)).1 aiRecs).1,
      rowOrigin ctx owner fetch aiRecs s r :=
    rowOrigin_S4 ctx owner fetch aiRecs dps respond s
  have hnoop1 : (getAiReviewsByOwner ((pullPhase ctx owner
      (pushPhase ctx owner dps respond
        (deleteDetectPhase owner (serverRecordIds fetch)
          (pullPhase ctx owner s fetch).1)).1 aiRecs).1) owner).foldl
      (aiDeleteStep (serverRecordIds aiRecs))
      ((pullPhase ctx owner
        (pushPhase ctx owner dps respond
          (deleteDetectPhase owner (serverRecordIds fetch)
            (pullPhase ctx owner s fetch).1)).1 aiRecs).1)
      = (pullPhase ctx owner
        (pushPhase ctx owner dps respond
          (deleteDetectPhase owner (serverRecordIds fetch)
            (pullPhase ctx owner s fetch).1)).1 aiRecs).1 :=
    aiDetect_noop_of_origins ctx owner fetch aiRecs s _ hNoRevS hNoRevF hAiRid horig4
  have hstore1 : (performSync ctx owner dps fetch respond (some aiRecs) s).store
      = (pullPhase ctx owner
        (pushPhase ctx owner dps respond
          (deleteDetectPhase owner (serverRecordIds fetch)
            (pullPhase ctx owner s fetch).1)).1 aiRecs).1 := hnoop1
  have ndS2 : ((deleteDetectPhase owner (serverRecordIds fetch)
      (pullPhase ctx owner s fetch).1).map Row.record_id).Nodup :=
    nodup_ids_deleteDetect owner _ _ (nodup_ids_pullPhase ctx owner fetch s 0 0 hndS)
  have ndS4 : (((pullPhase ctx owner
      (pushPhase ctx owner dps respond
        (deleteDetectPhase owner (serverRecordIds fetch)
          (pullPhase ctx owner s fetch).1)).1 aiRecs).1).map Row.record_id).Nodup :=
    nodup_ids_pullPhase ctx owner aiRecs _ 0 0
      (nodup_ids_pushPhase ctx owner dps respond _ ndS2)
  have hpf : ∀ k r, dbGet ((pullPhase ctx owner
      (pushPhase ctx owner dps respond
        (deleteDetectPhase owner (serverRecordIds fetch)
          (pullPhase ctx owner s fetch).1)).1 aiRecs).1) k = some r → r.pending = false :=
    pendingFalse_S4 ctx owner dps respond fetch aiRecs s hndS hOwnS hndA hResp
  constructor
  · intro r hr
    rw [hstore1] at hr
    exact hpf r.record_id r (dbGet_eq_of_mem _ r ndS4 hr)
  · intro k
    rw [hstore1]
    have hQ1 : (remoteAfterSync ctx owner dps fetch respond s).foldl (pullStep ctx owner)
        ((pullPhase ctx owner
          (pushPhase ctx owner dps respond
            (deleteDetectPhase owner (serverRecordIds fetch)
              (pullPhase ctx owner s fetch).1)).1 aiRecs).1, 0, 0)
        = ((pullPhase ctx owner
          (pushPhase ctx owner dps respond
            (deleteDetectPhase owner (serverRecordIds fetch)
              (pullPhase ctx owner s fetch).1)).1 aiRecs).1, 0, 0) :=
      pullPhase_noop ctx owner (remoteAfterSync ctx owner dps fetch respond s) _ 0 0
        (pull2_noop_cond ctx owner dps respond fetch aiRecs s
          hndS hOwnS hndF hndA hDisjAF hDisjAS hResp)
    have hpend2 : pendingOf (deleteDetectPhase owner
        (serverRecordIds (remoteAfterSync ctx owner dps fetch respond s))
        ((pullPhase ctx owner
          (pushPhase ctx owner dps respond
            (deleteDetectPhase owner (serverRecordIds fetch)
              (pullPhase ctx owner s fetch).1)).1 aiRecs).1)) owner = [] := by
      rw [List.eq_nil_iff_forall_not_mem]
      intro t ht
      rcases (mem_pendingOf _ owner t).mp ht with ⟨htQ2, _, htp⟩
      have htS4 := mem_deleteDetectPhase owner _ _ t htQ2
      have := hpf t.record_id t (dbGet_eq_of_mem _ t ndS4 htS4)
      rw [this] at htp
      cases htp
    have hpush2 : (pushPhase ctx owner dps respond
        (deleteDetectPhase owner
          (serverRecordIds (remoteAfterSync ctx owner dps fetch respond s))
          ((pullPhase ctx owner
            (pushPhase ctx owner dps respond
              (deleteDetectPhase owner (serverRecordIds fetch)
                (pullPhase ctx owner s fetch).1)).1 aiRecs).1))).1
        = deleteDetectPhase owner
          (serverRecordIds (remoteAfterSync ctx owner dps fetch respond s))
          ((pullPhase ctx owner
            (pushPhase ctx owner dps respond
              (deleteDetectPhase owner (serverRecordIds fetch)
                (pullPhase ctx owner s fetch).1)).1 aiRecs).1) :=
      pushPhase_noop ctx owner dps respond _ hpend2
    have horigQ4 : ∀ r ∈ (pullPhase ctx owner
        (deleteDetectPhase owner
          (serverRecordIds (remoteAfterSync ctx owner dps fetch respond s))
          ((pullPhase ctx owner
            (pushPhase ctx owner dps respond
              (deleteDetectPhase owner (serverRecordIds fetch)
                (pullPhase ctx owner s fetch).1)).1 aiRecs).1)) aiRecs).1,
        rowOrigin ctx owner fetch aiRecs s r := by
      intro r hr
      rcases mem_pullPhase ctx owner aiRecs _ 0 0 r hr with h1 | ⟨recA, hrecA, p, hp, hxp⟩
      · exact horig4 r (mem_deleteDetectPhase owner _ _ r h1)
      · exact Or.inr (Or.inr ⟨recA, hrecA, p, hp, hxp⟩)
    have hnoop2 := aiDetect_noop_of_origins ctx owner fetch aiRecs s _
      hNoRevS hNoRevF hAiRid horigQ4
    have hstore2 : (performSync ctx owner dps
        (remoteAfterSync ctx owner dps fetch respond s) respond (some aiRecs)
        ((pullPhase ctx owner
          (pushPhase ctx owner dps respond
            (deleteDetectPhase owner (serverRecordIds fetch)
              (pullPhase ctx owner s fetch).1)).1 aiRecs).1)).store
        = (pullPhase ctx owner
          (deleteDetectPhase owner
            (serverRecordIds (remoteAfterSync ctx owner dps fetch respond s))
            ((pullPhase ctx owner
              (pushPhase ctx owner dps respond
                (deleteDetectPhase owner (serverRecordIds fetch)
                  (pullPhase ctx owner s fetch).1)).1 aiRecs).1)) aiRecs).1 := by
      show (getAiReviewsByOwner ((pullPhase ctx owner
          (pushPhase ctx owner dps respond
            (deleteDetectPhase owner
              (serverRecordIds (remoteAfterSync ctx owner dps fetch respond s))
              ((remoteAfterSync ctx owner dps fetch respond s).foldl (pullStep ctx owner)
                ((pullPhase ctx owner
                  (pushPhase ctx owner dps respond
                    (deleteDetectPhase owner (serverRecordIds fetch)
                      (pullPhase ctx owner s fetch).1)).1 aiRecs).1, 0, 0)).1)).1 aiRecs).1) owner).foldl
          (aiDeleteStep (serverRecordIds aiRecs))
          ((pullPhase ctx owner
            (pushPhase ctx owner dps respond
              (deleteDetectPhase owner
                (serverRecordIds (remoteAfterSync ctx owner dps fetch respond s))
                ((remoteAfterSync ctx owner dps fetch respond s).foldl (pullStep ctx owner)
                  ((pullPhase ctx owner
                    (pushPhase ctx owner dps respond
                      (deleteDetectPhase owner (serverRecordIds fetch)
                        (pullPhase ctx owner s fetch).1)).1 aiRecs).1, 0, 0)).1)).1 aiRecs).1)
        = _
      rw [hQ1]
      rw [hpush2]
      exact hnoop2
    rw [hstore2]
    exact pass2_pointwise ctx owner dps respond fetch aiRecs s
      hndS hOwnS hndF hndA hvA hDisjAF hDisjAS hResp k

/-- C6 witness: a store holding one fresh pending todo, an empty todos
fetch, one ai_review envelope and an accept-everything remote. -/
theorem c6_witness :
    (([cRow6].map Row.record_id).Nodup
      ∧ (∀ r ∈ [cRow6], r.owner = "o")
      ∧ (∀ rec ∈ [cAiRec6], 0 < rec.version))
    ∧ ((∀ r ∈ (performSync cCtx6 "o" [] [] cRespond6 (some [cAiRec6]) [cRow6]).store,
          r.pending = false)
       ∧ (∀ k, dbGet (performSync cCtx6 "o" []
            (remoteAfterSync cCtx6 "o" [] [] cRespond6 [cRow6]) cRespond6 (some [cAiRec6])
            (performSync cCtx6 "o" [] [] cRespond6 (some [cAiRec6]) [cRow6]).store).store k
          = dbGet (performSync cCtx6 "o" [] [] cRespond6 (some [cAiRec6]) [cRow6]).store k)) :=
  ⟨⟨by decide, by decide, by decide⟩,
   c6_sync_idempotence cCtx6 "o" [] cRespond6 [] [cAiRec6] [cRow6]
    (by decide) (by decide) (by decide) (by decide) (by decide)
    (by decide) (by decide)
    (fun ws => by
      unfold cRespond6
      rw [List.map_map]
      rfl)
    (by decide)
    (fun rec h => absurd h (List.not_mem_nil rec))
    (by
      intro rec hrec p hp
      have he : rec = cAiRec6 := List.mem_singleton.mp hrec
      subst he
      have hpar : parseV3Record cCtx6 cAiRec6 = some cAiPayload6 := rfl
      rw [hpar] at hp
      injection hp with hpe
      rw [← hpe]
      decide)⟩
